import Mathlib

/-!
# Verification of the chp-meet-scores core

A shallow embedding of the core of the `chp-meet-scores` repository
(`src/python/core/gym_normalizer.py`, `src/python/core/division_detector.py`,
`src/python/core/db_builder.py`, and the score/rank parsers of
`src/python/adapters/scorecat_adapter.py` and
`src/python/adapters/generic_adapter.py`), together with theorems settling
the specification claims about it.

Modelling conventions:

* Python strings are modelled as `Str := List Nat`, the list of character
  code points.  The case, whitespace and word-character predicates are the
  ASCII ones (the data processed by the program is ASCII); Python's
  full-Unicode behaviour on ASCII text coincides with this model.
* Python `float` parsing is modelled by `pyFloat`, Python `int` parsing by
  `pyInt`, both restricted to optional-sign decimal literals (no exponents,
  no `inf`/`nan` literals, no underscores).  Decimal literals are represented
  exactly as rationals, so sign tests and equality are exact, as they are for
  the decimal score strings the program handles.
* Python dicts are modelled as association lists in insertion order
  (`alookup`, `aset`, …); Python sets as first-occurrence-deduplicated lists.
  Where the source iterates over a Python `set` (whose order is unspecified)
  the model fixes first-occurrence order; no theorem below depends on the
  choice except through explicit hypotheses.
-/

namespace MeetScores

/-- A Python string, as its list of character code points. -/
abbrev Str := List Nat

/-- Code points of a Lean string literal, for concrete test inputs. -/
def ofStr (s : String) : Str := s.data.map Char.toNat

/-- ASCII whitespace, the characters matched by Python's `str.strip()`,
`str.split()` and `re`'s `\s` on ASCII text. -/
def isWsp (c : Nat) : Bool :=
  c = 32 || c = 9 || c = 10 || c = 11 || c = 12 || c = 13

/-- ASCII uppercase letter `A`-`Z`. -/
def isUpperC (c : Nat) : Bool := 65 ≤ c && c ≤ 90

/-- ASCII lowercase letter `a`-`z`. -/
def isLowerC (c : Nat) : Bool := 97 ≤ c && c ≤ 122

/-- ASCII letter. -/
def isAlphaC (c : Nat) : Bool := isUpperC c || isLowerC c

/-- ASCII digit `0`-`9`. -/
def isDigitC (c : Nat) : Bool := 48 ≤ c && c ≤ 57

/-- Regex word character `[A-Za-z0-9_]` (ASCII). -/
def isWordC (c : Nat) : Bool := isAlphaC c || isDigitC c || c = 95

/-- `str.lower` on one character (ASCII). -/
def lowerC (c : Nat) : Nat := if isUpperC c then c + 32 else c

/-- `str.upper` on one character (ASCII). -/
def upperC (c : Nat) : Nat := if isLowerC c then c - 32 else c

/-- `str.lower`. -/
def lowerS (s : Str) : Str := s.map lowerC

/-- `str.upper`. -/
def upperS (s : Str) : Str := s.map upperC

/-- `str.strip()`: drop leading and trailing whitespace. -/
def strip (s : Str) : Str :=
  ((s.dropWhile isWsp).reverse.dropWhile isWsp).reverse

/-- Helper for `collapse`: `prevW` records whether the previous character
was whitespace (so the current run has already emitted its space). -/
def collapseAux : Bool → Str → Str
  | _, [] => []
  | prevW, c :: cs =>
    if isWsp c then
      if prevW then collapseAux true cs else 32 :: collapseAux true cs
    else
      c :: collapseAux false cs

/-- `re.sub(r'\s+', ' ', s)`: each whitespace run becomes a single space. -/
def collapse (s : Str) : Str := collapseAux false s

/-- `str.split(sep)` for a one-character separator: keeps empty pieces,
`"" ↦ [""]`. -/
def splitOnC (d : Nat) : Str → List Str
  | [] => [[]]
  | c :: cs =>
    match splitOnC d cs with
    | [] => [[c]]
    | p :: ps => if c = d then [] :: p :: ps else (c :: p) :: ps

/-- `sep.join(pieces)` for a one-character separator. -/
def joinSep (d : Nat) : List Str → Str
  | [] => []
  | [p] => p
  | p :: ps => p ++ d :: joinSep d ps

/-- Pieces of `s` delimited by whitespace characters (empty pieces kept). -/
def splitWsp : Str → List Str
  | [] => [[]]
  | c :: cs =>
    match splitWsp cs with
    | [] => [[c]]
    | p :: ps => if isWsp c then [] :: p :: ps else (c :: p) :: ps

/-- Python `str.split()` (no separator): maximal nonempty runs of
non-whitespace characters. -/
def pyWords (s : Str) : List Str := (splitWsp s).filter (· ≠ [])

/-- Value of a digit string (assumes all digits). -/
def digValNat (s : Str) : Nat := s.foldl (fun a c => a * 10 + (c - 48)) 0

/-- All characters are ASCII digits. -/
def allDigits (s : Str) : Bool := s.all isDigitC

/-- Python `int(s)`: strip whitespace, optional sign, one or more digits.
(Modelled without underscore separators.) -/
def pyInt (s : Str) : Option Int :=
  let t := strip s
  match t with
  | 43 :: r => if r ≠ [] && allDigits r then some (digValNat r : Int) else none
  | 45 :: r => if r ≠ [] && allDigits r then some (-(digValNat r : Int)) else none
  | _ => if t ≠ [] && allDigits t then some (digValNat t : Int) else none

/-- Apply an optional minus sign to a magnitude. -/
def signApply (neg : Bool) (n : Nat) : Int :=
  if neg then -(n : Int) else (n : Int)

/-- The unsigned part of a decimal literal: digits, optionally with a single
decimal point (at least one digit overall).  The value `ip.fp` is the exact
rational `(ip * 10^|fp| + fp) / 10^|fp|`. -/
def pyFloatMag (neg : Bool) (u : Str) : Option ℚ :=
  match splitOnC 46 u with
  | [ip] =>
    if ip ≠ [] && allDigits ip then some (mkRat (signApply neg (digValNat ip)) 1)
    else none
  | [ip, fp] =>
    if (ip ≠ [] || fp ≠ []) && allDigits ip && allDigits fp then
      some (mkRat (signApply neg (digValNat ip * 10 ^ fp.length + digValNat fp))
        (10 ^ fp.length))
    else none
  | _ => none

/-- `float` on an already-stripped string: optional sign, then a decimal
literal. -/
def pyFloatCore : Str → Option ℚ
  | 43 :: r => pyFloatMag false r
  | 45 :: r => pyFloatMag true r
  | t => pyFloatMag false t

/-- Python `float(s)` restricted to optional-sign decimal literals
(`123`, `1.5`, `.5`, `5.`); the exact rational value. -/
def pyFloat (s : Str) : Option ℚ := pyFloatCore (strip s)

/-- A dynamically-typed Python value as passed to the adapters' parsers:
`None`, an `int`, or a string.  (`float` inputs reach `_parse_score` only
through the numeric branch, modelled by `pyNum` below.) -/
inductive PyVal where
  | none : PyVal
  | int (z : Int) : PyVal
  | str (s : Str) : PyVal
deriving DecidableEq

/-- `ScoreCatAdapter._parse_rank` (scorecat_adapter.py lines 157-171):
`None ↦ None`; `int`s returned unchanged; otherwise strip, reject empty,
drop a single trailing `T`/`t`, and parse as `int`, `None` on failure. -/
def scParseRank (v : PyVal) : Option Int :=
  match v with
  | .none => none
  | .int z => some z
  | .str s =>
    let t := strip s
    if t = [] then none
    else
      -- re.sub(r'[Tt]$', '', s): remove one trailing 'T' or 't'
      let t' := match t.reverse with
        | c :: rest => if c = 84 ∨ c = 116 then rest.reverse else t
        | [] => t
      pyInt t'

/-- `ScoreCatAdapter._parse_score` (scorecat_adapter.py lines 141-155),
string branch: strip; empty or one of `nan/null/0/0.0/0.000`
(case-insensitively) is `None`; otherwise `float(s)` if positive else `None`. -/
def scParseScore (s : Str) : Option ℚ :=
  if strip s = [] then none
  else if lowerS (strip s) = ofStr "nan" ∨ lowerS (strip s) = ofStr "null" ∨
          lowerS (strip s) = ofStr "0" ∨ lowerS (strip s) = ofStr "0.0" ∨
          lowerS (strip s) = ofStr "0.000" then none
  else
    match pyFloat (strip s) with
    | some v => if 0 < v then some v else none
    | none => none

/-- `GenericAdapter._parse_score` (generic_adapter.py lines 237-249),
string branch: strip; empty is `None`; otherwise `float(s)` if positive
else `None`. -/
def genParseScore (s : Str) : Option ℚ :=
  if strip s = [] then none
  else
    match pyFloat (strip s) with
    | some v => if 0 < v then some v else none
    | none => none

/-! ## Division scoring (`division_detector.py`) -/

/-- Is there a regex word boundary (`\b`) right after position 2, i.e. is the
string exactly two characters long or is its third character a non-word
character?  Used by the `^CH\b`, `^JR\.?\b`, `^SR\.?\b` patterns: since `.` is
itself a non-word character, `^JR\.?\b` matches exactly when the string starts
with `JR` and either ends there or continues with a non-word character, which
is the same condition as for `^CH\b`. -/
def boundaryAt2 (u : Str) : Bool :=
  match u with
  | [_, _] => true
  | _ :: _ :: c :: _ => !(isWordC c)
  | _ => false

/-- The age-band base score of `_score_division` (division_detector.py
lines 38-51): `CHILD`/`CH∙` 100, `YOUTH` 200, `JUNIOR`/`JR∙` 300,
`SENIOR`/`SR∙` 400, otherwise 500 (the function returns 500 outright for
unmatched labels). -/
def bandOf (u : Str) : Nat :=
  if (ofStr "CHILD").isPrefixOf u || ((ofStr "CH").isPrefixOf u && boundaryAt2 u) then 100
  else if (ofStr "YOUTH").isPrefixOf u then 200
  else if (ofStr "JUNIOR").isPrefixOf u || ((ofStr "JR").isPrefixOf u && boundaryAt2 u) then 300
  else if (ofStr "SENIOR").isPrefixOf u || ((ofStr "SR").isPrefixOf u && boundaryAt2 u) then 400
  else 500

/-- The sub-letter offset from `re.search(r'[.\s]([A-D])$', upper)` (lines
32-35): 1-4 when the string ends in `A`-`D` preceded by a period or
whitespace, else 0. -/
def letterOffset (u : Str) : Nat :=
  match u.reverse with
  | l :: s :: _ => if (65 ≤ l && l ≤ 68) && (s = 46 || isWsp s) then l - 64 else 0
  | _ => 0

/-- `_score_division` (division_detector.py lines 14-62): uppercase the
stripped name; unmatched band returns 500 immediately; otherwise band plus
sub-letter offset, where a missing letter gives +5 for names longer than 3
characters and +0 for short abbreviations. -/
def scoreDivision (name : Str) : Nat :=
  let upper := upperS (strip name)
  let lo := letterOffset upper
  let b := bandOf upper
  if b = 500 then 500
  else if lo = 0 then (if 3 < upper.length then b + 5 else b) else b + lo

/-- The division ordering score as the specification's §4.2 describes it:
always `band + offset`, the offset being the trailing-letter value 1-4 when a
letter is present and otherwise 0 for stripped length ≤ 3 and 5 for longer
labels — including for labels in the unmatched 500 band. -/
def claimDivisionScore (name : Str) : Nat :=
  let u := upperS (strip name)
  bandOf u + (if letterOffset u ≠ 0 then letterOffset u else if u.length ≤ 3 then 0 else 5)

/-- The tie-marker stripping step as the (amended) claim C4 describes it:
remove a single trailing `T` or `t` before integer parsing. -/
def stripTieMarker (t : Str) : Str :=
  match t.reverse with
  | c :: rest => if c = 84 ∨ c = 116 then rest.reverse else t
  | [] => t

/-- Claim C4 as stated: every parsed rank is positive (any non-positive rank
text resolves to absent). -/
def rankClaimC4 : Prop :=
  ∀ (s : Str) (z : Int), scParseRank (.str s) = some z → 0 < z

/-- Claim C6 as stated: the division ordering score always equals
band + offset (`claimDivisionScore`). -/
def divisionClaimC6 : Prop :=
  ∀ s : Str, scoreDivision s = claimDivisionScore s

/-! ## Data model (`models.py`, `db_builder.py`) -/

/-- The five events of `db_builder.EVENTS`. -/
inductive Event where
  | vault | bars | beam | floor | aa
deriving DecidableEq

/-- `db_builder.EVENTS = ['vault', 'bars', 'beam', 'floor', 'aa']`. -/
def EVENTS : List Event := [.vault, .bars, .beam, .floor, .aa]

/-- One athlete dict as produced by an adapter (and one row of the `results`
table): name/gym/session/level/division strings, the five optional scores,
the free-form `rank`/`num` strings, and the five optional per-event ranks
(`a.get('<event>_rank')`, present only for scorecat sources). -/
structure Athlete where
  name : Str
  gym : Str
  session : Str
  level : Str
  division : Str
  vault : Option ℚ
  bars : Option ℚ
  beam : Option ℚ
  floor : Option ℚ
  aa : Option ℚ
  rank : Str
  num : Str
  vaultRank : Option Int
  barsRank : Option Int
  beamRank : Option Int
  floorRank : Option Int
  aaRank : Option Int
deriving DecidableEq

/-- The `results` column named by an event. -/
def score (a : Athlete) : Event → Option ℚ
  | .vault => a.vault
  | .bars => a.bars
  | .beam => a.beam
  | .floor => a.floor
  | .aa => a.aa

/-- The `rank_lookup` column `rank_cols[event]`. -/
def rankOf (a : Athlete) : Event → Option Int
  | .vault => a.vaultRank
  | .bars => a.barsRank
  | .beam => a.beamRank
  | .floor => a.floorRank
  | .aa => a.aaRank

/-- `MeetConfig` (models.py): the fields `db_builder` reads.  (`title_lines`,
`division_order` and `year` are consumed only by the out-of-scope renderers.) -/
structure MeetConfig where
  state : Str
  meetName : Str
  association : Str
  sourceType : Str
deriving DecidableEq

/-- One row of the `winners` table. -/
structure WinnerRow where
  state : Str
  meetName : Str
  association : Str
  name : Str
  gym : Str
  session : Str
  level : Str
  division : Str
  event : Event
  score : ℚ
  isTie : Nat
deriving DecidableEq

/-- The (session, level, division) partition key of a results row. -/
def partKey (a : Athlete) : Str × Str × Str := (a.session, a.level, a.division)

/-- First-occurrence deduplication with an accumulator of seen elements;
models `SELECT DISTINCT` (and Python set construction).  The `ORDER BY`
clauses on the `SELECT DISTINCT session, level, division` queries only
reorder the combos, which no claim depends on. -/
def dedupAux {α : Type} [DecidableEq α] (seen : List α) : List α → List α
  | [] => []
  | x :: xs => if x ∈ seen then dedupAux seen xs else x :: dedupAux (x :: seen) xs

/-- First-occurrence deduplication. -/
def dedupF {α : Type} [DecidableEq α] (l : List α) : List α := dedupAux [] l

/-- Association-list lookup (Python `dict` access / `in`). -/
def alookup {β : Type} (k : Str) : List (Str × β) → Option β
  | [] => none
  | (k', v) :: rest => if k' = k then some v else alookup k rest

/-- Association-list update-or-append (Python `dict` assignment). -/
def aset {β : Type} (l : List (Str × β)) (k : Str) (v : β) : List (Str × β) :=
  match l with
  | [] => [(k, v)]
  | (k', v') :: rest => if k' = k then (k, v) :: rest else (k', v') :: aset rest k v

/-- SQL `MAX` over a list of values (`none` on the empty list). -/
def maxList : List ℚ → Option ℚ
  | [] => none
  | x :: xs => some (xs.foldl max x)

/-- The rows of the partition `(session, level, division) = c`, i.e. the
`WHERE session = ? AND level = ? AND division = ?` filter.  The
`meet_name = ?` conjunct always holds because the database is rebuilt from
scratch with a single config per run, so it is not modelled. -/
def partitionOf (athletes : List Athlete) (c : Str × Str × Str) : List Athlete :=
  athletes.filter fun a => partKey a = c

/-- Whether an athlete has a positive recorded score for an event
(`{event} IS NOT NULL AND {event} > 0`). -/
def posScore (a : Athlete) (e : Event) : Bool :=
  match score a e with
  | some v => decide (0 < v)
  | none => false

/-- `_build_winners_score_based` (db_builder.py lines 95-135): per distinct
(session, level, division) combo and per event, take `MAX({event})` over the
partition's non-NULL scores; skip if NULL; otherwise every row of the
partition whose score equals the max becomes a winner row carrying that max
and `is_tie = 1` iff there is more than one such row. -/
def scoreBasedWinners (cfg : MeetConfig) (athletes : List Athlete) : List WinnerRow :=
  (dedupF (athletes.map partKey)).flatMap fun c =>
    EVENTS.flatMap fun e =>
      let part := partitionOf athletes c
      match maxList (part.filterMap fun a => score a e) with
      | none => []
      | some m =>
        let ws := part.filter fun a => score a e = some m
        let tie := if 1 < ws.length then 1 else 0
        ws.map fun a =>
          ⟨cfg.state, cfg.meetName, cfg.association, a.name, a.gym,
           c.1, c.2.1, c.2.2, e, m, tie⟩

/-- The join + rank-1 filter of `_build_winners_rank_based` (lines 184-195):
each pair of a results row `r` in the partition and a `rank_lookup` row `rl`
agreeing on name, gym, session, level and division, with `rl.{rank_col} = 1`
and `r.{event}` non-NULL and positive, contributes one candidate row (the
results row, with multiplicity per matching pair).  `rank_lookup` is filled
from the same athletes list (lines 150-163). -/
def rank1Candidates (athletes : List Athlete) (c : Str × Str × Str) (e : Event) :
    List Athlete :=
  athletes.flatMap fun r =>
    athletes.filterMap fun rl =>
      if partKey r = c ∧ r.name = rl.name ∧ r.gym = rl.gym ∧
          r.session = rl.session ∧ r.level = rl.level ∧ r.division = rl.division ∧
          rankOf rl e = some 1 ∧ posScore r e = true
      then some r else none

/-- `_build_winners_rank_based` (db_builder.py lines 138-226): per combo and
event, the rank-1-with-positive-score candidates; if none, fall back to the
rows whose score equals the maximum positive score of the partition (skip
when there is none); `is_tie = 1` iff more than one winner row; each row
carries the athlete's actual score `r.{event}`. -/
def rankBasedWinners (cfg : MeetConfig) (athletes : List Athlete) : List WinnerRow :=
  (dedupF (athletes.map partKey)).flatMap fun c =>
    EVENTS.flatMap fun e =>
      let part := partitionOf athletes c
      let cands := rank1Candidates athletes c e
      let winners :=
        if cands ≠ [] then cands
        else
          match maxList (part.filterMap fun a => (score a e).filter fun v => decide (0 < v)) with
          | none => []
          | some m => part.filter fun a => score a e = some m
      let tie := if 1 < winners.length then 1 else 0
      winners.map fun a =>
        ⟨cfg.state, cfg.meetName, cfg.association, a.name, a.gym,
         c.1, c.2.1, c.2.2, e, (score a e).getD 0, tie⟩

/-- The two logical tables of the SQLite file. -/
structure DB where
  results : List Athlete
  winners : List WinnerRow
deriving DecidableEq

/-- The winners table for a config: rank-based for `scorecat` sources,
score-based otherwise (db_builder.py lines 66-70). -/
def buildWinners (cfg : MeetConfig) (athletes : List Athlete) : List WinnerRow :=
  if cfg.sourceType = ofStr "scorecat" then rankBasedWinners cfg athletes
  else scoreBasedWinners cfg athletes

/-- `build_database` (db_builder.py lines 16-73).  `prior` is the content of
any database file already at `db_path`; lines 27-28 remove such a file
before connecting, so the prior content is discarded whatever it was, the
`results` table holds exactly the current athletes (each tagged with the
current config's state/meet_name/association), and `winners` is rebuilt from
them. -/
def buildDatabase (prior : Option DB) (cfg : MeetConfig) (athletes : List Athlete) : DB :=
  match prior with
  | some _ => ⟨athletes, buildWinners cfg athletes⟩
  | none => ⟨athletes, buildWinners cfg athletes⟩

/-! ## Claim-side definitions for C1/C2 (from the spec's §4.3 wording) -/

/-- The positive recorded scores of a partition for an event. -/
def posScores (athletes : List Athlete) (c : Str × Str × Str) (e : Event) : List ℚ :=
  (partitionOf athletes c).filterMap fun a => (score a e).filter fun v => decide (0 < v)

/-- The maximum positive score of a partition for an event (`none` when no
record has a positive score). -/
def maxPosScore (athletes : List Athlete) (c : Str × Str × Str) (e : Event) : Option ℚ :=
  maxList (posScores athletes c e)

/-- The claim's winner set: the athletes of the partition whose score for
the event equals the partition's maximum positive score. -/
def maxScorers (athletes : List Athlete) (c : Str × Str × Str) (e : Event) : List Athlete :=
  (partitionOf athletes c).filter fun a =>
    match maxPosScore athletes c e with
    | some m => decide (score a e = some m)
    | none => false

/-- The claim's rank-based candidate set: athletes of the partition with
per-event rank 1 and a positive recorded score. -/
def rank1Positive (athletes : List Athlete) (c : Str × Str × Str) (e : Event) : List Athlete :=
  (partitionOf athletes c).filter fun a => rankOf a e = some 1 && posScore a e

/-- The claim's rank-based winner set: the rank-1-with-positive-score
candidates when any exist, otherwise the maximum-positive-score athletes
(empty when the partition has no positive score for the event). -/
def specRankWinners (athletes : List Athlete) (c : Str × Str × Str) (e : Event) :
    List Athlete :=
  if rank1Positive athletes c e = [] then maxScorers athletes c e
  else rank1Positive athletes c e

/-- The winner row written for athlete `a` in partition `c` for event `e`. -/
def mkWinnerRow (cfg : MeetConfig) (c : Str × Str × Str) (a : Athlete) (e : Event)
    (m : ℚ) (tie : Nat) : WinnerRow :=
  ⟨cfg.state, cfg.meetName, cfg.association, a.name, a.gym, c.1, c.2.1, c.2.2, e, m, tie⟩

/-- The partition key recorded in a winner row. -/
def rowKey (row : WinnerRow) : Str × Str × Str := (row.session, row.level, row.division)

/-- The §3 data-model invariant for one score field: a recorded score is
positive (an absent score is fine).  Every adapter enforces this: the
`_parse_score` functions return `None` for values ≤ 0, and the PDF adapter's
`_is_score` accepts only values in `[5, 40]`. -/
def scorePosOrAbsent (a : Athlete) (e : Event) : Bool :=
  match score a e with
  | some v => decide (0 < v)
  | none => true

/-- The join key of `_build_winners_rank_based`'s `JOIN rank_lookup rl ON
r.name = rl.name AND r.gym = rl.gym AND r.session = rl.session AND
r.level = rl.level AND r.division = rl.division`. -/
def joinKey (a : Athlete) : Str × Str × Str × Str × Str :=
  (a.name, a.gym, a.session, a.level, a.division)

/-- Concrete meet config with a score-based source type, for witnesses. -/
def wCfgScore : MeetConfig :=
  ⟨ofStr "Utah", ofStr "2025 Utah DP State Championships", ofStr "USAG", ofStr "mso_html"⟩

/-- Concrete meet config with the rank-based source type, for witnesses. -/
def wCfgRank : MeetConfig :=
  ⟨ofStr "Iowa", ofStr "2025 Iowa Dev State Championships", ofStr "USAG", ofStr "scorecat"⟩

/-- Concrete athlete: vault 95, vault rank 2. -/
def wAth1 : Athlete :=
  ⟨ofStr "Ann Ames", ofStr "Gym One", ofStr "S1", ofStr "3", ofStr "CH A",
   some 95, none, none, none, none, [], [],
   some 2, none, none, none, none⟩

/-- Concrete athlete: vault 95 (tied with `wAth1`), vault rank 1. -/
def wAth2 : Athlete :=
  ⟨ofStr "Bea Bond", ofStr "Gym Two", ofStr "S1", ofStr "3", ofStr "CH A",
   some 95, none, none, none, none, [], [],
   some 1, none, none, none, none⟩

/-- Concrete athlete: vault 90, vault rank 3. -/
def wAth3 : Athlete :=
  ⟨ofStr "Cat Cole", ofStr "Gym One", ofStr "S1", ofStr "3", ofStr "CH A",
   some 90, none, none, none, none, [], [],
   some 3, none, none, none, none⟩

/-- Concrete athlete: no scores at all, vault rank 1 (a no-show who was
nevertheless assigned rank 1). -/
def wAth4 : Athlete :=
  ⟨ofStr "Dee Dorn", ofStr "Gym Two", ofStr "S2", ofStr "4", ofStr "SR B",
   none, none, none, none, none, [], [],
   some 1, none, none, none, none⟩

/-- Concrete athlete: same partition as `wAth4`, vault 80, vault rank 2. -/
def wAth5 : Athlete :=
  ⟨ofStr "Eve East", ofStr "Gym One", ofStr "S2", ofStr "4", ofStr "SR B",
   some 80, none, none, none, none, [], [],
   some 2, none, none, none, none⟩

/-! ## Gym name normalizer (`gym_normalizer.py`)

The batch is modelled as the list of the records' gym fields (a record with
no `gym` key reads as the empty string via `a.get('gym', '') or ''`); the
normalizer reads and writes nothing else of a record.  Phase 3 (fuzzy
duplicate detection) only computes the advisory `potential_duplicates`
report and neither rewrites any record nor contributes to the merge maps,
so it is not modelled; the returned report is the pair of the `auto_merged`
and `suffix_merged` maps. -/

/-- `key.replace('-', ' ')`. -/
def replaceHyph (s : Str) : Str := s.map fun c => if c = 45 then 32 else c

/-- The phase-1 normalization key (gym_normalizer.py lines 67-69):
`gym.strip().lower()`, hyphens to spaces, whitespace runs collapsed. -/
def keyOf (g : Str) : Str := collapse (replaceHyph (lowerS (strip g)))

/-- Python `str.capitalize()` (ASCII): first character uppercased, the rest
lowercased. -/
def capitalizeS : Str → Str
  | [] => []
  | c :: cs => upperC c :: lowerS cs

/-- Python `str.isupper()` on ASCII text: at least one cased character and
no lowercase one. -/
def isUpperWord (w : Str) : Bool := w.any isAlphaC && w.all fun c => !(isLowerC c)

/-- The acronym-or-capitalize branch of `_title_case_word` (lines 28-31) for
a hyphen-free word. -/
def titleCore (w : Str) : Str :=
  if isUpperWord w && decide (2 ≤ w.length) && decide (w.length ≤ 4) then w
  else capitalizeS w

/-- `_title_case_word` (gym_normalizer.py lines 22-31), with the hyphen
recursion unfolded one level: the pieces of a hyphen split contain no
hyphen, so the recursive call on each piece is exactly the
acronym-or-capitalize branch; for a word without hyphens the single piece
is the whole word. -/
def titleWord (w : Str) : Str := joinSep 45 ((splitOnC 45 w).map titleCore)

/-- `_title_case_gym` (gym_normalizer.py lines 34-42): strip and collapse
whitespace, then title-case each space-separated word. -/
def titleGym (s : Str) : Str :=
  let n := collapse (strip s)
  if n = [] then n
  else joinSep 32 ((splitOnC 32 n).map titleWord)

/-- Increment the count of variant `v` (insertion-ordered dict of counts). -/
def bumpInner : List (Str × Nat) → Str → List (Str × Nat)
  | [], v => [(v, 1)]
  | (w, n) :: rest, v =>
    if w = v then (w, n + 1) :: rest else (w, n) :: bumpInner rest v

/-- Add one occurrence of variant `v` under key `k` (the nested
`gym_counts` dict of lines 64-74). -/
def bumpOuter : List (Str × List (Str × Nat)) → Str → Str → List (Str × List (Str × Nat))
  | [], k, v => [(k, [(v, 1)])]
  | (k', vs) :: rest, k, v =>
    if k' = k then (k', bumpInner vs v) :: rest else (k', vs) :: bumpOuter rest k v

/-- `gym_counts` (lines 64-74): per normalization key, the stripped
spellings with their athlete counts; empty keys skipped. -/
def gymCounts (batch : List Str) : List (Str × List (Str × Nat)) :=
  batch.foldl (fun acc g =>
    if keyOf g = [] then acc else bumpOuter acc (keyOf g) (strip g)) []

/-- Python `max(..., key=...)`: the first entry with the maximal count
(later equal counts do not replace it). -/
def pickMaxA : (Str × Nat) → List (Str × Nat) → (Str × Nat)
  | best, [] => best
  | best, p :: rest => pickMaxA (if best.2 < p.2 then p else best) rest

/-- The canonical spelling of one key group (lines 78-86): the title-cased
single variant, or the title-cased most common variant. -/
def canonicalOfGroup (vs : List (Str × Nat)) : Str :=
  match vs with
  | [] => []
  | [(v, _)] => titleGym v
  | p :: rest => titleGym (pickMaxA p rest).1

/-- The variant-count dict of one normalization key accumulated over a
batch (the `gym_counts[key]` inner dict), starting from `vs`. -/
def groupFold (vs : List (Str × Nat)) (batch : List Str) (k : Str) : List (Str × Nat) :=
  batch.foldl (fun vs g => if keyOf g = k then bumpInner vs (strip g) else vs) vs

/-- The number of records of the batch with key `k` and stripped spelling
`v`. -/
def vcountK (batch : List Str) (k : Str) (v : Str) : Nat :=
  (batch.filter fun g => decide (keyOf g = k) && decide (strip g = v)).length

/-- Phase-1 application (lines 88-98): every record whose stripped gym is a
variant of some group is rewritten to the group's canonical form.  The
source looks the stripped gym up in `canonical_map` (variant → canonical);
since every variant of a group maps to the group's canonical and a
variant's group is the one at its own key, this equals looking the record's
key up in `gym_counts` — records with an empty key are in no group and stay
unchanged. -/
def applyPhase1 (batch : List Str) : List Str :=
  batch.map fun g =>
    match alookup (keyOf g) (gymCounts batch) with
    | some vs => canonicalOfGroup vs
    | none => g

/-- The `auto_merged` report (lines 88-90, 100-101): each variant paired
with its group's canonical, self-mappings excluded. -/
def autoMergedOf (batch : List Str) : List (Str × Str) :=
  ((gymCounts batch).flatMap fun kv =>
    kv.2.map fun p => (p.1, canonicalOfGroup kv.2)).filter fun pr => pr.1 ≠ pr.2

/-- `_MERGE_SUFFIXES` (gym_normalizer.py lines 16-19). -/
def MERGE_SUFFIXES : List Str :=
  [ofStr "gymnastics", ofStr "gym", ofStr "gymnastic", ofStr "academy",
   ofStr "athletics", ofStr "center", ofStr "centre", ofStr "club",
   ofStr "training", ofStr "tumbling", ofStr "cheer"]

/-- Lines 113-114: the gym name has at least two words and its last word,
lowercased, is a recognized gym-type suffix. -/
def isSuffixed (g : Str) : Bool :=
  decide (2 ≤ (pyWords g).length) && decide (lowerS ((pyWords g).getLastD []) ∈ MERGE_SUFFIXES)

/-- Line 115: the bare prefix `' '.join(words[:-1])`. -/
def bareOf (g : Str) : Str := joinSep 32 (pyWords g).dropLast

/-- Line 108: the distinct non-empty gym names after case normalization
(a Python set, modelled in first-occurrence order). -/
def uniqueNE (batch : List Str) : List Str := dedupF (batch.filter fun g => g ≠ [])

/-- Append `g` to the forms list of base `k` (dict of lists, lines 111-118). -/
def appendEntry : List (Str × List Str) → Str → Str → List (Str × List Str)
  | [], k, g => [(k, [g])]
  | (k', gs) :: rest, k, g =>
    if k' = k then (k', gs ++ [g]) :: rest else (k', gs) :: appendEntry rest k g

/-- `base_to_suffixed` (lines 110-118): for each suffixed distinct name,
its bare prefix mapped to the list of suffixed variants. -/
def baseToSuffixed (unique : List Str) : List (Str × List Str) :=
  unique.foldl (fun acc g =>
    if isSuffixed g then appendEntry acc (bareOf g) g else acc) []

/-- `gym_athlete_counts` (lines 134-138): athlete counts of the suffixed
forms, in first-occurrence order over the batch. -/
def gymAthleteCounts (batch : List Str) (forms : List Str) : List (Str × Nat) :=
  batch.foldl (fun acc g => if g ∈ forms then bumpInner acc g else acc) []

/-- One iteration of the suffix-merge loop (lines 123-147) for the entry
`kv = (base, suffixed_forms)`: skip unless the base exists standalone; a
single suffixed form becomes the target of the base; with several, the one
with the most athletes becomes the target of the base and of every other
suffixed form. -/
def smStep (batch1 : List Str) (unique : List Str) (m : List (Str × Str))
    (kv : Str × List Str) : List (Str × Str) :=
  if kv.1 ∈ unique then
    match kv.2 with
    | [f] => aset m kv.1 f
    | _ =>
      match gymAthleteCounts batch1 kv.2 with
      | [] => m
      | p :: rest =>
        let best := (pickMaxA p rest).1
        kv.2.foldl (fun m2 sf => if sf ≠ best then aset m2 sf best else m2)
          (aset m kv.1 best)
  else m

/-- `suffix_merge_map` (lines 122-147); the `suffix_merged` report receives
exactly the same assignments, so one map models both. -/
def suffixMergeMap (b1 : List Str) : List (Str × Str) :=
  (baseToSuffixed (uniqueNE b1)).foldl (smStep b1 (uniqueNE b1)) []

/-- The phase-2 rewrite of one record's gym field (lines 151-154): replace
it by its merge target when the map has one. -/
def phase2Rewrite (m : List (Str × Str)) (g : Str) : Str :=
  match alookup g m with
  | some t => t
  | none => g

/-- Phase-2 application (lines 149-154): one lookup per record.  (The
`if suffix_merge_map:` guard only skips an identity pass.) -/
def applyPhase2 (m : List (Str × Str)) (batch : List Str) : List Str :=
  batch.map (phase2Rewrite m)

/-- The suffixed variants of the distinct-name list sharing the bare prefix
`b` (the claim's "suffixed variants of a bare prefix"). -/
def suffixFormsOf (unique : List Str) (b : Str) : List Str :=
  unique.filter fun x => isSuffixed x && decide (bareOf x = b)

/-- The merge target chosen for a base's suffixed-forms list: the single
form, or the form with the most athletes. -/
def smTarget (b1 : List Str) (forms : List Str) : Str :=
  match forms with
  | [f] => f
  | _ =>
    match gymAthleteCounts b1 forms with
    | [] => []
    | p :: rest => (pickMaxA p rest).1

/-- The number of records of the batch whose gym field is exactly `x`. -/
def countIn (batch : List Str) (x : Str) : Nat :=
  (batch.filter fun g => g = x).length

/-- The output of `normalize` that the claims mention: the rewritten gym
fields and the two merge reports. -/
structure NormResult where
  batch : List Str
  autoMerged : List (Str × Str)
  suffixMerged : List (Str × Str)
deriving DecidableEq

/-- `normalize` (gym_normalizer.py lines 45-207) restricted to what it does
to the records and the merge reports: phase 1 (case/whitespace
canonicalization), phase 2 (suffix-aware merge), and phase 4 (manual alias
map, applied case-insensitively when supplied; a missing or malformed file
is `none`, skipping the phase). -/
def normalize (batch : List Str) (aliasMap : Option (List (Str × Str))) : NormResult :=
  let b1 := applyPhase1 batch
  let autoM := autoMergedOf batch
  let m2 := suffixMergeMap b1
  let b2 := applyPhase2 m2 b1
  let b3 := match aliasMap with
    | none => b2
    | some am =>
      let amL := am.foldl (fun acc kv => aset acc (strip (lowerS kv.1)) kv.2) []
      b2.map fun g =>
        match alookup (strip (lowerS g)) amL with
        | some t => t
        | none => g
  ⟨b3, autoM, m2⟩

/-! ## Division order detection and cache (`division_detector.py`) -/

/-- Stable insertion sort by `_score_division` (Python's `sorted` is stable;
among equal scores the input order is kept). -/
def insertByScore (x : Str) : List Str → List Str
  | [] => [x]
  | y :: ys =>
    if scoreDivision x ≤ scoreDivision y then x :: y :: ys
    else y :: insertByScore x ys

/-- Stable sort of division labels by score. -/
def sortByScore : List Str → List Str
  | [] => []
  | x :: xs => insertByScore x (sortByScore xs)

/-- `detect_division_order` (division_detector.py lines 65-86): the distinct
non-empty division labels of the results, stably sorted by `_score_division`,
assigned sequential positions 1..N.  (The `if div not in order` guard of the
source is the `alookup … = none` test; the labels are already distinct.) -/
def detectDivisionOrder (results : List Athlete) : List (Str × Nat) :=
  let divisions := dedupF ((results.map (·.division)).filter (· ≠ []))
  let scored := sortByScore divisions
  (scored.foldl (fun st div =>
    match alookup div st.1 with
    | some _ => st
    | none => (aset st.1 div st.2, st.2 + 1)) (([] : List (Str × Nat)), 1)).1

/-- The result of `get_division_order`: the returned order, the cache file
content after the call (`none` = the file still does not exist), and whether
`detect_division_order` ran. -/
structure DivOrderResult where
  order : List (Str × Nat)
  cacheAfter : Option (List (Str × List (Str × Nat)))
  recomputed : Bool
deriving DecidableEq

/-- `get_division_order` (division_detector.py lines 89-116): if the cache
file exists and has an entry for the state, return it unchanged (no
recomputation, no write); otherwise detect the order from the results and
save it under the state, preserving any other states' entries when the file
existed. -/
def getDivisionOrder (cacheFile : Option (List (Str × List (Str × Nat))))
    (results : List Athlete) (state : Str) : DivOrderResult :=
  match cacheFile with
  | some allOrders =>
    match alookup state allOrders with
    | some order => ⟨order, some allOrders, false⟩
    | none =>
      let order := detectDivisionOrder results
      ⟨order, some (aset allOrders state order), true⟩
  | none =>
    let order := detectDivisionOrder results
    ⟨order, some (aset [] state order), true⟩

/-- The spec's suffix-merge example batch: three records with gym "All Pro"
and five with gym "All Pro Gymnastics". -/
def wBatchC8 : List Str :=
  [ofStr "All Pro", ofStr "All Pro", ofStr "All Pro",
   ofStr "All Pro Gymnastics", ofStr "All Pro Gymnastics",
   ofStr "All Pro Gymnastics", ofStr "All Pro Gymnastics",
   ofStr "All Pro Gymnastics"]

/-- Proof helper: reassemble the whitespace-split pieces of a string the way
`collapse` renders them when the previous character was whitespace (an empty
piece is a further whitespace character of the same run and adds nothing). -/
def glueSkip : List Str → Str
  | [] => []
  | [p] => p
  | p :: ps => if p = [] then glueSkip ps else p ++ 32 :: glueSkip ps

/-- Proof helper: reassemble the whitespace-split pieces of a string the way
`collapse` renders them from the start of the string (a leading empty piece
is a fresh whitespace run and emits one space). -/
def glue : List Str → Str
  | [] => []
  | [p] => p
  | p :: ps => if p = [] then 32 :: glueSkip ps else p ++ 32 :: glueSkip ps

/-! ## Basic facts about the string primitives -/

theorem dropWhile_head_not (p : Nat → Bool) (l : Str) :
    ∀ x, (l.dropWhile p).head? = some x → p x = false := by
  induction l with
  | nil => simp
  | cons a t ih =>
    intro x hx
    by_cases h : p a
    · rw [List.dropWhile_cons, if_pos h] at hx
      exact ih x hx
    · rw [List.dropWhile_cons, if_neg h] at hx
      simp only [List.head?_cons, Option.some.injEq] at hx
      subst hx
      exact Bool.eq_false_iff.mpr h

theorem dropWhile_eq_self_of_head (p : Nat → Bool) (l : Str)
    (h : ∀ x, l.head? = some x → p x = false) : l.dropWhile p = l := by
  cases l with
  | nil => rfl
  | cons a t => rw [List.dropWhile_cons, if_neg (by simp [h a rfl])]

theorem getLast?_dropWhile_of_ne_nil (p : Nat → Bool) (l : Str)
    (h : l.dropWhile p ≠ []) : (l.dropWhile p).getLast? = l.getLast? := by
  induction l with
  | nil => simp at h
  | cons a t ih =>
    by_cases hp : p a
    · rw [List.dropWhile_cons, if_pos hp] at h ⊢
      have ht : t ≠ [] := by
        intro e
        rw [e] at h
        exact h rfl
      cases t with
      | nil => exact absurd rfl ht
      | cons b t2 => rw [List.getLast?_cons_cons]; exact ih h
    · rw [List.dropWhile_cons, if_neg hp]

theorem strip_head_not_wsp (s : Str) :
    ∀ x, (strip s).head? = some x → isWsp x = false := by
  intro x hx
  unfold strip at hx
  rw [List.head?_reverse] at hx
  by_cases h2 : (s.dropWhile isWsp).reverse.dropWhile isWsp = []
  · rw [h2] at hx
    simp at hx
  · rw [getLast?_dropWhile_of_ne_nil _ _ h2, List.getLast?_reverse] at hx
    exact dropWhile_head_not isWsp _ x hx

/-- `str.strip()` is idempotent. -/
theorem strip_idem (s : Str) : strip (strip s) = strip s := by
  have h1 : (strip s).dropWhile isWsp = strip s :=
    dropWhile_eq_self_of_head _ _ (strip_head_not_wsp s)
  show (((strip s).dropWhile isWsp).reverse.dropWhile isWsp).reverse = strip s
  rw [h1]
  unfold strip
  rw [List.reverse_reverse]
  rw [dropWhile_eq_self_of_head _ _ (dropWhile_head_not isWsp _)]

/-- `pyFloat` only depends on the stripped input. -/
theorem pyFloat_strip (s : Str) : pyFloat (strip s) = pyFloat s := by
  unfold pyFloat
  rw [strip_idem]

theorem lowerC_inv (a d : Nat) (h : lowerC a = d) :
    a = d ∨ (65 ≤ a ∧ a ≤ 90 ∧ d = a + 32) := by
  unfold lowerC isUpperC at h
  by_cases hu : (65 ≤ a && a ≤ 90) = true
  · right
    rw [if_pos hu] at h
    simp only [Bool.and_eq_true, decide_eq_true_eq] at hu
    exact ⟨hu.1, hu.2, h.symm⟩
  · left
    rw [if_neg hu] at h
    exact h

/-- If its lowercasing contains no lowercase letters, the string already
equals its lowercasing. -/
theorem lowerS_eq_self_of (t u : Str) (h : lowerS t = u)
    (hu : ∀ d ∈ u, ¬(97 ≤ d ∧ d ≤ 122)) : t = u := by
  induction t generalizing u with
  | nil => simpa [lowerS] using h
  | cons a t1 ih =>
    subst h
    simp only [lowerS, List.map_cons, List.cons.injEq]
    constructor
    · rcases lowerC_inv a (lowerC a) rfl with h1 | ⟨h1, h2, h3⟩
      · exact h1
      · exact absurd ⟨by omega, by omega⟩ (hu (lowerC a) (by simp [lowerS]))
    · exact ih (lowerS t1) rfl fun d hd => hu d (by simp [lowerS]; right; exact (by simpa [lowerS] using hd))

theorem splitOnC_ne_nil (d : Nat) (l : Str) : splitOnC d l ≠ [] := by
  cases l with
  | nil => simp [splitOnC]
  | cons c cs =>
    unfold splitOnC
    cases h : splitOnC d cs with
    | nil => simp
    | cons p ps =>
      by_cases hc : c = d <;> simp [hc]

theorem pyFloatMag_none_of_head (neg : Bool) (c : Nat) (cs : Str)
    (h1 : isDigitC c = false) (h2 : c ≠ 46) : pyFloatMag neg (c :: cs) = none := by
  obtain ⟨p, ps, hsp⟩ : ∃ p ps, splitOnC 46 cs = p :: ps := by
    cases h : splitOnC 46 cs with
    | nil => exact absurd h (splitOnC_ne_nil 46 cs)
    | cons p ps => exact ⟨p, ps, rfl⟩
  have hspc : splitOnC 46 (c :: cs) = (c :: p) :: ps := by
    unfold splitOnC
    rw [hsp]
    simp [h2]
  unfold pyFloatMag
  rw [hspc]
  have had : allDigits (c :: p) = false := by
    simp [allDigits, h1]
  cases ps with
  | nil => simp [had]
  | cons fp ps2 =>
    cases ps2 with
    | nil => simp [had]
    | cons _ _ => rfl

theorem pyFloatCore_none_of_head (c : Nat) (cs : Str) (h1 : isDigitC c = false)
    (h2 : c ≠ 46) (h3 : c ≠ 43) (h4 : c ≠ 45) : pyFloatCore (c :: cs) = none := by
  rw [pyFloatCore.eq_def]
  split
  · next r heq =>
    exact absurd (List.cons.inj heq).1 h3
  · next r heq =>
    exact absurd (List.cons.inj heq).1 h4
  · exact pyFloatMag_none_of_head false c cs h1 h2

/-- Each of the five special-cased strings of `_parse_score` (`nan`, `null`,
`0`, `0.0`, `0.000`, compared case-insensitively) is non-numeric or
numerically zero, so filtering for positive values gives `None` anyway. -/
theorem scSpecial_filter_none (t : Str)
    (hl : lowerS t = ofStr "nan" ∨ lowerS t = ofStr "null" ∨ lowerS t = ofStr "0" ∨
      lowerS t = ofStr "0.0" ∨ lowerS t = ofStr "0.000") :
    (pyFloatCore t).filter (fun v => decide (0 < v)) = none := by
  have hn : ∀ (a : Nat) (t1 : Str), lowerC a = 110 → pyFloatCore (a :: t1) = none := by
    intro a t1 ha
    rcases lowerC_inv a 110 ha with h1 | ⟨h1, h2, h3⟩
    · subst h1
      exact pyFloatCore_none_of_head 110 t1 (by decide) (by decide) (by decide) (by decide)
    · have ha78 : a = 78 := by omega
      subst ha78
      exact pyFloatCore_none_of_head 78 t1 (by decide) (by decide) (by decide) (by decide)
  rcases hl with h | h | h | h | h
  · rw [show ofStr "nan" = [110, 97, 110] from by decide] at h
    cases t with
    | nil => simp [lowerS] at h
    | cons a t1 =>
      simp only [lowerS, List.map_cons, List.cons.injEq] at h
      rw [hn a t1 h.1]
      rfl
  · rw [show ofStr "null" = [110, 117, 108, 108] from by decide] at h
    cases t with
    | nil => simp [lowerS] at h
    | cons a t1 =>
      simp only [lowerS, List.map_cons, List.cons.injEq] at h
      rw [hn a t1 h.1]
      rfl
  · rw [show ofStr "0" = [48] from by decide] at h
    rw [lowerS_eq_self_of t _ h (by decide)]
    decide
  · rw [show ofStr "0.0" = [48, 46, 48] from by decide] at h
    rw [lowerS_eq_self_of t _ h (by decide)]
    decide
  · rw [show ofStr "0.000" = [48, 46, 48, 48, 48] from by decide] at h
    rw [lowerS_eq_self_of t _ h (by decide)]
    decide

/-! ## Claims C4 and C6 -/

/-- C4 counterexample: the rank text `"0"` is non-positive but `_parse_rank`
returns `0`, not absent — refuting the claim that any unparsable or
non-positive rank text resolves to `None`. -/
theorem c4_rank_counterexample :
    scParseRank (.str (ofStr "0")) = some 0 ∧ ¬rankClaimC4 := by
  refine ⟨by decide, fun h => ?_⟩
  have := h (ofStr "0") 0 (by decide)
  omega

/-- C4 amended: `_parse_rank` strips a single trailing `T`/`t` tie marker and
then parses the remainder as a Python integer; unparsable text resolves to
absent (`None`) rather than raising, but a parsed non-positive integer (such
as `"0"`) is returned as-is; `parse_rank("3T") = 3`, `parse_rank("abc")` is
absent, and `parse_rank(None)` is absent. -/
theorem c4_rank_parse_amended (s : Str) :
    scParseRank (.str s) = pyInt (stripTieMarker (strip s)) ∧
    scParseRank (.str (ofStr "3T")) = some 3 ∧
    scParseRank (.str (ofStr "abc")) = none ∧
    scParseRank (.str (ofStr "0")) = some 0 ∧
    scParseRank .none = none := by
  refine ⟨?_, by decide, by decide, by decide, rfl⟩
  simp only [scParseRank]
  by_cases h : strip s = []
  · rw [if_pos h, h]
    rfl
  · rw [if_neg h]
    cases hr : (strip s).reverse with
    | nil => exact absurd (List.reverse_eq_nil_iff.mp hr) h
    | cons c rest =>
      by_cases hc : c = 84 ∨ c = 116 <;> simp [stripTieMarker, hr, hc]

/-- C6 counterexample: for the unmatched label `"Platinum"` the code returns
a flat 500, while the claim's band-plus-offset formula (band 500, no letter,
length > 3 so offset 5) demands 505. -/
theorem c6_division_counterexample :
    scoreDivision (ofStr "Platinum") = 500 ∧
    claimDivisionScore (ofStr "Platinum") = 505 ∧ ¬divisionClaimC6 := by
  refine ⟨by decide, by decide, fun h => ?_⟩
  have := h (ofStr "Platinum")
  have h1 : scoreDivision (ofStr "Platinum") = 500 := by decide
  have h2 : claimDivisionScore (ofStr "Platinum") = 505 := by decide
  omega

/-- C6 amended: for labels matching one of the four age bands the ordering
score is band + offset exactly as the claim states (trailing letter `A`-`D`
after a space or period gives 1-4; otherwise 0 for stripped length ≤ 3 and 5
for longer labels); unmatched labels score a flat 500, with no letter or
length offset applied. -/
theorem c6_division_score_amended (s : Str) :
    scoreDivision s =
      if bandOf (upperS (strip s)) = 500 then 500 else claimDivisionScore s := by
  simp only [scoreDivision, claimDivisionScore]
  split_ifs <;> omega

/-- C5: for every input string, both adapters' `_parse_score` return absent
exactly when the string is empty, non-numeric, or numerically ≤ 0 — that is,
the result is the parsed numeric value filtered for positivity; when the
value is positive it is returned exactly.  (The scorecat adapter's special
case list `nan/null/0/0.0/0.000` is subsumed by this characterization.) -/
theorem c5_parse_score_positive_numeric (s : Str) :
    scParseScore s = (pyFloat s).filter (fun v => decide (0 < v)) ∧
    genParseScore s = (pyFloat s).filter (fun v => decide (0 < v)) := by
  have hps : pyFloat s = pyFloatCore (strip s) := rfl
  have hfilter : ∀ o : Option ℚ,
      (match o with
        | some v => if 0 < v then some v else none
        | none => none) = o.filter (fun v => decide (0 < v)) := by
    intro o
    cases o with
    | none => rfl
    | some v =>
      by_cases hv : 0 < v
      · simp [Option.filter, hv]
      · simp [Option.filter, hv]
  constructor
  · unfold scParseScore
    by_cases h0 : strip s = []
    · rw [if_pos h0, hps, h0]
      decide
    · rw [if_neg h0]
      by_cases hsp : lowerS (strip s) = ofStr "nan" ∨ lowerS (strip s) = ofStr "null" ∨
          lowerS (strip s) = ofStr "0" ∨ lowerS (strip s) = ofStr "0.0" ∨
          lowerS (strip s) = ofStr "0.000"
      · rw [if_pos hsp, hps]
        exact (scSpecial_filter_none (strip s) hsp).symm
      · rw [if_neg hsp, pyFloat_strip]
        exact hfilter (pyFloat s)
  · unfold genParseScore
    by_cases h0 : strip s = []
    · rw [if_pos h0, hps, h0]
      decide
    · rw [if_neg h0, pyFloat_strip]
      exact hfilter (pyFloat s)

/-! ## Claims C7 and C10 -/

theorem alookup_aset_self {β : Type} (l : List (Str × β)) (k : Str) (v : β) :
    alookup k (aset l k v) = some v := by
  induction l with
  | nil => simp [aset, alookup]
  | cons p rest ih =>
    obtain ⟨k', v'⟩ := p
    by_cases h : k' = k
    · simp [aset, alookup, h]
    · simp [aset, alookup, h, ih]

/-- C7: if the cache document has an order for the state,
`get_division_order` returns it unchanged, writes nothing, and recomputes
nothing — whatever the current meet's divisions are; only without a cached
entry for the state is the order detected from the data and saved under the
state. -/
theorem c7_division_cache_short_circuit
    (doc : List (Str × List (Str × Nat))) (state : Str) (order : List (Str × Nat))
    (h : alookup state doc = some order) :
    (∀ results : List Athlete,
      getDivisionOrder (some doc) results state = ⟨order, some doc, false⟩) ∧
    (∀ (cacheFile : Option (List (Str × List (Str × Nat)))) (results : List Athlete),
      (cacheFile = none ∨ ∃ d, cacheFile = some d ∧ alookup state d = none) →
        (getDivisionOrder cacheFile results state).order = detectDivisionOrder results ∧
        (getDivisionOrder cacheFile results state).recomputed = true ∧
        ∃ d', (getDivisionOrder cacheFile results state).cacheAfter = some d' ∧
          alookup state d' = some (detectDivisionOrder results)) := by
  constructor
  · intro results
    simp [getDivisionOrder, h]
  · rintro cacheFile results (rfl | ⟨d, rfl, hd⟩)
    · refine ⟨rfl, rfl, aset [] state (detectDivisionOrder results), rfl, ?_⟩
      exact alookup_aset_self [] state _
    · refine ⟨?_, ?_, aset d state (detectDivisionOrder results), ?_, ?_⟩
      · simp [getDivisionOrder, hd]
      · simp [getDivisionOrder, hd]
      · simp [getDivisionOrder, hd]
      · exact alookup_aset_self d state _

/-- C7 witness: with a cached Iowa order `{"CH A": 1}`, a meet whose
division set is entirely different (`"Open"`) still gets the cached order
back, with no recomputation and no cache write. -/
theorem c7_division_cache_witness :
    getDivisionOrder (some [(ofStr "Iowa", [(ofStr "CH A", 1)])])
        [{ wAth1 with division := ofStr "Open" }] (ofStr "Iowa") =
      ⟨[(ofStr "CH A", 1)], some [(ofStr "Iowa", [(ofStr "CH A", 1)])], false⟩ :=
  (c7_division_cache_short_circuit [(ofStr "Iowa", [(ofStr "CH A", 1)])]
    (ofStr "Iowa") [(ofStr "CH A", 1)] (by decide)).1 _

/-- C10: `build_database` deletes any existing database file before
rebuilding, so its output is independent of the prior file content and the
`results` table holds exactly the current meet's athletes — rows persisted
by previously processed meets are destroyed, not preserved. -/
theorem c10_rebuild_destroys_prior (cfg : MeetConfig) (athletes : List Athlete)
    (prior : DB) :
    buildDatabase (some prior) cfg athletes = buildDatabase none cfg athletes ∧
    (buildDatabase (some prior) cfg athletes).results = athletes ∧
    (buildDatabase (some prior) cfg athletes).winners = buildWinners cfg athletes :=
  ⟨rfl, rfl, rfl⟩

/-! ## Claim C1: score-based winner determination -/

theorem mem_EVENTS (e : Event) : e ∈ EVENTS := by
  cases e <;> decide

theorem mem_dedupAux {α : Type} [DecidableEq α] (l : List α) :
    ∀ (seen : List α) (x : α), x ∈ dedupAux seen l ↔ x ∈ l ∧ x ∉ seen := by
  induction l with
  | nil => intro seen x; simp [dedupAux]
  | cons y ys ih =>
    intro seen x
    simp only [dedupAux]
    by_cases hy : y ∈ seen
    · rw [if_pos hy, ih]
      simp only [List.mem_cons]
      constructor
      · rintro ⟨hx, hns⟩; exact ⟨Or.inr hx, hns⟩
      · rintro ⟨rfl | hx, hns⟩
        · exact absurd hy hns
        · exact ⟨hx, hns⟩
    · rw [if_neg hy]
      simp only [List.mem_cons, ih]
      constructor
      · rintro (rfl | ⟨hx, hns⟩)
        · exact ⟨Or.inl rfl, hy⟩
        · exact ⟨Or.inr hx, fun hc => hns (Or.inr hc)⟩
      · rintro ⟨rfl | hx, hns⟩
        · exact Or.inl rfl
        · by_cases hxy : x = y
          · exact Or.inl hxy
          · exact Or.inr ⟨hx, fun hc => hc.elim hxy hns⟩

theorem mem_dedupF {α : Type} [DecidableEq α] (l : List α) (x : α) :
    x ∈ dedupF l ↔ x ∈ l := by
  rw [dedupF, mem_dedupAux]
  simp

/-- Under the §3 positivity invariant the `IS NOT NULL` filter of the
score-based strategy coincides with the positive-score filter. -/
theorem posScores_eq (athletes : List Athlete) (c : Str × Str × Str) (e : Event)
    (hpos : ∀ a ∈ athletes, ∀ e' ∈ EVENTS, scorePosOrAbsent a e' = true) :
    (partitionOf athletes c).filterMap (fun a => score a e) = posScores athletes c e := by
  unfold posScores
  apply List.filterMap_congr
  intro a ha
  have ha' : a ∈ athletes := (List.mem_filter.mp ha).1
  have hp := hpos a ha' e (mem_EVENTS e)
  unfold scorePosOrAbsent at hp
  cases hsc : score a e with
  | none => rfl
  | some v =>
    rw [hsc] at hp
    have hv : (0 : ℚ) < v := by simpa using hp
    simp [Option.filter, hv]

theorem maxScorers_eq_of_max (athletes : List Athlete) (c : Str × Str × Str)
    (e : Event) (m : ℚ) (hm : maxPosScore athletes c e = some m) :
    maxScorers athletes c e = (partitionOf athletes c).filter fun a => score a e = some m := by
  unfold maxScorers
  rw [hm]

/-- Membership characterization of the score-based winners list under the
positivity invariant. -/
theorem mem_scoreBasedWinners (cfg : MeetConfig) (athletes : List Athlete)
    (hpos : ∀ a ∈ athletes, ∀ e' ∈ EVENTS, scorePosOrAbsent a e' = true)
    (row : WinnerRow) :
    row ∈ scoreBasedWinners cfg athletes ↔
      ∃ c, ∃ e : Event, ∃ m, maxPosScore athletes c e = some m ∧
        ∃ a ∈ maxScorers athletes c e,
          row = mkWinnerRow cfg c a e m
            (if 1 < (maxScorers athletes c e).length then 1 else 0) := by
  unfold scoreBasedWinners
  simp only [List.mem_flatMap]
  constructor
  · rintro ⟨c, hc, e, he, hbody⟩
    have hmp : maxPosScore athletes c e = maxList (posScores athletes c e) := rfl
    rw [posScores_eq athletes c e hpos, ← hmp] at hbody
    cases hm : maxPosScore athletes c e with
    | none =>
      simp only [hm] at hbody
      simp at hbody
    | some m =>
      simp only [hm] at hbody
      rw [← maxScorers_eq_of_max athletes c e m hm] at hbody
      obtain ⟨a, ha, heq⟩ := List.mem_map.mp hbody
      exact ⟨c, e, m, hm, a, ha, heq.symm⟩
  · rintro ⟨c, e, m, hm, a, haM, hrow⟩
    have hmp : maxPosScore athletes c e = maxList (posScores athletes c e) := rfl
    have haP : a ∈ partitionOf athletes c := (List.mem_filter.mp haM).1
    obtain ⟨haA, hpk⟩ := List.mem_filter.mp haP
    refine ⟨c, ?_, e, mem_EVENTS e, ?_⟩
    · exact (mem_dedupF _ _).mpr (List.mem_map.mpr ⟨a, haA, of_decide_eq_true hpk⟩)
    · rw [posScores_eq athletes c e hpos, ← hmp]
      simp only [hm]
      rw [← maxScorers_eq_of_max athletes c e m hm]
      exact List.mem_map.mpr ⟨a, haM, hrow.symm⟩

theorem rowKey_mk (cfg : MeetConfig) (c : Str × Str × Str) (a : Athlete)
    (e : Event) (m : ℚ) (t : Nat) : rowKey (mkWinnerRow cfg c a e m t) = c := rfl

/-- C1: for a non-scorecat source, and under the §3 invariant that every
recorded score is positive, the winners table rows are exactly the athletes
of each (session, level, division) partition whose score for the event
equals the partition's maximum positive score, each row carrying that score
and `is_tie = 1` exactly when more than one such athlete exists; a
partition/event with no positive (i.e. no recorded) score yields no rows. -/
theorem c1_score_based_winner_rows (cfg : MeetConfig) (prior : Option DB)
    (athletes : List Athlete)
    (hsrc : cfg.sourceType ≠ ofStr "scorecat")
    (hpos : ∀ a ∈ athletes, ∀ e' ∈ EVENTS, scorePosOrAbsent a e' = true) :
    (∀ row : WinnerRow,
      row ∈ (buildDatabase prior cfg athletes).winners ↔
        ∃ a ∈ maxScorers athletes (rowKey row) row.event,
          maxPosScore athletes (rowKey row) row.event = some row.score ∧
          row = mkWinnerRow cfg (rowKey row) a row.event row.score
            (if 1 < (maxScorers athletes (rowKey row) row.event).length then 1 else 0)) ∧
    (∀ (c : Str × Str × Str) (e : Event), maxPosScore athletes c e = none →
      ∀ row ∈ (buildDatabase prior cfg athletes).winners,
        ¬(rowKey row = c ∧ row.event = e)) := by
  have hW : (buildDatabase prior cfg athletes).winners = scoreBasedWinners cfg athletes := by
    cases prior <;> simp [buildDatabase, buildWinners, hsrc]
  have main : ∀ row : WinnerRow,
      row ∈ (buildDatabase prior cfg athletes).winners ↔
        ∃ a ∈ maxScorers athletes (rowKey row) row.event,
          maxPosScore athletes (rowKey row) row.event = some row.score ∧
          row = mkWinnerRow cfg (rowKey row) a row.event row.score
            (if 1 < (maxScorers athletes (rowKey row) row.event).length then 1 else 0) := by
    intro row
    rw [hW, mem_scoreBasedWinners cfg athletes hpos row]
    constructor
    · rintro ⟨c, e, m, hm, a, haM, hrow⟩
      have hk : rowKey row = c := by rw [hrow]; rfl
      have hev : row.event = e := by rw [hrow]; rfl
      have hsc : row.score = m := by rw [hrow]; rfl
      rw [hk, hev, hsc]
      exact ⟨a, haM, hm, hrow⟩
    · rintro ⟨a, haM, hm, hrow⟩
      exact ⟨rowKey row, row.event, row.score, hm, a, haM, hrow⟩
  refine ⟨main, ?_⟩
  intro c e hnone row hrowW ⟨hk, hev⟩
  obtain ⟨a, haM, hm, hrow⟩ := (main row).mp hrowW
  rw [hk, hev, hnone] at hm
  exact Option.noConfusion hm

/-- C1 witness: in a concrete meet with vault scores 95, 95, 90 in one
partition, the two athletes at 95 are winner rows with `is_tie = 1`. -/
theorem c1_score_based_winner_witness :
    mkWinnerRow wCfgScore (ofStr "S1", ofStr "3", ofStr "CH A") wAth1 .vault 95 1 ∈
      (buildDatabase none wCfgScore [wAth1, wAth2, wAth3]).winners :=
  ((c1_score_based_winner_rows wCfgScore none [wAth1, wAth2, wAth3]
      (by decide) (by decide)).1 _).mpr
    ⟨wAth1, by decide, by decide, by decide⟩

/-! ## Claim C2: rank-based winner determination with fallback -/

/-- With per-event join keys pairwise distinct, the join of one results row
against the whole `rank_lookup` table matches only the row itself, so it
contributes `[r]` exactly when `r` is in the partition with rank 1 and a
positive score. -/
theorem rank1_inner_eq (c : Str × Str × Str) (e : Event) (r : Athlete) :
    ∀ l : List Athlete, (l.map joinKey).Nodup → r ∈ l →
      (l.filterMap fun rl =>
        if partKey r = c ∧ r.name = rl.name ∧ r.gym = rl.gym ∧
            r.session = rl.session ∧ r.level = rl.level ∧ r.division = rl.division ∧
            rankOf rl e = some 1 ∧ posScore r e = true
        then some r else none) =
      if partKey r = c ∧ rankOf r e = some 1 ∧ posScore r e = true then [r] else [] := by
  intro l
  induction l with
  | nil => intro _ hr; cases hr
  | cons x xs ih =>
    intro hnd hr
    rw [List.map_cons, List.nodup_cons] at hnd
    obtain ⟨hx, hnd'⟩ := hnd
    rw [List.filterMap_cons]
    rcases List.mem_cons.mp hr with rfl | hr'
    · have htail : (xs.filterMap fun rl =>
          if partKey r = c ∧ r.name = rl.name ∧ r.gym = rl.gym ∧
              r.session = rl.session ∧ r.level = rl.level ∧ r.division = rl.division ∧
              rankOf rl e = some 1 ∧ posScore r e = true
          then some r else none) = [] := by
        rw [List.filterMap_eq_nil_iff]
        intro rl hrl
        rw [if_neg]
        rintro ⟨-, h1, h2, h3, h4, h5, -, -⟩
        exact hx (List.mem_map.mpr ⟨rl, hrl, by simp [joinKey, h1, h2, h3, h4, h5]⟩)
      by_cases hcond : partKey r = c ∧ rankOf r e = some 1 ∧ posScore r e = true
      · rw [if_pos ⟨hcond.1, rfl, rfl, rfl, rfl, rfl, hcond.2.1, hcond.2.2⟩,
          if_pos hcond, htail]
      · rw [if_neg (fun hg => hcond ⟨hg.1, hg.2.2.2.2.2.2.1, hg.2.2.2.2.2.2.2⟩),
          if_neg hcond, htail]
    · have hhead : (if partKey r = c ∧ r.name = x.name ∧ r.gym = x.gym ∧
          r.session = x.session ∧ r.level = x.level ∧ r.division = x.division ∧
          rankOf x e = some 1 ∧ posScore r e = true then some r else none) = none := by
        rw [if_neg]
        rintro ⟨-, h1, h2, h3, h4, h5, -, -⟩
        exact hx (List.mem_map.mpr ⟨r, hr', by simp [joinKey, h1, h2, h3, h4, h5]⟩)
      rw [hhead, ih hnd' hr']

/-- Under key distinctness the join-based candidate list equals the claim's
candidate set. -/
theorem rank1Candidates_eq (athletes : List Athlete) (c : Str × Str × Str) (e : Event)
    (hkey : (athletes.map joinKey).Nodup) :
    rank1Candidates athletes c e = rank1Positive athletes c e := by
  have hsub : ∀ outer : List Athlete, (∀ r ∈ outer, r ∈ athletes) →
      (outer.flatMap fun r => athletes.filterMap fun rl =>
        if partKey r = c ∧ r.name = rl.name ∧ r.gym = rl.gym ∧
            r.session = rl.session ∧ r.level = rl.level ∧ r.division = rl.division ∧
            rankOf rl e = some 1 ∧ posScore r e = true
        then some r else none) =
      outer.filter fun r =>
        (decide (rankOf r e = some 1) && posScore r e) && decide (partKey r = c) := by
    intro outer
    induction outer with
    | nil => intro _; rfl
    | cons r rest ih =>
      intro hmem
      rw [List.flatMap_cons,
        rank1_inner_eq c e r athletes hkey (hmem r (List.mem_cons_self r rest)),
        List.filter_cons, ih (fun q hq => hmem q (List.mem_cons.mpr (Or.inr hq)))]
      by_cases hcond : partKey r = c ∧ rankOf r e = some 1 ∧ posScore r e = true
      · have hb : ((decide (rankOf r e = some 1) && posScore r e) &&
            decide (partKey r = c)) = true := by
          simp [hcond.1, hcond.2.1, hcond.2.2]
        rw [if_pos hcond, if_pos hb, List.singleton_append]
      · have hb : ¬(((decide (rankOf r e = some 1) && posScore r e) &&
            decide (partKey r = c)) = true) := by
          simp only [Bool.and_eq_true, decide_eq_true_eq]
          rintro ⟨⟨h1, h2⟩, h3⟩
          exact hcond ⟨h3, h1, h2⟩
        rw [if_neg hcond, if_neg hb, List.nil_append]
  have hrp : rank1Positive athletes c e = athletes.filter fun r =>
      (decide (rankOf r e = some 1) && posScore r e) && decide (partKey r = c) := by
    unfold rank1Positive partitionOf
    rw [List.filter_filter]
  unfold rank1Candidates
  rw [hsub athletes (fun _ h => h), ← hrp]

theorem maxScorers_nil_of_none (athletes : List Athlete) (c : Str × Str × Str)
    (e : Event) (hm : maxPosScore athletes c e = none) :
    maxScorers athletes c e = [] := by
  unfold maxScorers
  rw [hm]
  simp

theorem specRankWinners_subset_partition (athletes : List Athlete)
    (c : Str × Str × Str) (e : Event) (a : Athlete)
    (ha : a ∈ specRankWinners athletes c e) : a ∈ partitionOf athletes c := by
  unfold specRankWinners at ha
  by_cases h1 : rank1Positive athletes c e = []
  · rw [if_pos h1] at ha
    exact (List.mem_filter.mp ha).1
  · rw [if_neg h1] at ha
    exact (List.mem_filter.mp ha).1

theorem specRankWinners_score_isSome (athletes : List Athlete)
    (c : Str × Str × Str) (e : Event) (a : Athlete)
    (ha : a ∈ specRankWinners athletes c e) : ∃ v : ℚ, score a e = some v := by
  unfold specRankWinners at ha
  by_cases h1 : rank1Positive athletes c e = []
  · rw [if_pos h1] at ha
    unfold maxScorers at ha
    have hcond := (List.mem_filter.mp ha).2
    cases hm : maxPosScore athletes c e with
    | none => rw [hm] at hcond; simp at hcond
    | some m =>
      rw [hm] at hcond
      exact ⟨m, of_decide_eq_true hcond⟩
  · rw [if_neg h1] at ha
    have hcond := (List.mem_filter.mp ha).2
    rw [Bool.and_eq_true] at hcond
    have hpos := hcond.2
    unfold posScore at hpos
    cases hsc : score a e with
    | none => rw [hsc] at hpos; simp at hpos
    | some v => exact ⟨v, rfl⟩

/-- The winners list computed by the rank-based strategy for one
partition/event equals the claim's winner set. -/
theorem rankBody_winners_eq (athletes : List Athlete) (c : Str × Str × Str)
    (e : Event) (hkey : (athletes.map joinKey).Nodup) :
    (if rank1Candidates athletes c e ≠ [] then rank1Candidates athletes c e
     else
       match maxList ((partitionOf athletes c).filterMap fun a =>
           (score a e).filter fun v => decide (0 < v)) with
       | none => []
       | some m => (partitionOf athletes c).filter fun a => score a e = some m) =
    specRankWinners athletes c e := by
  rw [rank1Candidates_eq athletes c e hkey]
  unfold specRankWinners
  have hmp : maxPosScore athletes c e =
      maxList ((partitionOf athletes c).filterMap fun a =>
        (score a e).filter fun v => decide (0 < v)) := rfl
  by_cases h1 : rank1Positive athletes c e = []
  · rw [if_neg (fun hne => hne h1), if_pos h1, ← hmp]
    cases hm : maxPosScore athletes c e with
    | none =>
      simp only [hm]
      rw [maxScorers_nil_of_none athletes c e hm]
    | some m =>
      simp only [hm]
      rw [maxScorers_eq_of_max athletes c e m hm]
  · rw [if_pos h1, if_neg h1]

/-- Membership characterization of the rank-based winners list under key
distinctness. -/
theorem mem_rankBasedWinners (cfg : MeetConfig) (athletes : List Athlete)
    (hkey : (athletes.map joinKey).Nodup) (row : WinnerRow) :
    row ∈ rankBasedWinners cfg athletes ↔
      ∃ c, ∃ e : Event, ∃ a ∈ specRankWinners athletes c e, ∃ v : ℚ,
        score a e = some v ∧
        row = mkWinnerRow cfg c a e v
          (if 1 < (specRankWinners athletes c e).length then 1 else 0) := by
  unfold rankBasedWinners
  simp only [List.mem_flatMap]
  constructor
  · rintro ⟨c, hc, e, he, hbody⟩
    rw [rankBody_winners_eq athletes c e hkey] at hbody
    obtain ⟨a, ha, heq⟩ := List.mem_map.mp hbody
    obtain ⟨v, hv⟩ := specRankWinners_score_isSome athletes c e a ha
    have hg : (score a e).getD 0 = v := by rw [hv]; rfl
    refine ⟨c, e, a, ha, v, hv, ?_⟩
    rw [← heq]
    simp [mkWinnerRow, hg]
  · rintro ⟨c, e, a, ha, v, hv, hrow⟩
    have haP := specRankWinners_subset_partition athletes c e a ha
    obtain ⟨haA, hpk⟩ := List.mem_filter.mp haP
    refine ⟨c, (mem_dedupF _ _).mpr (List.mem_map.mpr ⟨a, haA, of_decide_eq_true hpk⟩),
      e, mem_EVENTS e, ?_⟩
    rw [rankBody_winners_eq athletes c e hkey]
    refine List.mem_map.mpr ⟨a, ha, ?_⟩
    have hg : (score a e).getD 0 = v := by rw [hv]; rfl
    rw [hrow]
    simp [mkWinnerRow, hg]

/-- C2: for a scorecat-source meet (with join keys pairwise distinct), the
winners table rows of each partition/event are exactly the claim's winner
set — the athletes with per-event rank 1 and a positive score when any
exist, otherwise the athletes at the maximum positive score — each row
carrying the athlete's actual score, `is_tie = 1` exactly when the winner
set has more than one member, and no rows at all when the candidate set is
empty and no positive score exists. -/
theorem c2_rank_based_winner_rows (cfg : MeetConfig) (prior : Option DB)
    (athletes : List Athlete)
    (hsrc : cfg.sourceType = ofStr "scorecat")
    (hkey : (athletes.map joinKey).Nodup) :
    (∀ row : WinnerRow,
      row ∈ (buildDatabase prior cfg athletes).winners ↔
        ∃ a ∈ specRankWinners athletes (rowKey row) row.event,
          score a row.event = some row.score ∧
          row = mkWinnerRow cfg (rowKey row) a row.event row.score
            (if 1 < (specRankWinners athletes (rowKey row) row.event).length then 1 else 0)) ∧
    (∀ (c : Str × Str × Str) (e : Event),
      rank1Positive athletes c e = [] → maxPosScore athletes c e = none →
      ∀ row ∈ (buildDatabase prior cfg athletes).winners,
        ¬(rowKey row = c ∧ row.event = e)) := by
  have hW : (buildDatabase prior cfg athletes).winners = rankBasedWinners cfg athletes := by
    cases prior <;> simp [buildDatabase, buildWinners, hsrc]
  have main : ∀ row : WinnerRow,
      row ∈ (buildDatabase prior cfg athletes).winners ↔
        ∃ a ∈ specRankWinners athletes (rowKey row) row.event,
          score a row.event = some row.score ∧
          row = mkWinnerRow cfg (rowKey row) a row.event row.score
            (if 1 < (specRankWinners athletes (rowKey row) row.event).length then 1 else 0) := by
    intro row
    rw [hW, mem_rankBasedWinners cfg athletes hkey row]
    constructor
    · rintro ⟨c, e, a, ha, v, hv, hrow⟩
      have hk : rowKey row = c := by rw [hrow]; rfl
      have hev : row.event = e := by rw [hrow]; rfl
      have hsc : row.score = v := by rw [hrow]; rfl
      rw [hk, hev, hsc]
      exact ⟨a, ha, hv, hrow⟩
    · rintro ⟨a, ha, hv, hrow⟩
      exact ⟨rowKey row, row.event, a, ha, row.score, hv, hrow⟩
  refine ⟨main, ?_⟩
  intro c e h1 hnone row hrowW ⟨hk, hev⟩
  obtain ⟨a, ha, -, -⟩ := (main row).mp hrowW
  rw [hk, hev] at ha
  rw [show specRankWinners athletes c e = [] from by
    unfold specRankWinners
    rw [if_pos h1, maxScorers_nil_of_none athletes c e hnone]] at ha
  cases ha

/-- C2 witness: a concrete scorecat meet in which one partition is decided
by rank 1 (one winner at 95, no tie despite another athlete also scoring
95 with rank 2) and another partition, whose only rank-1 athlete has no
score, falls back to the single highest positive score. -/
theorem c2_rank_based_winner_witness :
    mkWinnerRow wCfgRank (ofStr "S2", ofStr "4", ofStr "SR B") wAth5 .vault 80 0 ∈
      (buildDatabase none wCfgRank [wAth1, wAth2, wAth3, wAth4, wAth5]).winners :=
  ((c2_rank_based_winner_rows wCfgRank none [wAth1, wAth2, wAth3, wAth4, wAth5]
      (by decide) (by decide)).1 _).mpr
    ⟨wAth5, by decide, by decide, by decide⟩

/-! ## Claim C9: phase-1 case/whitespace canonicalization -/

theorem bumpInner_ne_nil (vs : List (Str × Nat)) (v : Str) : bumpInner vs v ≠ [] := by
  cases vs with
  | nil => simp [bumpInner]
  | cons p rest =>
    obtain ⟨w, n⟩ := p
    unfold bumpInner
    by_cases h : w = v <;> simp [h]

theorem groupFold_ne_nil (k : Str) :
    ∀ (batch : List Str) (vs : List (Str × Nat)), vs ≠ [] →
      groupFold vs batch k ≠ [] := by
  intro batch
  induction batch with
  | nil => intro vs h; exact h
  | cons g bs ih =>
    intro vs h
    show groupFold (if keyOf g = k then bumpInner vs (strip g) else vs) bs k ≠ []
    by_cases hc : keyOf g = k
    · rw [if_pos hc]
      exact ih _ (bumpInner_ne_nil vs (strip g))
    · rw [if_neg hc]
      exact ih vs h

theorem alookup_bumpInner_self (v : Str) (vs : List (Str × Nat)) :
    alookup v (bumpInner vs v) = some ((alookup v vs).getD 0 + 1) := by
  induction vs with
  | nil => simp [bumpInner, alookup]
  | cons p rest ih =>
    obtain ⟨w, n⟩ := p
    by_cases h : w = v
    · simp [bumpInner, alookup, h]
    · simp [bumpInner, alookup, h, ih]

theorem alookup_bumpInner_other (w v : Str) (hwv : w ≠ v) (vs : List (Str × Nat)) :
    alookup w (bumpInner vs v) = alookup w vs := by
  induction vs with
  | nil =>
    show alookup w [(v, 1)] = none
    unfold alookup
    rw [if_neg fun h : v = w => hwv h.symm]
    rfl
  | cons p rest ih =>
    obtain ⟨u, n⟩ := p
    unfold bumpInner
    by_cases h : u = v
    · rw [if_pos h]
      show alookup w ((u, n + 1) :: rest) = alookup w ((u, n) :: rest)
      unfold alookup
      by_cases h2 : u = w
      · exact absurd (h2.symm.trans h) hwv
      · rw [if_neg h2, if_neg h2]
    · rw [if_neg h]
      show alookup w ((u, n) :: bumpInner rest v) = alookup w ((u, n) :: rest)
      unfold alookup
      by_cases h2 : u = w
      · rw [if_pos h2, if_pos h2]
      · rw [if_neg h2, if_neg h2]
        exact ih

theorem alookup_bumpOuter_self (k v : Str) (acc : List (Str × List (Str × Nat))) :
    alookup k (bumpOuter acc k v) = some (bumpInner ((alookup k acc).getD []) v) := by
  induction acc with
  | nil => simp [bumpOuter, alookup, bumpInner]
  | cons p rest ih =>
    obtain ⟨k', vs⟩ := p
    by_cases h : k' = k
    · simp [bumpOuter, alookup, h]
    · simp [bumpOuter, alookup, h, ih]

theorem alookup_bumpOuter_other (k' k v : Str) (hne : k' ≠ k)
    (acc : List (Str × List (Str × Nat))) :
    alookup k' (bumpOuter acc k v) = alookup k' acc := by
  induction acc with
  | nil =>
    show alookup k' [(k, [(v, 1)])] = none
    unfold alookup
    rw [if_neg fun h : k = k' => hne h.symm]
    rfl
  | cons p rest ih =>
    obtain ⟨u, vs⟩ := p
    unfold bumpOuter
    by_cases h : u = k
    · rw [if_pos h]
      show alookup k' ((u, bumpInner vs v) :: rest) = alookup k' ((u, vs) :: rest)
      unfold alookup
      by_cases h2 : u = k'
      · exact absurd (h2.symm.trans h) hne
      · rw [if_neg h2, if_neg h2]
    · rw [if_neg h]
      show alookup k' ((u, vs) :: bumpOuter rest k v) = alookup k' ((u, vs) :: rest)
      unfold alookup
      by_cases h2 : u = k'
      · rw [if_pos h2, if_pos h2]
      · rw [if_neg h2, if_neg h2]
        exact ih

theorem gymCounts_lookup_aux (k : Str) (hk : k ≠ []) :
    ∀ (batch : List Str) (acc : List (Str × List (Str × Nat))),
      alookup k (batch.foldl (fun acc g =>
          if keyOf g = [] then acc else bumpOuter acc (keyOf g) (strip g)) acc) =
        match alookup k acc with
        | some vs => some (groupFold vs batch k)
        | none =>
          if groupFold [] batch k = [] then none
          else some (groupFold [] batch k) := by
  intro batch
  induction batch with
  | nil =>
    intro acc
    cases h : alookup k acc with
    | none => simp [groupFold, h]
    | some vs => simp [groupFold, h]
  | cons g bs ih =>
    intro acc
    show alookup k (bs.foldl _ (if keyOf g = [] then acc else bumpOuter acc (keyOf g) (strip g))) = _
    by_cases h0 : keyOf g = []
    · have hck : ¬(keyOf g = k) := fun hc => hk (hc ▸ h0)
      rw [if_pos h0, ih acc]
      cases h : alookup k acc with
      | none =>
        have : groupFold [] (g :: bs) k = groupFold [] bs k := by
          show groupFold (if keyOf g = k then _ else []) bs k = _
          rw [if_neg hck]
        simp [h, this]
      | some vs =>
        have : groupFold vs (g :: bs) k = groupFold vs bs k := by
          show groupFold (if keyOf g = k then _ else vs) bs k = _
          rw [if_neg hck]
        simp [h, this]
    · rw [if_neg h0]
      by_cases hc : keyOf g = k
      · rw [ih (bumpOuter acc (keyOf g) (strip g)), hc, alookup_bumpOuter_self]
        cases h : alookup k acc with
        | none =>
          have h1 : groupFold [] (g :: bs) k =
              groupFold (bumpInner [] (strip g)) bs k := by
            show groupFold (if keyOf g = k then _ else []) bs k = _
            rw [if_pos hc]
          have h2 : groupFold (bumpInner [] (strip g)) bs k ≠ [] :=
            groupFold_ne_nil k bs _ (bumpInner_ne_nil [] (strip g))
          simp [h, h1, h2]
        | some vs =>
          have h1 : groupFold vs (g :: bs) k =
              groupFold (bumpInner vs (strip g)) bs k := by
            show groupFold (if keyOf g = k then _ else vs) bs k = _
            rw [if_pos hc]
          simp [h, h1]
      · rw [ih (bumpOuter acc (keyOf g) (strip g)),
          alookup_bumpOuter_other k (keyOf g) (strip g) (fun he => hc he.symm)]
        cases h : alookup k acc with
        | none =>
          have : groupFold [] (g :: bs) k = groupFold [] bs k := by
            show groupFold (if keyOf g = k then _ else []) bs k = _
            rw [if_neg hc]
          simp [h, this]
        | some vs =>
          have : groupFold vs (g :: bs) k = groupFold vs bs k := by
            show groupFold (if keyOf g = k then _ else vs) bs k = _
            rw [if_neg hc]
          simp [h, this]

/-- The group stored under a non-empty key is exactly the fold of that
key's variants over the batch. -/
theorem gymCounts_lookup (batch : List Str) (k : Str) (hk : k ≠ []) :
    alookup k (gymCounts batch) =
      if groupFold [] batch k = [] then none else some (groupFold [] batch k) := by
  have := gymCounts_lookup_aux k hk batch []
  simpa [gymCounts, alookup] using this

/-- No group is stored under the empty key. -/
theorem gymCounts_lookup_nil (batch : List Str) :
    alookup [] (gymCounts batch) = none := by
  have aux : ∀ (bs : List Str) (acc : List (Str × List (Str × Nat))),
      alookup [] acc = none →
      alookup [] (bs.foldl (fun acc g =>
        if keyOf g = [] then acc else bumpOuter acc (keyOf g) (strip g)) acc) = none := by
    intro bs
    induction bs with
    | nil => intro acc h; exact h
    | cons g bs2 ih =>
      intro acc h
      show alookup [] (bs2.foldl _ (if keyOf g = [] then acc else _)) = none
      by_cases h0 : keyOf g = []
      · rw [if_pos h0]; exact ih acc h
      · rw [if_neg h0]
        exact ih _ ((alookup_bumpOuter_other [] (keyOf g) (strip g) (fun he => h0 he.symm) acc).trans h)
  exact aux batch [] rfl

theorem vcountK_cons_pos (g : Str) (bs : List Str) (k v : Str)
    (hc : keyOf g = k) (hv : strip g = v) :
    vcountK (g :: bs) k v = vcountK bs k v + 1 := by
  unfold vcountK
  rw [List.filter_cons]
  simp [hc, hv]

theorem vcountK_cons_neg (g : Str) (bs : List Str) (k v : Str)
    (h : ¬(keyOf g = k ∧ strip g = v)) :
    vcountK (g :: bs) k v = vcountK bs k v := by
  unfold vcountK
  rw [List.filter_cons, if_neg]
  simp only [Bool.and_eq_true, decide_eq_true_eq]
  exact h

theorem alookup_groupFold (k v : Str) :
    ∀ (batch : List Str) (vs : List (Str × Nat)),
      alookup v (groupFold vs batch k) =
        match alookup v vs, vcountK batch k v with
        | none, 0 => none
        | o, n => some (o.getD 0 + n) := by
  intro batch
  induction batch with
  | nil =>
    intro vs
    show alookup v vs = _
    have h0 : vcountK [] k v = 0 := rfl
    rw [h0]
    cases h : alookup v vs with
    | none => rfl
    | some m => simp
  | cons g bs ih =>
    intro vs
    show alookup v (groupFold (if keyOf g = k then bumpInner vs (strip g) else vs) bs k) = _
    by_cases hc : keyOf g = k
    · by_cases hv : strip g = v
      · rw [if_pos hc, hv, ih (bumpInner vs v), alookup_bumpInner_self,
          vcountK_cons_pos g bs k v hc hv]
        cases h : alookup v vs with
        | none => simp; omega
        | some m => simp; omega
      · rw [if_pos hc, ih (bumpInner vs (strip g)),
          alookup_bumpInner_other v (strip g) (fun h => hv h.symm),
          vcountK_cons_neg g bs k v (fun hh => hv hh.2)]
    · rw [if_neg hc, ih vs, vcountK_cons_neg g bs k v (fun hh => hc hh.1)]

theorem mem_of_alookup_eq_some {β : Type} (l : List (Str × β)) (k : Str) (v : β)
    (h : alookup k l = some v) : (k, v) ∈ l := by
  induction l with
  | nil => simp [alookup] at h
  | cons p rest ih =>
    obtain ⟨k', v'⟩ := p
    unfold alookup at h
    by_cases hk : k' = k
    · rw [if_pos hk] at h
      subst hk
      obtain rfl := Option.some.inj h
      exact List.mem_cons_self _ _
    · rw [if_neg hk] at h
      exact List.mem_cons.mpr (Or.inr (ih h))

theorem alookup_eq_some_of_mem_nodup {β : Type} (l : List (Str × β))
    (hnd : (l.map Prod.fst).Nodup) (k : Str) (v : β) (h : (k, v) ∈ l) :
    alookup k l = some v := by
  induction l with
  | nil => cases h
  | cons p rest ih =>
    obtain ⟨k', v'⟩ := p
    rw [List.map_cons, List.nodup_cons] at hnd
    rcases List.mem_cons.mp h with heq | hmem
    · obtain ⟨rfl, rfl⟩ := Prod.mk.inj heq.symm
      unfold alookup
      rw [if_pos rfl]
    · unfold alookup
      by_cases hk : k' = k
      · subst hk
        exact absurd (List.mem_map.mpr ⟨(k', v), hmem, rfl⟩) hnd.1
      · rw [if_neg hk]
        exact ih hnd.2 hmem

theorem bumpInner_keys (vs : List (Str × Nat)) (v : Str) :
    (bumpInner vs v).map Prod.fst =
      if v ∈ vs.map Prod.fst then vs.map Prod.fst else vs.map Prod.fst ++ [v] := by
  induction vs with
  | nil => simp [bumpInner]
  | cons p rest ih =>
    obtain ⟨w, n⟩ := p
    unfold bumpInner
    by_cases h : w = v
    · subst h
      simp
    · rw [if_neg h, List.map_cons, List.map_cons, ih]
      by_cases h2 : v ∈ rest.map Prod.fst
      · rw [if_pos h2, if_pos (by simp [h2])]
      · rw [if_neg h2, if_neg (by
          simp only [List.mem_cons]
          rintro (he | hm)
          · exact h he.symm
          · exact h2 hm), List.cons_append]

theorem bumpInner_keys_nodup (vs : List (Str × Nat)) (v : Str)
    (hnd : (vs.map Prod.fst).Nodup) : ((bumpInner vs v).map Prod.fst).Nodup := by
  rw [bumpInner_keys]
  by_cases h : v ∈ vs.map Prod.fst
  · rw [if_pos h]; exact hnd
  · rw [if_neg h]
    simp [List.nodup_append, hnd, h]

theorem groupFold_keys_nodup (k : Str) :
    ∀ (batch : List Str) (vs : List (Str × Nat)),
      (vs.map Prod.fst).Nodup → ((groupFold vs batch k).map Prod.fst).Nodup := by
  intro batch
  induction batch with
  | nil => intro vs h; exact h
  | cons g bs ih =>
    intro vs h
    show ((groupFold (if keyOf g = k then bumpInner vs (strip g) else vs) bs k).map Prod.fst).Nodup
    by_cases hc : keyOf g = k
    · rw [if_pos hc]
      exact ih _ (bumpInner_keys_nodup vs (strip g) h)
    · rw [if_neg hc]
      exact ih vs h

theorem pickMaxA_mem : ∀ (rest : List (Str × Nat)) (p : Str × Nat),
    pickMaxA p rest ∈ p :: rest := by
  intro rest
  induction rest with
  | nil => intro p; exact List.mem_cons_self _ _
  | cons q rest ih =>
    intro p
    show pickMaxA (if p.2 < q.2 then q else p) rest ∈ p :: q :: rest
    have h := ih (if p.2 < q.2 then q else p)
    by_cases hpq : p.2 < q.2
    · rw [if_pos hpq] at h ⊢
      exact List.mem_cons.mpr (Or.inr h)
    · rw [if_neg hpq] at h ⊢
      rcases List.mem_cons.mp h with heq | hmem
      · exact List.mem_cons.mpr (Or.inl heq)
      · exact List.mem_cons.mpr (Or.inr (List.mem_cons.mpr (Or.inr hmem)))

theorem pickMaxA_ge : ∀ (rest : List (Str × Nat)) (p x : Str × Nat),
    x ∈ p :: rest → x.2 ≤ (pickMaxA p rest).2 := by
  intro rest
  induction rest with
  | nil =>
    intro p x hx
    rw [List.mem_singleton] at hx
    rw [hx]
    exact Nat.le_refl _
  | cons q rest ih =>
    intro p x hx
    show x.2 ≤ (pickMaxA (if p.2 < q.2 then q else p) rest).2
    have hb : p.2 ≤ (if p.2 < q.2 then q else p).2 ∧
        q.2 ≤ (if p.2 < q.2 then q else p).2 := by
      by_cases hpq : p.2 < q.2 <;> simp [hpq] <;> omega
    rcases List.mem_cons.mp hx with rfl | hx2
    · exact le_trans hb.1 (ih _ _ (List.mem_cons_self _ _))
    · rcases List.mem_cons.mp hx2 with rfl | hx3
      · exact le_trans hb.2 (ih _ _ (List.mem_cons_self _ _))
      · exact ih _ x (List.mem_cons.mpr (Or.inr hx3))

/-- The canonical spelling of a nonempty group is the title-casing of a
variant with maximal athlete count. -/
theorem canonicalOfGroup_spec (vs : List (Str × Nat)) (hne : vs ≠ []) :
    ∃ p ∈ vs, canonicalOfGroup vs = titleGym p.1 ∧ ∀ q ∈ vs, q.2 ≤ p.2 := by
  cases vs with
  | nil => exact absurd rfl hne
  | cons p rest =>
    cases rest with
    | nil =>
      obtain ⟨v, n⟩ := p
      refine ⟨(v, n), List.mem_cons_self _ _, rfl, ?_⟩
      intro q hq
      rw [List.mem_singleton] at hq
      rw [hq]
    | cons q rest2 =>
      exact ⟨pickMaxA p (q :: rest2), pickMaxA_mem _ _, rfl,
        fun x hx => pickMaxA_ge _ _ x hx⟩

theorem keyOf_strip (g : Str) : keyOf (strip g) = keyOf g := by
  unfold keyOf
  rw [strip_idem]

theorem vcountK_exists_of_pos (batch : List Str) (k v : Str)
    (h : 0 < vcountK batch k v) : ∃ g ∈ batch, keyOf g = k ∧ strip g = v := by
  unfold vcountK at h
  obtain ⟨g, hg⟩ := List.exists_mem_of_ne_nil
    (batch.filter fun g => decide (keyOf g = k) && decide (strip g = v)) (by
      intro he
      rw [he] at h
      simp at h)
  have := List.mem_filter.mp hg
  refine ⟨g, this.1, ?_⟩
  have hb := this.2
  simp only [Bool.and_eq_true, decide_eq_true_eq] at hb
  exact hb

theorem vcountK_self_pos (batch : List Str) (g : Str) (hg : g ∈ batch) :
    0 < vcountK batch (keyOf g) (strip g) := by
  unfold vcountK
  have hm : g ∈ batch.filter fun g' =>
      decide (keyOf g' = keyOf g) && decide (strip g' = strip g) :=
    List.mem_filter.mpr ⟨hg, by simp⟩
  exact List.length_pos.mpr (List.ne_nil_of_mem hm)

theorem vcountK_eq_count_strip (batch : List Str) (k v : Str) (hv : keyOf v = k) :
    vcountK batch k v = (batch.filter fun g => strip g = v).length := by
  unfold vcountK
  congr 1
  apply List.filter_congr
  intro g _
  by_cases hs : strip g = v
  · have hk : keyOf g = k := by rw [← keyOf_strip g, hs, hv]
    simp [hs, hk]
  · simp [hs]

theorem bumpOuter_keys (acc : List (Str × List (Str × Nat))) (k v : Str) :
    (bumpOuter acc k v).map Prod.fst =
      if k ∈ acc.map Prod.fst then acc.map Prod.fst else acc.map Prod.fst ++ [k] := by
  induction acc with
  | nil => simp [bumpOuter]
  | cons p rest ih =>
    obtain ⟨k', vs⟩ := p
    unfold bumpOuter
    by_cases h : k' = k
    · subst h
      simp
    · rw [if_neg h, List.map_cons, List.map_cons, ih]
      by_cases h2 : k ∈ rest.map Prod.fst
      · rw [if_pos h2, if_pos (by simp [h2])]
      · rw [if_neg h2, if_neg (by
          simp only [List.mem_cons]
          rintro (he | hm)
          · exact h he.symm
          · exact h2 hm), List.cons_append]

theorem gymCounts_keys_nodup (batch : List Str) :
    ((gymCounts batch).map Prod.fst).Nodup := by
  have aux : ∀ (bs : List Str) (acc : List (Str × List (Str × Nat))),
      (acc.map Prod.fst).Nodup →
      ((bs.foldl (fun acc g =>
        if keyOf g = [] then acc else bumpOuter acc (keyOf g) (strip g)) acc).map
          Prod.fst).Nodup := by
    intro bs
    induction bs with
    | nil => intro acc h; exact h
    | cons g bs2 ih =>
      intro acc h
      show ((bs2.foldl _ (if keyOf g = [] then acc else _)).map Prod.fst).Nodup
      by_cases h0 : keyOf g = []
      · rw [if_pos h0]; exact ih acc h
      · rw [if_neg h0]
        refine ih _ ?_
        rw [bumpOuter_keys]
        by_cases h2 : keyOf g ∈ acc.map Prod.fst
        · rw [if_pos h2]; exact h
        · rw [if_neg h2]
          simp [List.nodup_append, h, h2]
  exact aux batch [] (by simp)

/-- C9: phase-1 canonicalization.  Records are grouped by the
trim/lowercase/de-hyphen/collapse key; each group's variant list carries the
group's stripped spellings with their athlete counts (grouping and counting
clauses); the canonical form is the title-casing of a most frequent variant,
which for a single-variant group is that variant's title-casing (canonical
clauses); records with an empty key belong to no group and are left alone;
and the `auto_merged` report holds exactly the variant→canonical pairs with
variant ≠ canonical. -/
theorem c9_phase1_canonicalization (batch : List Str) :
    (∀ k vs, alookup k (gymCounts batch) = some vs →
      vs ≠ [] ∧ k ≠ [] ∧
      ∀ v n, (v, n) ∈ vs →
        keyOf v = k ∧ strip v = v ∧
        n = (batch.filter fun g => strip g = v).length ∧ 0 < n) ∧
    (∀ g ∈ batch, keyOf g ≠ [] →
      ∃ vs, alookup (keyOf g) (gymCounts batch) = some vs ∧ ∃ n, (strip g, n) ∈ vs) ∧
    (∀ k vs, alookup k (gymCounts batch) = some vs →
      ∃ p ∈ vs, canonicalOfGroup vs = titleGym p.1 ∧ ∀ q ∈ vs, q.2 ≤ p.2) ∧
    (∀ v n, canonicalOfGroup [(v, n)] = titleGym v) ∧
    (∀ g, keyOf g = [] → alookup (keyOf g) (gymCounts batch) = none) ∧
    (∀ v canon, (v, canon) ∈ autoMergedOf batch ↔
      v ≠ canon ∧ ∃ k vs, alookup k (gymCounts batch) = some vs ∧
        (∃ n, (v, n) ∈ vs) ∧ canon = canonicalOfGroup vs) := by
  have hvs_of_lookup : ∀ k vs, alookup k (gymCounts batch) = some vs →
      k ≠ [] ∧ vs = groupFold [] batch k ∧ vs ≠ [] := by
    intro k vs hl
    have hk : k ≠ [] := by
      intro he
      rw [he, gymCounts_lookup_nil] at hl
      cases hl
    rw [gymCounts_lookup batch k hk] at hl
    by_cases hgf : groupFold [] batch k = []
    · rw [if_pos hgf] at hl; cases hl
    · rw [if_neg hgf] at hl
      exact ⟨hk, (Option.some.inj hl).symm, fun he => hgf ((Option.some.inj hl) ▸ he)⟩
  have hmemv : ∀ k vs, alookup k (gymCounts batch) = some vs →
      ∀ v n, (v, n) ∈ vs →
        keyOf v = k ∧ strip v = v ∧
        n = (batch.filter fun g => strip g = v).length ∧ 0 < n := by
    intro k vs hl v n hvn
    obtain ⟨hk, rfl, -⟩ := hvs_of_lookup k vs hl
    have hnd := groupFold_keys_nodup k batch [] (by simp)
    have hlv := alookup_eq_some_of_mem_nodup _ hnd v n hvn
    rw [alookup_groupFold] at hlv
    have hvc : n = vcountK batch k v ∧ 0 < vcountK batch k v := by
      cases hc : vcountK batch k v with
      | zero =>
        rw [hc] at hlv
        simp [alookup] at hlv
      | succ m =>
        rw [hc] at hlv
        have : (alookup v ([] : List (Str × Nat))).getD 0 + (m + 1) = n := by
          simpa using hlv
        simp [alookup] at this
        omega
    obtain ⟨g, hgb, hgk, hgs⟩ := vcountK_exists_of_pos batch k v hvc.2
    have hkv : keyOf v = k := by rw [← hgs, keyOf_strip, hgk]
    refine ⟨hkv, ?_, ?_, ?_⟩
    · rw [← hgs, strip_idem]
    · rw [hvc.1, vcountK_eq_count_strip batch k v hkv]
    · omega
  refine ⟨?_, ?_, ?_, ?_, ?_, ?_⟩
  · intro k vs hl
    obtain ⟨hk, -, hne⟩ := hvs_of_lookup k vs hl
    exact ⟨hne, hk, hmemv k vs hl⟩
  · intro g hg hk
    have hpos := vcountK_self_pos batch g hg
    have hlook := alookup_groupFold (keyOf g) (strip g) batch []
    have hsome : alookup (strip g) (groupFold [] batch (keyOf g)) =
        some (vcountK batch (keyOf g) (strip g)) := by
      rw [hlook]
      cases hc : vcountK batch (keyOf g) (strip g) with
      | zero => omega
      | succ m => simp [alookup]
    have hgf : groupFold [] batch (keyOf g) ≠ [] := by
      intro he
      rw [he] at hsome
      simp [alookup] at hsome
    refine ⟨groupFold [] batch (keyOf g), ?_, vcountK batch (keyOf g) (strip g),
      mem_of_alookup_eq_some _ _ _ hsome⟩
    rw [gymCounts_lookup batch (keyOf g) hk, if_neg hgf]
  · intro k vs hl
    exact canonicalOfGroup_spec vs (hvs_of_lookup k vs hl).2.2
  · intro v n
    rfl
  · intro g hk
    rw [hk, gymCounts_lookup_nil]
  · intro v canon
    unfold autoMergedOf
    rw [List.mem_filter]
    simp only [List.mem_flatMap, List.mem_map, decide_eq_true_eq]
    constructor
    · rintro ⟨⟨kv, hkv, p, hp, heq⟩, hneq⟩
      obtain ⟨hv, hc⟩ := Prod.mk.inj heq
      refine ⟨by simpa using hneq, kv.1, kv.2,
        alookup_eq_some_of_mem_nodup _ (gymCounts_keys_nodup batch) _ _ (by
          obtain ⟨k1, v1⟩ := kv
          exact hkv), ⟨p.2, by rw [← hv]; exact hp⟩, hc.symm⟩
    · rintro ⟨hneq, k, vs, hl, ⟨n, hvn⟩, rfl⟩
      exact ⟨⟨(k, vs), mem_of_alookup_eq_some _ _ _ hl, (v, n), hvn, rfl⟩,
        by simpa using hneq⟩

/-- C9 witness: a concrete batch in which `"win-win"` and `"Win Win"` share
the key `"win win"`; the theorem's completeness clause yields the group of
the second record. -/
theorem c9_phase1_witness :
    ∃ vs, alookup (keyOf (ofStr "Win Win"))
        (gymCounts [ofStr "win-win", ofStr "Win Win"]) = some vs ∧
      ∃ n, (strip (ofStr "Win Win"), n) ∈ vs :=
  (c9_phase1_canonicalization [ofStr "win-win", ofStr "Win Win"]).2.1
    (ofStr "Win Win") (by decide) (by decide)

/-! ## Claim C8: suffix-aware merge -/

theorem alookup_aset_other {β : Type} (l : List (Str × β)) (k : Str) (v : β)
    (k' : Str) (h : k' ≠ k) : alookup k' (aset l k v) = alookup k' l := by
  induction l with
  | nil =>
    show alookup k' [(k, v)] = none
    unfold alookup
    rw [if_neg fun he : k = k' => h he.symm]
    rfl
  | cons p rest ih =>
    obtain ⟨u, w⟩ := p
    unfold aset
    by_cases hu : u = k
    · rw [if_pos hu]
      show alookup k' ((k, v) :: rest) = alookup k' ((u, w) :: rest)
      unfold alookup
      rw [if_neg fun he : k = k' => h he.symm, if_neg fun he : u = k' => h (he.symm.trans hu)]
    · rw [if_neg hu]
      show alookup k' ((u, w) :: aset rest k v) = alookup k' ((u, w) :: rest)
      unfold alookup
      by_cases h2 : u = k'
      · rw [if_pos h2, if_pos h2]
      · rw [if_neg h2, if_neg h2]
        exact ih

theorem alookup_appendEntry_self (acc : List (Str × List Str)) (k g : Str) :
    alookup k (appendEntry acc k g) = some ((alookup k acc).getD [] ++ [g]) := by
  induction acc with
  | nil => simp [appendEntry, alookup]
  | cons p rest ih =>
    obtain ⟨k', gs⟩ := p
    by_cases h : k' = k
    · simp [appendEntry, alookup, h]
    · simp [appendEntry, alookup, h, ih]

theorem alookup_appendEntry_other (acc : List (Str × List Str)) (k g k' : Str)
    (h : k' ≠ k) : alookup k' (appendEntry acc k g) = alookup k' acc := by
  induction acc with
  | nil =>
    show alookup k' [(k, [g])] = none
    unfold alookup
    rw [if_neg fun he : k = k' => h he.symm]
    rfl
  | cons p rest ih =>
    obtain ⟨u, gs⟩ := p
    unfold appendEntry
    by_cases hu : u = k
    · rw [if_pos hu]
      show alookup k' ((u, gs ++ [g]) :: rest) = alookup k' ((u, gs) :: rest)
      unfold alookup
      by_cases h2 : u = k'
      · exact absurd (h2.symm.trans hu) h
      · rw [if_neg h2, if_neg h2]
    · rw [if_neg hu]
      show alookup k' ((u, gs) :: appendEntry rest k g) = alookup k' ((u, gs) :: rest)
      unfold alookup
      by_cases h2 : u = k'
      · rw [if_pos h2, if_pos h2]
      · rw [if_neg h2, if_neg h2]
        exact ih

theorem alookup_baseToSuffixed_aux (b : Str) :
    ∀ (u : List Str) (acc : List (Str × List Str)),
      alookup b (u.foldl (fun acc g =>
          if isSuffixed g then appendEntry acc (bareOf g) g else acc) acc) =
        match alookup b acc,
          u.filter (fun x => isSuffixed x && decide (bareOf x = b)) with
        | none, [] => none
        | o, fs => some (o.getD [] ++ fs) := by
  intro u
  induction u with
  | nil =>
    intro acc
    cases h : alookup b acc with
    | none => simp [h]
    | some gs => simp [h]
  | cons g u2 ih =>
    intro acc
    show alookup b (u2.foldl _ (if isSuffixed g then appendEntry acc (bareOf g) g else acc)) = _
    by_cases hs : isSuffixed g
    · by_cases hb : bareOf g = b
      · rw [if_pos hs, hb, ih (appendEntry acc b g), alookup_appendEntry_self]
        have hfc : (g :: u2).filter (fun x => isSuffixed x && decide (bareOf x = b)) =
            g :: u2.filter (fun x => isSuffixed x && decide (bareOf x = b)) := by
          rw [List.filter_cons, if_pos (by simp [hs, hb])]
        rw [hfc]
        cases h : alookup b acc with
        | none => simp
        | some gs => simp
      · rw [if_pos hs, ih (appendEntry acc (bareOf g) g),
          alookup_appendEntry_other acc (bareOf g) g b (fun he => hb he.symm)]
        have hfc : (g :: u2).filter (fun x => isSuffixed x && decide (bareOf x = b)) =
            u2.filter (fun x => isSuffixed x && decide (bareOf x = b)) := by
          rw [List.filter_cons, if_neg (by simp [hb])]
        rw [hfc]
    · rw [if_neg hs, ih acc]
      have hfc : (g :: u2).filter (fun x => isSuffixed x && decide (bareOf x = b)) =
          u2.filter (fun x => isSuffixed x && decide (bareOf x = b)) := by
        rw [List.filter_cons, if_neg (by simp [hs])]
      rw [hfc]

/-- The forms list stored under a base is exactly the suffixed distinct
names with that bare prefix, in order. -/
theorem alookup_baseToSuffixed (u : List Str) (b : Str) :
    alookup b (baseToSuffixed u) =
      if suffixFormsOf u b = [] then none else some (suffixFormsOf u b) := by
  have := alookup_baseToSuffixed_aux b u []
  unfold baseToSuffixed suffixFormsOf
  rw [this]
  cases h : u.filter (fun x => isSuffixed x && decide (bareOf x = b)) with
  | nil => simp [alookup, h]
  | cons f fs => simp [alookup, h]

theorem countIn_pos_of_mem (batch : List Str) (x : Str) (hx : x ∈ batch) :
    0 < countIn batch x := by
  unfold countIn
  have hm : x ∈ batch.filter fun g => decide (g = x) :=
    List.mem_filter.mpr ⟨hx, by simp⟩
  exact List.length_pos.mpr (List.ne_nil_of_mem hm)

theorem countIn_cons_pos (g : Str) (bs : List Str) (x : Str) (h : g = x) :
    countIn (g :: bs) x = countIn bs x + 1 := by
  unfold countIn
  rw [List.filter_cons]
  simp [h]

theorem countIn_cons_neg (g : Str) (bs : List Str) (x : Str) (h : ¬g = x) :
    countIn (g :: bs) x = countIn bs x := by
  unfold countIn
  rw [List.filter_cons, if_neg (by simp [h])]

theorem alookup_gymAthleteCounts_aux (x : Str) (forms : List Str) :
    ∀ (b1 : List Str) (acc : List (Str × Nat)),
      alookup x (b1.foldl (fun acc g => if g ∈ forms then bumpInner acc g else acc) acc) =
        match alookup x acc, (if x ∈ forms then countIn b1 x else 0) with
        | none, 0 => none
        | o, n => some (o.getD 0 + n) := by
  intro b1
  induction b1 with
  | nil =>
    intro acc
    have h0 : countIn [] x = 0 := rfl
    rw [h0]
    cases h : alookup x acc with
    | none => simp [h]
    | some m => simp [h]
  | cons g bs ih =>
    intro acc
    show alookup x (bs.foldl _ (if g ∈ forms then bumpInner acc g else acc)) = _
    by_cases hg : g ∈ forms
    · by_cases hx : g = x
      · subst hx
        rw [if_pos hg, ih (bumpInner acc g), alookup_bumpInner_self,
          countIn_cons_pos g bs g rfl, if_pos hg]
        cases h : alookup g acc with
        | none => simp [if_pos hg]; omega
        | some m => simp [if_pos hg]; omega
      · rw [if_pos hg, ih (bumpInner acc g),
          alookup_bumpInner_other x g (fun he => hx he.symm),
          countIn_cons_neg g bs x hx]
    · rw [if_neg hg, ih acc]
      by_cases hxf : x ∈ forms
      · have hgx : ¬g = x := fun he => hg (he ▸ hxf)
        rw [countIn_cons_neg g bs x hgx]
      · simp [hxf]

theorem alookup_gymAthleteCounts (b1 forms : List Str) (x : Str) :
    alookup x (gymAthleteCounts b1 forms) =
      if x ∈ forms ∧ 0 < countIn b1 x then some (countIn b1 x) else none := by
  have := alookup_gymAthleteCounts_aux x forms b1 []
  unfold gymAthleteCounts
  rw [this]
  by_cases hxf : x ∈ forms
  · cases hc : countIn b1 x with
    | zero => simp [alookup, hxf, hc]
    | succ m => simp [alookup, hxf, hc]
  · simp [alookup, hxf]

theorem gymAthleteCounts_keys_nodup (b1 forms : List Str) :
    ((gymAthleteCounts b1 forms).map Prod.fst).Nodup := by
  have aux : ∀ (bs : List Str) (acc : List (Str × Nat)),
      (acc.map Prod.fst).Nodup →
      ((bs.foldl (fun acc g => if g ∈ forms then bumpInner acc g else acc) acc).map
        Prod.fst).Nodup := by
    intro bs
    induction bs with
    | nil => intro acc h; exact h
    | cons g bs2 ih =>
      intro acc h
      show ((bs2.foldl _ (if g ∈ forms then bumpInner acc g else acc)).map Prod.fst).Nodup
      by_cases hg : g ∈ forms
      · rw [if_pos hg]
        exact ih _ (bumpInner_keys_nodup acc g h)
      · rw [if_neg hg]
        exact ih acc h
  exact aux b1 [] (by simp)

theorem mem_gymAthleteCounts (b1 forms : List Str) (f : Str) (n : Nat)
    (h : (f, n) ∈ gymAthleteCounts b1 forms) :
    f ∈ forms ∧ n = countIn b1 f ∧ 0 < n := by
  have hl := alookup_eq_some_of_mem_nodup _ (gymAthleteCounts_keys_nodup b1 forms) f n h
  rw [alookup_gymAthleteCounts] at hl
  by_cases hc : f ∈ forms ∧ 0 < countIn b1 f
  · rw [if_pos hc] at hl
    obtain rfl := Option.some.inj hl
    exact ⟨hc.1, rfl, hc.2⟩
  · rw [if_neg hc] at hl
    cases hl

theorem gymAthleteCounts_ne_nil (b1 forms : List Str) (f : Str)
    (hf : f ∈ forms) (hb : f ∈ b1) : gymAthleteCounts b1 forms ≠ [] := by
  intro he
  have := alookup_gymAthleteCounts b1 forms f
  rw [he, if_pos ⟨hf, countIn_pos_of_mem b1 f hb⟩] at this
  simp [alookup] at this

theorem alookup_loserFold_not_mem (best x : Str) :
    ∀ (forms : List Str) (m : List (Str × Str)), x ∉ forms →
      alookup x (forms.foldl (fun m2 sf => if sf ≠ best then aset m2 sf best else m2) m) =
        alookup x m := by
  intro forms
  induction forms with
  | nil => intro m _; rfl
  | cons sf fs ih =>
    intro m hx
    have hxsf : x ≠ sf := fun he => hx (he ▸ List.mem_cons_self sf fs)
    have hxfs : x ∉ fs := fun hm => hx (List.mem_cons.mpr (Or.inr hm))
    show alookup x (fs.foldl _ (if sf ≠ best then aset m sf best else m)) = _
    by_cases hsb : sf ≠ best
    · rw [if_pos hsb, ih _ hxfs, alookup_aset_other m sf best x hxsf]
    · rw [if_neg hsb, ih _ hxfs]

theorem alookup_loserFold_mem (best x : Str) :
    ∀ (forms : List Str) (m : List (Str × Str)), x ∈ forms → x ≠ best →
      alookup x (forms.foldl (fun m2 sf => if sf ≠ best then aset m2 sf best else m2) m) =
        some best := by
  intro forms
  induction forms with
  | nil => intro m hx _; cases hx
  | cons sf fs ih =>
    intro m hx hxb
    show alookup x (fs.foldl _ (if sf ≠ best then aset m sf best else m)) = _
    rcases List.mem_cons.mp hx with rfl | hxfs
    · rw [if_pos hxb]
      by_cases hfs : x ∈ fs
      · exact ih _ hfs hxb
      · rw [alookup_loserFold_not_mem best x fs _ hfs, alookup_aset_self]
    · by_cases hsb : sf ≠ best
      · rw [if_pos hsb]
        exact ih _ hxfs hxb
      · rw [if_neg hsb]
        exact ih _ hxfs hxb

theorem smStep_lookup_preserved (b1 u : List Str) (m : List (Str × Str))
    (base : Str) (forms : List Str) (x : Str)
    (hcond : base ∈ u → x ≠ base ∧ x ∉ forms) :
    alookup x (smStep b1 u m (base, forms)) = alookup x m := by
  unfold smStep
  by_cases hb : base ∈ u
  · rw [if_pos hb]
    obtain ⟨hx1, hx2⟩ := hcond hb
    cases forms with
    | nil =>
      cases hc : gymAthleteCounts b1 ([] : List Str) with
      | nil => simp only [hc]
      | cons p rest =>
        simp only [hc]
        show alookup x (aset m base (pickMaxA p rest).1) = alookup x m
        exact alookup_aset_other m base _ x hx1
    | cons f fs =>
      cases fs with
      | nil =>
        show alookup x (aset m base f) = alookup x m
        exact alookup_aset_other m base f x hx1
      | cons f2 fs2 =>
        cases hc : gymAthleteCounts b1 (f :: f2 :: fs2) with
        | nil => simp only [hc]
        | cons p rest =>
          simp only [hc]
          show alookup x ((f :: f2 :: fs2).foldl _
            (aset m base (pickMaxA p rest).1)) = alookup x m
          rw [alookup_loserFold_not_mem _ x _ _ hx2]
          exact alookup_aset_other m base _ x hx1
  · rw [if_neg hb]

theorem smStep_lookup_base (b1 u : List Str) (m : List (Str × Str))
    (base : Str) (forms : List Str)
    (hb : base ∈ u) (hnb : base ∉ forms)
    (hex : ∃ f ∈ forms, f ∈ b1) :
    alookup base (smStep b1 u m (base, forms)) = some (smTarget b1 forms) := by
  unfold smStep
  rw [if_pos hb]
  cases forms with
  | nil =>
    obtain ⟨f, hf, -⟩ := hex
    cases hf
  | cons f fs =>
    cases fs with
    | nil =>
      show alookup base (aset m base f) = some (smTarget b1 [f])
      rw [alookup_aset_self]
      rfl
    | cons f2 fs2 =>
      obtain ⟨f0, hf0, hf0b⟩ := hex
      cases hc : gymAthleteCounts b1 (f :: f2 :: fs2) with
      | nil => exact absurd hc (gymAthleteCounts_ne_nil b1 _ f0 hf0 hf0b)
      | cons p rest =>
        simp only [hc]
        show alookup base ((f :: f2 :: fs2).foldl _
          (aset m base (pickMaxA p rest).1)) = _
        rw [alookup_loserFold_not_mem _ base _ _ hnb, alookup_aset_self]
        show _ = some (smTarget b1 (f :: f2 :: fs2))
        unfold smTarget
        simp only [hc]

theorem smStep_lookup_loser (b1 u : List Str) (m : List (Str × Str))
    (base : Str) (forms : List Str) (x : Str)
    (hb : base ∈ u) (hx : x ∈ forms) (hxb1 : x ∈ b1)
    (hxt : x ≠ smTarget b1 forms) :
    alookup x (smStep b1 u m (base, forms)) = some (smTarget b1 forms) := by
  unfold smStep
  rw [if_pos hb]
  cases forms with
  | nil => cases hx
  | cons f fs =>
    cases fs with
    | nil =>
      rw [List.mem_singleton] at hx
      exact absurd (hx.trans rfl) hxt
    | cons f2 fs2 =>
      cases hc : gymAthleteCounts b1 (f :: f2 :: fs2) with
      | nil => exact absurd hc (gymAthleteCounts_ne_nil b1 _ x hx hxb1)
      | cons p rest =>
        simp only [hc]
        show alookup x ((f :: f2 :: fs2).foldl _
          (aset m base (pickMaxA p rest).1)) = _
        have hxt' : x ≠ (pickMaxA p rest).1 := by
          intro he
          apply hxt
          rw [he]
          unfold smTarget
          simp only [hc]
        rw [alookup_loserFold_mem _ x _ _ hx hxt']
        show _ = some (smTarget b1 (f :: f2 :: fs2))
        unfold smTarget
        simp only [hc]

theorem alookup_loserFold_best (best : Str) :
    ∀ (forms : List Str) (m : List (Str × Str)),
      alookup best (forms.foldl (fun m2 sf => if sf ≠ best then aset m2 sf best else m2) m) =
        alookup best m := by
  intro forms
  induction forms with
  | nil => intro m; rfl
  | cons sf fs ih =>
    intro m
    show alookup best (fs.foldl _ (if sf ≠ best then aset m sf best else m)) = _
    by_cases hsb : sf ≠ best
    · rw [if_pos hsb, ih, alookup_aset_other m sf best best (fun he => hsb he.symm)]
    · rw [if_neg hsb, ih]

theorem smStep_lookup_target (b1 u : List Str) (m : List (Str × Str))
    (base : Str) (forms : List Str)
    (ht : smTarget b1 forms ≠ base) :
    alookup (smTarget b1 forms) (smStep b1 u m (base, forms)) =
      alookup (smTarget b1 forms) m := by
  unfold smStep
  by_cases hb : base ∈ u
  · rw [if_pos hb]
    cases forms with
    | nil =>
      cases hc : gymAthleteCounts b1 ([] : List Str) with
      | nil => simp only [hc]
      | cons p rest =>
        simp only [hc]
        show alookup _ (aset m base (pickMaxA p rest).1) = _
        exact alookup_aset_other m base _ _ ht
    | cons f fs =>
      cases fs with
      | nil =>
        show alookup (smTarget b1 [f]) (aset m base f) = _
        exact alookup_aset_other m base f _ ht
      | cons f2 fs2 =>
        cases hc : gymAthleteCounts b1 (f :: f2 :: fs2) with
        | nil => simp only [hc]
        | cons p rest =>
          simp only [hc]
          show alookup (smTarget b1 (f :: f2 :: fs2)) ((f :: f2 :: fs2).foldl _
            (aset m base (pickMaxA p rest).1)) = _
          have he : smTarget b1 (f :: f2 :: fs2) = (pickMaxA p rest).1 := by
            unfold smTarget
            simp only [hc]
          rw [he, alookup_loserFold_best]
          exact alookup_aset_other m base _ _ (he ▸ ht)
  · rw [if_neg hb]

theorem sm_fold_preserved (b1 u : List Str) (x : Str) :
    ∀ (L : List (Str × List Str)) (m : List (Str × Str)),
      (∀ kv ∈ L, kv.1 ∈ u → x ≠ kv.1 ∧ x ∉ kv.2) →
      alookup x (L.foldl (smStep b1 u) m) = alookup x m := by
  intro L
  induction L with
  | nil => intro m _; rfl
  | cons kv L2 ih =>
    intro m h
    show alookup x (L2.foldl _ (smStep b1 u m kv)) = _
    rw [ih _ (fun kv2 h2 => h kv2 (List.mem_cons.mpr (Or.inr h2)))]
    exact smStep_lookup_preserved b1 u m kv.1 kv.2 x (h kv (List.mem_cons_self _ _))

theorem mem_appendEntry_keys (k g x : Str) :
    ∀ (acc : List (Str × List Str)),
      (x ∈ (appendEntry acc k g).map Prod.fst ↔ x ∈ acc.map Prod.fst ∨ x = k) := by
  intro acc
  induction acc with
  | nil => simp [appendEntry]
  | cons p rest ih =>
    obtain ⟨k2, gs⟩ := p
    unfold appendEntry
    by_cases h : k2 = k
    · rw [if_pos h]
      subst h
      simp only [List.map_cons, List.mem_cons]
      tauto
    · rw [if_neg h]
      simp only [List.map_cons, List.mem_cons, ih]
      tauto

theorem appendEntry_keys_nodup (k g : Str) :
    ∀ (acc : List (Str × List Str)), (acc.map Prod.fst).Nodup →
      ((appendEntry acc k g).map Prod.fst).Nodup := by
  intro acc
  induction acc with
  | nil => intro _; simp [appendEntry]
  | cons p rest ih =>
    obtain ⟨k2, gs⟩ := p
    intro h
    rw [List.map_cons, List.nodup_cons] at h
    unfold appendEntry
    by_cases hk : k2 = k
    · rw [if_pos hk, List.map_cons, List.nodup_cons]
      exact ⟨h.1, h.2⟩
    · rw [if_neg hk, List.map_cons, List.nodup_cons]
      refine ⟨?_, ih h.2⟩
      intro hmem
      rcases (mem_appendEntry_keys k g k2 rest).mp hmem with h1 | h1
      · exact h.1 h1
      · exact hk h1

theorem baseToSuffixed_keys_nodup (u : List Str) :
    ((baseToSuffixed u).map Prod.fst).Nodup := by
  have aux : ∀ (l : List Str) (acc : List (Str × List Str)),
      (acc.map Prod.fst).Nodup →
      ((l.foldl (fun acc g =>
          if isSuffixed g then appendEntry acc (bareOf g) g else acc) acc).map
        Prod.fst).Nodup := by
    intro l
    induction l with
    | nil => intro acc h; exact h
    | cons g l2 ih =>
      intro acc h
      show ((l2.foldl _ (if isSuffixed g then appendEntry acc (bareOf g) g
        else acc)).map Prod.fst).Nodup
      by_cases hs : isSuffixed g
      · rw [if_pos hs]
        exact ih _ (appendEntry_keys_nodup (bareOf g) g acc h)
      · rw [if_neg hs]
        exact ih acc h
  exact aux u [] (by simp)

theorem mem_baseToSuffixed (u : List Str) (kv : Str × List Str)
    (h : kv ∈ baseToSuffixed u) :
    kv.2 = suffixFormsOf u kv.1 ∧ suffixFormsOf u kv.1 ≠ [] := by
  have hl := alookup_eq_some_of_mem_nodup _ (baseToSuffixed_keys_nodup u) kv.1 kv.2 h
  rw [alookup_baseToSuffixed] at hl
  by_cases hne : suffixFormsOf u kv.1 = []
  · rw [if_pos hne] at hl
    cases hl
  · rw [if_neg hne] at hl
    exact ⟨(Option.some.inj hl).symm, hne⟩

theorem mem_uniqueNE (b : List Str) (x : Str) :
    x ∈ uniqueNE b ↔ x ∈ b ∧ x ≠ [] := by
  unfold uniqueNE
  rw [mem_dedupF, List.mem_filter]
  simp

theorem mem_suffixFormsOf (u : List Str) (b x : Str) :
    x ∈ suffixFormsOf u b ↔ x ∈ u ∧ isSuffixed x = true ∧ bareOf x = b := by
  unfold suffixFormsOf
  rw [List.mem_filter]
  simp [Bool.and_eq_true, and_assoc]

theorem smTarget_mem (b1 forms : List Str) (hex : ∃ f ∈ forms, f ∈ b1) :
    smTarget b1 forms ∈ forms := by
  obtain ⟨f0, hf0, hf0b⟩ := hex
  cases forms with
  | nil => cases hf0
  | cons f fs =>
    cases fs with
    | nil =>
      show smTarget b1 [f] ∈ [f]
      exact List.mem_singleton.mpr rfl
    | cons f2 fs2 =>
      cases hc : gymAthleteCounts b1 (f :: f2 :: fs2) with
      | nil => exact absurd hc (gymAthleteCounts_ne_nil b1 _ f0 hf0 hf0b)
      | cons p rest =>
        have he : smTarget b1 (f :: f2 :: fs2) = (pickMaxA p rest).1 := by
          unfold smTarget
          simp only [hc]
        rw [he]
        have hm := pickMaxA_mem rest p
        rw [← hc] at hm
        exact (mem_gymAthleteCounts b1 _ (pickMaxA p rest).1 (pickMaxA p rest).2 hm).1

theorem smTarget_max (b1 forms : List Str) (hex : ∃ f ∈ forms, f ∈ b1)
    (x : Str) (hx : x ∈ forms) :
    countIn b1 x ≤ countIn b1 (smTarget b1 forms) := by
  obtain ⟨f0, hf0, hf0b⟩ := hex
  cases forms with
  | nil => cases hf0
  | cons f fs =>
    cases fs with
    | nil =>
      rw [List.mem_singleton] at hx
      subst hx
      exact Nat.le_refl _
    | cons f2 fs2 =>
      cases hc : gymAthleteCounts b1 (f :: f2 :: fs2) with
      | nil => exact absurd hc (gymAthleteCounts_ne_nil b1 _ f0 hf0 hf0b)
      | cons p rest =>
        have he : smTarget b1 (f :: f2 :: fs2) = (pickMaxA p rest).1 := by
          unfold smTarget
          simp only [hc]
        rw [he]
        have hm := pickMaxA_mem rest p
        rw [← hc] at hm
        have htc := (mem_gymAthleteCounts b1 _ (pickMaxA p rest).1
          (pickMaxA p rest).2 hm).2.1
        by_cases hcx : 0 < countIn b1 x
        · have hlx : alookup x (gymAthleteCounts b1 (f :: f2 :: fs2)) =
              some (countIn b1 x) := by
            rw [alookup_gymAthleteCounts, if_pos ⟨hx, hcx⟩]
          have hxm : (x, countIn b1 x) ∈ gymAthleteCounts b1 (f :: f2 :: fs2) :=
            mem_of_alookup_eq_some _ _ _ hlx
          rw [hc] at hxm
          have hle := pickMaxA_ge rest p (x, countIn b1 x) hxm
          rw [htc] at hle
          exact hle
        · omega

/-- C8: on the phase-1-canonicalized batch, when a distinct gym name `g` ends
in a recognized suffix word and its bare prefix exists verbatim as a
standalone distinct gym name — with no chained nesting (the bare prefix is
not itself a merge source or target of another suffix family, and no form of
this family heads a family of its own) — the suffix-merge map sends the bare
name and every other suffixed variant of that prefix to the variant with the
most athlete occurrences, that merge appears in the `suffix_merged` report,
and the target itself is left unchanged, so after phase 2 every such record
bears the target name. -/
theorem c8_suffix_merge (b1 : List Str) (g base : Str) (forms : List Str)
    (target : Str)
    (hbase : base = bareOf g)
    (hforms : forms = suffixFormsOf (uniqueNE b1) base)
    (htarget : target = smTarget b1 forms)
    (hg : g ∈ uniqueNE b1) (hgs : isSuffixed g = true)
    (hbU : base ∈ uniqueNE b1)
    (hyp1 : ¬(isSuffixed base = true ∧ bareOf base ∈ uniqueNE b1))
    (hyp2 : ∀ sf ∈ forms, suffixFormsOf (uniqueNE b1) sf = []) :
    target ∈ forms ∧
    (∀ f ∈ forms, countIn b1 f ≤ countIn b1 target) ∧
    (base, target) ∈ suffixMergeMap b1 ∧
    phase2Rewrite (suffixMergeMap b1) base = target ∧
    (∀ x ∈ forms, x ≠ target → phase2Rewrite (suffixMergeMap b1) x = target) ∧
    phase2Rewrite (suffixMergeMap b1) target = target := by
  subst hbase
  subst hforms
  subst htarget
  have hgb1 : g ∈ b1 := ((mem_uniqueNE b1 g).mp hg).1
  have hgforms : g ∈ suffixFormsOf (uniqueNE b1) (bareOf g) :=
    (mem_suffixFormsOf (uniqueNE b1) (bareOf g) g).mpr ⟨hg, hgs, rfl⟩
  have hex : ∃ f ∈ suffixFormsOf (uniqueNE b1) (bareOf g), f ∈ b1 :=
    ⟨g, hgforms, hgb1⟩
  have hformsne : suffixFormsOf (uniqueNE b1) (bareOf g) ≠ [] :=
    List.ne_nil_of_mem hgforms
  have hbnf : bareOf g ∉ suffixFormsOf (uniqueNE b1) (bareOf g) := by
    intro hmem
    obtain ⟨hbu2, hbs, hbb⟩ := (mem_suffixFormsOf _ _ _).mp hmem
    exact hyp1 ⟨hbs, by rw [hbb]; exact hbU⟩
  have hformsb1 : ∀ x ∈ suffixFormsOf (uniqueNE b1) (bareOf g), x ∈ b1 := by
    intro x hx
    exact ((mem_uniqueNE b1 x).mp ((mem_suffixFormsOf _ _ _).mp hx).1).1
  have htmem : smTarget b1 (suffixFormsOf (uniqueNE b1) (bareOf g)) ∈
      suffixFormsOf (uniqueNE b1) (bareOf g) := smTarget_mem b1 _ hex
  have htne : smTarget b1 (suffixFormsOf (uniqueNE b1) (bareOf g)) ≠ bareOf g := by
    intro he
    rw [he] at htmem
    exact hbnf htmem
  have hlook : alookup (bareOf g) (baseToSuffixed (uniqueNE b1)) =
      some (suffixFormsOf (uniqueNE b1) (bareOf g)) := by
    rw [alookup_baseToSuffixed, if_neg hformsne]
  have hmemB : (bareOf g, suffixFormsOf (uniqueNE b1) (bareOf g)) ∈
      baseToSuffixed (uniqueNE b1) := mem_of_alookup_eq_some _ _ _ hlook
  obtain ⟨L1, L2, hsplit⟩ := List.append_of_mem hmemB
  have hnd := baseToSuffixed_keys_nodup (uniqueNE b1)
  rw [hsplit, List.map_append, List.map_cons, List.nodup_append] at hnd
  obtain ⟨hnd1, hnd2, hdisj⟩ := hnd
  rw [List.nodup_cons] at hnd2
  have hb2 : bareOf g ∉ L2.map Prod.fst := hnd2.1
  have hb1 : bareOf g ∉ L1.map Prod.fst :=
    fun hmem => hdisj hmem (List.mem_cons_self _ _)
  have hside : ∀ kv, (kv ∈ L1 ∨ kv ∈ L2) →
      ∀ x, (x = bareOf g ∨ x ∈ suffixFormsOf (uniqueNE b1) (bareOf g)) →
      (kv.1 ∈ uniqueNE b1 → x ≠ kv.1 ∧ x ∉ kv.2) := by
    intro kv hkv x hx hkvu
    have hkvmem : kv ∈ baseToSuffixed (uniqueNE b1) := by
      rw [hsplit]
      rcases hkv with h | h
      · exact List.mem_append.mpr (Or.inl h)
      · exact List.mem_append.mpr (Or.inr (List.mem_cons.mpr (Or.inr h)))
    obtain ⟨hkv2, hkvne⟩ := mem_baseToSuffixed _ kv hkvmem
    have hkv1ne : kv.1 ≠ bareOf g := by
      intro he
      rcases hkv with h | h
      · exact hb1 (he ▸ List.mem_map.mpr ⟨kv, h, rfl⟩)
      · exact hb2 (he ▸ List.mem_map.mpr ⟨kv, h, rfl⟩)
    rcases hx with rfl | hxf
    · refine ⟨fun he => hkv1ne he.symm, ?_⟩
      intro hxin
      rw [hkv2] at hxin
      obtain ⟨hbu2, hbs, hbb⟩ := (mem_suffixFormsOf _ _ _).mp hxin
      exact hyp1 ⟨hbs, by rw [hbb]; exact hkvu⟩
    · constructor
      · intro he
        apply hkvne
        rw [← he]
        exact hyp2 x hxf
      · intro hxin
        rw [hkv2] at hxin
        obtain ⟨hxu2, hxs2, hbx⟩ := (mem_suffixFormsOf _ _ _).mp hxin
        obtain ⟨hxu3, hxs3, hbx2⟩ := (mem_suffixFormsOf _ _ _).mp hxf
        exact hkv1ne (hbx ▸ hbx2)
  have hfold : suffixMergeMap b1 =
      L2.foldl (smStep b1 (uniqueNE b1))
        (smStep b1 (uniqueNE b1) (L1.foldl (smStep b1 (uniqueNE b1)) [])
          (bareOf g, suffixFormsOf (uniqueNE b1) (bareOf g))) := by
    unfold suffixMergeMap
    rw [hsplit, List.foldl_append, List.foldl_cons]
  have hlb : alookup (bareOf g) (suffixMergeMap b1) =
      some (smTarget b1 (suffixFormsOf (uniqueNE b1) (bareOf g))) := by
    rw [hfold, sm_fold_preserved b1 (uniqueNE b1) (bareOf g) L2 _
      (fun kv hkv => hside kv (Or.inr hkv) (bareOf g) (Or.inl rfl))]
    exact smStep_lookup_base b1 (uniqueNE b1) _ (bareOf g) _ hbU hbnf hex
  have hlt : alookup (smTarget b1 (suffixFormsOf (uniqueNE b1) (bareOf g)))
      (suffixMergeMap b1) = none := by
    rw [hfold, sm_fold_preserved b1 (uniqueNE b1) _ L2 _
      (fun kv hkv => hside kv (Or.inr hkv) _ (Or.inr htmem)),
      smStep_lookup_target b1 (uniqueNE b1) _ (bareOf g) _ htne,
      sm_fold_preserved b1 (uniqueNE b1) _ L1 _
      (fun kv hkv => hside kv (Or.inl hkv) _ (Or.inr htmem))]
    rfl
  have hll : ∀ x ∈ suffixFormsOf (uniqueNE b1) (bareOf g),
      x ≠ smTarget b1 (suffixFormsOf (uniqueNE b1) (bareOf g)) →
      alookup x (suffixMergeMap b1) =
        some (smTarget b1 (suffixFormsOf (uniqueNE b1) (bareOf g))) := by
    intro x hx hxt
    rw [hfold, sm_fold_preserved b1 (uniqueNE b1) x L2 _
      (fun kv hkv => hside kv (Or.inr hkv) x (Or.inr hx))]
    exact smStep_lookup_loser b1 (uniqueNE b1) _ (bareOf g) _ x hbU hx
      (hformsb1 x hx) hxt
  refine ⟨htmem, fun f hf => smTarget_max b1 _ hex f hf, ?_, ?_, ?_, ?_⟩
  · exact mem_of_alookup_eq_some _ _ _ hlb
  · unfold phase2Rewrite
    rw [hlb]
  · intro x hx hxt
    unfold phase2Rewrite
    rw [hll x hx hxt]
  · unfold phase2Rewrite
    rw [hlt]

theorem c8_suffix_merge_witness :
    (ofStr "All Pro", ofStr "All Pro Gymnastics") ∈ suffixMergeMap wBatchC8 ∧
    phase2Rewrite (suffixMergeMap wBatchC8) (ofStr "All Pro") =
      ofStr "All Pro Gymnastics" ∧
    phase2Rewrite (suffixMergeMap wBatchC8) (ofStr "All Pro Gymnastics") =
      ofStr "All Pro Gymnastics" ∧
    applyPhase2 (suffixMergeMap wBatchC8) wBatchC8 =
      List.replicate 8 (ofStr "All Pro Gymnastics") := by
  have h := c8_suffix_merge wBatchC8 (ofStr "All Pro Gymnastics")
    (bareOf (ofStr "All Pro Gymnastics"))
    (suffixFormsOf (uniqueNE wBatchC8) (bareOf (ofStr "All Pro Gymnastics")))
    (smTarget wBatchC8
      (suffixFormsOf (uniqueNE wBatchC8) (bareOf (ofStr "All Pro Gymnastics"))))
    rfl rfl rfl (by decide) (by decide) (by decide) (by decide) (by decide)
  obtain ⟨h1, h2, hmem, hb, hl, ht⟩ := h
  have e1 : bareOf (ofStr "All Pro Gymnastics") = ofStr "All Pro" := by decide
  have e2 : smTarget wBatchC8
      (suffixFormsOf (uniqueNE wBatchC8) (bareOf (ofStr "All Pro Gymnastics"))) =
      ofStr "All Pro Gymnastics" := by decide
  refine ⟨?_, ?_, ?_, by decide⟩
  · rw [← e1, ← e2]
    exact hmem
  · rw [← e1, ← e2]
    exact hb
  · rw [← e2]
    exact ht

/-! ## Claim C3: normalizer idempotence -/

/-- C3 counterexample: re-running the normalizer on its own output is not a
no-op.  With the batch `["X", "X Gym", "X Gym Gymnastics"]` and no alias map
the first run merges `"X" → "X Gym"` and `"X Gym" → "X Gym Gymnastics"`
in one pass, leaving `"X Gym"` records in the output, so the second run
finds the fresh merge `"X Gym" → "X Gym Gymnastics"` (non-empty
`suffix_merged`) and changes gym fields again; and with batch `["x"]` and
alias map `{"X": "foo bar"}` the first run's alias phase writes the
non-canonical spelling `"foo bar"`, which the second run's phase 1
re-canonicalizes to `"Foo Bar"` (non-empty `auto_merged`). -/
theorem c3_idempotence_counterexample :
    (normalize (normalize [ofStr "X", ofStr "X Gym", ofStr "X Gym Gymnastics"] none).batch
        none).suffixMerged ≠ [] ∧
    (normalize (normalize [ofStr "X", ofStr "X Gym", ofStr "X Gym Gymnastics"] none).batch
        none).batch ≠
      (normalize [ofStr "X", ofStr "X Gym", ofStr "X Gym Gymnastics"] none).batch ∧
    (normalize (normalize [ofStr "x"] (some [(ofStr "X", ofStr "foo bar")])).batch
        (some [(ofStr "X", ofStr "foo bar")])).autoMerged ≠ [] := by
  decide

theorem isUpperC_iff (c : Nat) : isUpperC c = true ↔ 65 ≤ c ∧ c ≤ 90 := by
  simp [isUpperC]

theorem isLowerC_iff (c : Nat) : isLowerC c = true ↔ 97 ≤ c ∧ c ≤ 122 := by
  simp [isLowerC]

theorem isWsp_iff (c : Nat) :
    isWsp c = true ↔ c = 32 ∨ c = 9 ∨ c = 10 ∨ c = 11 ∨ c = 12 ∨ c = 13 := by
  simp only [isWsp, Bool.or_eq_true, decide_eq_true_eq]
  tauto

theorem isUpperC_add32 (c : Nat) (h : isUpperC c = true) : isUpperC (c + 32) = false := by
  rw [isUpperC_iff] at h
  simp only [isUpperC]
  simp only [Bool.and_eq_false_iff, decide_eq_false_iff_not]
  omega

theorem isLowerC_sub32 (c : Nat) (h : isLowerC c = true) : isLowerC (c - 32) = false := by
  rw [isLowerC_iff] at h
  simp only [isLowerC]
  simp only [Bool.and_eq_false_iff, decide_eq_false_iff_not]
  omega

theorem lowerC_lowerC (c : Nat) : lowerC (lowerC c) = lowerC c := by
  unfold lowerC
  by_cases h : isUpperC c = true
  · rw [if_pos h, if_neg (by simp [isUpperC_add32 c h])]
  · rw [if_neg h, if_neg h]

theorem upperC_upperC (c : Nat) : upperC (upperC c) = upperC c := by
  unfold upperC
  by_cases h : isLowerC c = true
  · rw [if_pos h, if_neg (by simp [isLowerC_sub32 c h])]
  · rw [if_neg h, if_neg h]

theorem lowerC_upperC (c : Nat) : lowerC (upperC c) = lowerC c := by
  unfold upperC lowerC
  by_cases hl : isLowerC c = true
  · rw [if_pos hl]
    have hb := (isLowerC_iff c).mp hl
    have h1 : isUpperC (c - 32) = true := by
      rw [isUpperC_iff]
      omega
    have h2 : isUpperC c = false := by
      simp only [isUpperC, Bool.and_eq_false_iff, decide_eq_false_iff_not]
      omega
    rw [if_pos h1, if_neg (by simp [h2])]
    omega
  · rw [if_neg hl]

theorem lowerC_ne45 (c : Nat) (h : c ≠ 45) : lowerC c ≠ 45 := by
  unfold lowerC
  by_cases hu : isUpperC c = true
  · rw [if_pos hu]
    have := (isUpperC_iff c).mp hu
    omega
  · rw [if_neg hu]
    exact h

theorem upperC_ne45 (c : Nat) (h : c ≠ 45) : upperC c ≠ 45 := by
  unfold upperC
  by_cases hl : isLowerC c = true
  · rw [if_pos hl]
    have := (isLowerC_iff c).mp hl
    omega
  · rw [if_neg hl]
    exact h

theorem isWsp_lowerC (c : Nat) (h : isWsp c = false) : isWsp (lowerC c) = false := by
  unfold lowerC
  by_cases hu : isUpperC c = true
  · rw [if_pos hu]
    have := (isUpperC_iff c).mp hu
    simp only [isWsp, Bool.or_eq_false_iff, decide_eq_false_iff_not]
    omega
  · rw [if_neg hu]
    exact h

theorem isWsp_upperC (c : Nat) (h : isWsp c = false) : isWsp (upperC c) = false := by
  unfold upperC
  by_cases hl : isLowerC c = true
  · rw [if_pos hl]
    have := (isLowerC_iff c).mp hl
    simp only [isWsp, Bool.or_eq_false_iff, decide_eq_false_iff_not]
    omega
  · rw [if_neg hl]
    exact h

theorem joinSep_cons_head (d c : Nat) (p : Str) (ps : List Str) :
    joinSep d ((c :: p) :: ps) = c :: joinSep d (p :: ps) := by
  cases ps with
  | nil => rfl
  | cons q qs => rfl

theorem joinSep_splitOnC (d : Nat) : ∀ s : Str, joinSep d (splitOnC d s) = s := by
  intro s
  induction s with
  | nil => rfl
  | cons c cs ih =>
    obtain ⟨p, ps, hsp⟩ : ∃ p ps, splitOnC d cs = p :: ps := by
      cases h : splitOnC d cs with
      | nil => exact absurd h (splitOnC_ne_nil d cs)
      | cons p ps => exact ⟨p, ps, rfl⟩
    rw [hsp] at ih
    unfold splitOnC
    simp only [hsp]
    by_cases hc : c = d
    · rw [if_pos hc]
      show [] ++ d :: joinSep d (p :: ps) = c :: cs
      rw [ih, hc]
      rfl
    · rw [if_neg hc, joinSep_cons_head, ih]

theorem splitOnC_chars (d : Nat) :
    ∀ (s : Str) (p : Str), p ∈ splitOnC d s → ∀ c ∈ p, c ∈ s ∧ c ≠ d := by
  intro s
  induction s with
  | nil =>
    intro p hp c hc
    simp only [splitOnC, List.mem_singleton] at hp
    subst hp
    cases hc
  | cons a cs ih =>
    intro p hp c hc
    obtain ⟨q, qs, hsp⟩ : ∃ q qs, splitOnC d cs = q :: qs := by
      cases h : splitOnC d cs with
      | nil => exact absurd h (splitOnC_ne_nil d cs)
      | cons q qs => exact ⟨q, qs, rfl⟩
    unfold splitOnC at hp
    simp only [hsp] at hp
    by_cases ha : a = d
    · rw [if_pos ha] at hp
      rcases List.mem_cons.mp hp with rfl | hp2
      · cases hc
      · have hmem : p ∈ splitOnC d cs := by rw [hsp]; exact hp2
        have h2 := ih p hmem c hc
        exact ⟨List.mem_cons.mpr (Or.inr h2.1), h2.2⟩
    · rw [if_neg ha] at hp
      rcases List.mem_cons.mp hp with rfl | hp2
      · rcases List.mem_cons.mp hc with rfl | hc2
        · exact ⟨List.mem_cons_self _ _, ha⟩
        · have hq : q ∈ splitOnC d cs := by rw [hsp]; exact List.mem_cons_self _ _
          have h2 := ih q hq c hc2
          exact ⟨List.mem_cons.mpr (Or.inr h2.1), h2.2⟩
      · have hmem : p ∈ splitOnC d cs := by
          rw [hsp]
          exact List.mem_cons.mpr (Or.inr hp2)
        have h2 := ih p hmem c hc
        exact ⟨List.mem_cons.mpr (Or.inr h2.1), h2.2⟩

theorem splitOnC_eq_single (d : Nat) (p : Str) (h : ∀ c ∈ p, c ≠ d) :
    splitOnC d p = [p] := by
  induction p with
  | nil => rfl
  | cons c cs ih =>
    have hcs : splitOnC d cs = [cs] :=
      ih (fun x hx => h x (List.mem_cons.mpr (Or.inr hx)))
    unfold splitOnC
    simp only [hcs]
    rw [if_neg (h c (List.mem_cons_self _ _))]

theorem splitOnC_cons (d c : Nat) (cs : Str) (q : Str) (qs : List Str)
    (h : splitOnC d cs = q :: qs) :
    splitOnC d (c :: cs) = if c = d then [] :: q :: qs else (c :: q) :: qs := by
  unfold splitOnC
  simp only [h]

theorem splitOnC_append (d : Nat) (p : Str) (h : ∀ c ∈ p, c ≠ d) (t : Str) :
    splitOnC d (p ++ d :: t) = p :: splitOnC d t := by
  induction p with
  | nil =>
    show splitOnC d (d :: t) = [] :: splitOnC d t
    obtain ⟨q, qs, hsp⟩ : ∃ q qs, splitOnC d t = q :: qs := by
      cases hq : splitOnC d t with
      | nil => exact absurd hq (splitOnC_ne_nil d t)
      | cons q qs => exact ⟨q, qs, rfl⟩
    rw [splitOnC_cons d d t q qs hsp, if_pos rfl, ← hsp]
  | cons c cs ih =>
    have hcs := ih (fun x hx => h x (List.mem_cons.mpr (Or.inr hx)))
    show splitOnC d (c :: (cs ++ d :: t)) = (c :: cs) :: splitOnC d t
    rw [splitOnC_cons d c _ cs (splitOnC d t) hcs,
      if_neg (h c (List.mem_cons_self _ _))]

theorem splitOnC_joinSep (d : Nat) :
    ∀ ps : List Str, ps ≠ [] → (∀ p ∈ ps, ∀ c ∈ p, c ≠ d) →
      splitOnC d (joinSep d ps) = ps := by
  intro ps
  induction ps with
  | nil => intro h _; exact absurd rfl h
  | cons p ps2 ih =>
    intro _ hfree
    cases ps2 with
    | nil =>
      show splitOnC d p = [p]
      exact splitOnC_eq_single d p (hfree p (List.mem_cons_self _ _))
    | cons q qs =>
      show splitOnC d (p ++ d :: joinSep d (q :: qs)) = p :: q :: qs
      rw [splitOnC_append d p (hfree p (List.mem_cons_self _ _)),
        ih (by simp) (fun r hr c hc => hfree r (List.mem_cons.mpr (Or.inr hr)) c hc)]

theorem mem_joinSep (d : Nat) :
    ∀ (ps : List Str) (c : Nat), c ∈ joinSep d ps → c = d ∨ ∃ p ∈ ps, c ∈ p := by
  intro ps
  induction ps with
  | nil => intro c hc; cases hc
  | cons p rest ih =>
    intro c hc
    cases rest with
    | nil => exact Or.inr ⟨p, List.mem_cons_self _ _, hc⟩
    | cons q qs =>
      rcases List.mem_append.mp hc with h1 | h2
      · exact Or.inr ⟨p, List.mem_cons_self _ _, h1⟩
      · rcases List.mem_cons.mp h2 with rfl | h3
        · exact Or.inl rfl
        · rcases ih c h3 with h4 | ⟨r, hr, hcr⟩
          · exact Or.inl h4
          · exact Or.inr ⟨r, List.mem_cons.mpr (Or.inr hr), hcr⟩

theorem joinSep_ne_nil (d : Nat) (w : Str) (rest : List Str) (hw : w ≠ []) :
    joinSep d (w :: rest) ≠ [] := by
  cases rest with
  | nil => exact hw
  | cons q qs =>
    show w ++ d :: joinSep d (q :: qs) ≠ []
    simp

theorem joinSep_head (d : Nat) (w : Str) (rest : List Str) (hw : w ≠ []) :
    (joinSep d (w :: rest)).head? = w.head? := by
  cases rest with
  | nil => rfl
  | cons q qs =>
    show (w ++ d :: joinSep d (q :: qs)).head? = w.head?
    cases w with
    | nil => exact absurd rfl hw
    | cons c cs => rfl

theorem map_joinSep (f : Nat → Nat) (d : Nat) (hd : f d = d) :
    ∀ ws : List Str, (joinSep d ws).map f = joinSep d (ws.map (·.map f)) := by
  intro ws
  induction ws with
  | nil => rfl
  | cons w rest ih =>
    cases rest with
    | nil => rfl
    | cons q qs =>
      show (w ++ d :: joinSep d (q :: qs)).map f = _
      rw [List.map_append, List.map_cons, hd, ih]
      rfl

theorem joinSep_append_single (d : Nat) (L : List Str) (x : Str) (hL : L ≠ []) :
    joinSep d (L ++ [x]) = joinSep d L ++ d :: x := by
  induction L with
  | nil => exact absurd rfl hL
  | cons w rest ih =>
    cases rest with
    | nil => rfl
    | cons q qs =>
      show w ++ d :: joinSep d ((q :: qs) ++ [x]) = (w ++ d :: joinSep d (q :: qs)) ++ d :: x
      rw [ih (by simp), List.append_assoc, List.cons_append]

theorem reverse_joinSep (d : Nat) : ∀ ws : List Str,
    (joinSep d ws).reverse = joinSep d ((ws.map List.reverse).reverse) := by
  intro ws
  induction ws with
  | nil => rfl
  | cons w rest ih =>
    cases rest with
    | nil => rfl
    | cons q qs =>
      have hr : joinSep d ((List.map List.reverse (w :: q :: qs)).reverse) =
          joinSep d ((List.map List.reverse (q :: qs)).reverse) ++ d :: w.reverse := by
        rw [List.map_cons, List.reverse_cons, joinSep_append_single d _ _ (by simp)]
      rw [hr]
      show (w ++ d :: joinSep d (q :: qs)).reverse = _
      rw [List.reverse_append, List.reverse_cons, ih, List.append_assoc, List.cons_append,
        List.nil_append]

theorem splitWsp_ne_nil (l : Str) : splitWsp l ≠ [] := by
  cases l with
  | nil => simp [splitWsp]
  | cons c cs =>
    unfold splitWsp
    cases h : splitWsp cs with
    | nil => simp
    | cons p ps => by_cases hc : isWsp c <;> simp [hc]

theorem splitWsp_cons (c : Nat) (cs : Str) (q : Str) (qs : List Str)
    (h : splitWsp cs = q :: qs) :
    splitWsp (c :: cs) = if isWsp c then [] :: q :: qs else (c :: q) :: qs := by
  unfold splitWsp
  simp only [h]

theorem splitWsp_chars :
    ∀ (s : Str) (p : Str), p ∈ splitWsp s → ∀ c ∈ p, c ∈ s ∧ isWsp c = false := by
  intro s
  induction s with
  | nil =>
    intro p hp c hc
    simp only [splitWsp, List.mem_singleton] at hp
    subst hp
    cases hc
  | cons a cs ih =>
    intro p hp c hc
    obtain ⟨q, qs, hsp⟩ : ∃ q qs, splitWsp cs = q :: qs := by
      cases h : splitWsp cs with
      | nil => exact absurd h (splitWsp_ne_nil cs)
      | cons q qs => exact ⟨q, qs, rfl⟩
    rw [splitWsp_cons a cs q qs hsp] at hp
    by_cases ha : isWsp a = true
    · rw [if_pos ha] at hp
      rcases List.mem_cons.mp hp with rfl | hp2
      · cases hc
      · have hmem : p ∈ splitWsp cs := by rw [hsp]; exact hp2
        have h2 := ih p hmem c hc
        exact ⟨List.mem_cons.mpr (Or.inr h2.1), h2.2⟩
    · rw [if_neg ha] at hp
      have haf : isWsp a = false := by rwa [Bool.not_eq_true] at ha
      rcases List.mem_cons.mp hp with rfl | hp2
      · rcases List.mem_cons.mp hc with rfl | hc2
        · exact ⟨List.mem_cons_self _ _, haf⟩
        · have hq : q ∈ splitWsp cs := by rw [hsp]; exact List.mem_cons_self _ _
          have h2 := ih q hq c hc2
          exact ⟨List.mem_cons.mpr (Or.inr h2.1), h2.2⟩
      · have hmem : p ∈ splitWsp cs := by
          rw [hsp]
          exact List.mem_cons.mpr (Or.inr hp2)
        have h2 := ih p hmem c hc
        exact ⟨List.mem_cons.mpr (Or.inr h2.1), h2.2⟩

theorem splitWsp_eq_single (p : Str) (h : ∀ c ∈ p, isWsp c = false) :
    splitWsp p = [p] := by
  induction p with
  | nil => rfl
  | cons c cs ih =>
    have hcs : splitWsp cs = [cs] := ih (fun x hx => h x (List.mem_cons.mpr (Or.inr hx)))
    rw [splitWsp_cons c cs cs [] hcs, if_neg (by simp [h c (List.mem_cons_self _ _)])]

theorem splitWsp_append (p : Str) (h : ∀ c ∈ p, isWsp c = false) (d : Nat)
    (hd : isWsp d = true) (t : Str) : splitWsp (p ++ d :: t) = p :: splitWsp t := by
  induction p with
  | nil =>
    show splitWsp (d :: t) = [] :: splitWsp t
    obtain ⟨q, qs, hsp⟩ : ∃ q qs, splitWsp t = q :: qs := by
      cases hq : splitWsp t with
      | nil => exact absurd hq (splitWsp_ne_nil t)
      | cons q qs => exact ⟨q, qs, rfl⟩
    rw [splitWsp_cons d t q qs hsp, if_pos hd, ← hsp]
  | cons c cs ih =>
    have hcs := ih (fun x hx => h x (List.mem_cons.mpr (Or.inr hx)))
    show splitWsp (c :: (cs ++ d :: t)) = (c :: cs) :: splitWsp t
    rw [splitWsp_cons c _ cs (splitWsp t) hcs,
      if_neg (by simp [h c (List.mem_cons_self _ _)])]

theorem splitWsp_joinSep : ∀ ps : List Str, ps ≠ [] →
    (∀ p ∈ ps, ∀ c ∈ p, isWsp c = false) → splitWsp (joinSep 32 ps) = ps := by
  intro ps
  induction ps with
  | nil => intro h _; exact absurd rfl h
  | cons p ps2 ih =>
    intro _ hfree
    cases ps2 with
    | nil =>
      show splitWsp p = [p]
      exact splitWsp_eq_single p (hfree p (List.mem_cons_self _ _))
    | cons q qs =>
      show splitWsp (p ++ 32 :: joinSep 32 (q :: qs)) = p :: q :: qs
      rw [splitWsp_append p (hfree p (List.mem_cons_self _ _)) 32 rfl,
        ih (by simp) (fun r hr c hc => hfree r (List.mem_cons.mpr (Or.inr hr)) c hc)]

theorem filter_ne_nil_eq_self (l : List Str) (h : ∀ p ∈ l, p ≠ []) :
    l.filter (· ≠ []) = l :=
  List.filter_eq_self.mpr fun a ha => by simpa using h a ha

theorem pyWords_joinSep (ps : List Str) (hne : ps ≠ [])
    (h : ∀ p ∈ ps, p ≠ [] ∧ ∀ c ∈ p, isWsp c = false) :
    pyWords (joinSep 32 ps) = ps := by
  unfold pyWords
  rw [splitWsp_joinSep ps hne (fun p hp => (h p hp).2)]
  exact filter_ne_nil_eq_self ps (fun p hp => (h p hp).1)

theorem pyWords_spec (s : Str) : ∀ w ∈ pyWords s, w ≠ [] ∧ ∀ c ∈ w, isWsp c = false := by
  intro w hw
  unfold pyWords at hw
  have h1 := List.mem_filter.mp hw
  refine ⟨by simpa using h1.2, ?_⟩
  intro c hc
  exact (splitWsp_chars s w h1.1 c hc).2

theorem glue_cons2 (p q : Str) (qs : List Str) :
    glue (p :: q :: qs) =
      if p = [] then 32 :: glueSkip (q :: qs) else p ++ 32 :: glueSkip (q :: qs) := rfl

theorem glueSkip_cons2 (p q : Str) (qs : List Str) :
    glueSkip (p :: q :: qs) =
      if p = [] then glueSkip (q :: qs) else p ++ 32 :: glueSkip (q :: qs) := rfl

theorem glue_cons_head (c : Nat) (p : Str) (ps : List Str) :
    glue ((c :: p) :: ps) = c :: glue (p :: ps) := by
  cases ps with
  | nil => rfl
  | cons q qs =>
    rw [glue_cons2, glue_cons2, if_neg (by simp)]
    by_cases hp : p = []
    · subst hp
      rw [if_pos rfl]
      rfl
    · rw [if_neg hp]
      rfl

theorem glueSkip_cons_head (c : Nat) (p : Str) (ps : List Str) :
    glueSkip ((c :: p) :: ps) = c :: glue (p :: ps) := by
  cases ps with
  | nil => rfl
  | cons q qs =>
    rw [glueSkip_cons2, glue_cons2, if_neg (by simp)]
    by_cases hp : p = []
    · subst hp
      rw [if_pos rfl]
      rfl
    · rw [if_neg hp]
      rfl

theorem collapseAux_false_cons (c : Nat) (cs : Str) :
    collapseAux false (c :: cs) =
      if isWsp c then 32 :: collapseAux true cs else c :: collapseAux false cs := rfl

theorem collapseAux_true_cons (c : Nat) (cs : Str) :
    collapseAux true (c :: cs) =
      if isWsp c then collapseAux true cs else c :: collapseAux false cs := rfl

theorem collapse_glue : ∀ s : Str,
    collapseAux false s = glue (splitWsp s) ∧ collapseAux true s = glueSkip (splitWsp s) := by
  intro s
  induction s with
  | nil => exact ⟨rfl, rfl⟩
  | cons c cs ih =>
    obtain ⟨p, ps, hsp⟩ : ∃ p ps, splitWsp cs = p :: ps := by
      cases h : splitWsp cs with
      | nil => exact absurd h (splitWsp_ne_nil cs)
      | cons p ps => exact ⟨p, ps, rfl⟩
    obtain ⟨ih1, ih2⟩ := ih
    rw [hsp] at ih1 ih2
    by_cases hw : isWsp c = true
    · have hs : splitWsp (c :: cs) = [] :: p :: ps := by
        rw [splitWsp_cons c cs p ps hsp, if_pos hw]
      refine ⟨?_, ?_⟩
      · rw [collapseAux_false_cons, if_pos hw, hs, glue_cons2, if_pos rfl, ih2]
      · rw [collapseAux_true_cons, if_pos hw, hs, glueSkip_cons2, if_pos rfl, ih2]
    · have hs : splitWsp (c :: cs) = (c :: p) :: ps := by
        rw [splitWsp_cons c cs p ps hsp, if_neg hw]
      refine ⟨?_, ?_⟩
      · rw [collapseAux_false_cons, if_neg hw, hs, glue_cons_head, ih1]
      · rw [collapseAux_true_cons, if_neg hw, hs, glueSkip_cons_head, ih1]

theorem glueSkip_filter : ∀ Q : List Str, Q ≠ [] → Q.getLast? ≠ some ([] : Str) →
    glueSkip Q = joinSep 32 (Q.filter (· ≠ [])) ∧ Q.filter (· ≠ []) ≠ [] := by
  intro Q
  induction Q with
  | nil => intro h _; exact absurd rfl h
  | cons q Q2 ih =>
    intro _ hlast
    cases Q2 with
    | nil =>
      have hq : q ≠ [] := by
        intro he
        apply hlast
        rw [he]
        rfl
      rw [List.filter_cons, if_pos (by simpa using hq)]
      exact ⟨rfl, by simp⟩
    | cons q2 Q3 =>
      have hlast2 : (q2 :: Q3).getLast? ≠ some ([] : Str) := by
        rw [List.getLast?_cons_cons] at hlast
        exact hlast
      obtain ⟨ih1, ih2⟩ := ih (by simp) hlast2
      rw [glueSkip_cons2]
      by_cases hq : q = []
      · rw [if_pos hq, List.filter_cons, if_neg (by simp [hq])]
        exact ⟨ih1, ih2⟩
      · rw [if_neg hq, List.filter_cons, if_pos (by simpa using hq)]
        obtain ⟨f, fs, hf⟩ : ∃ f fs, (q2 :: Q3).filter (· ≠ []) = f :: fs := by
          cases hc : (q2 :: Q3).filter (· ≠ []) with
          | nil => exact absurd hc ih2
          | cons f fs => exact ⟨f, fs, rfl⟩
        rw [ih1, hf]
        exact ⟨rfl, by simp⟩

theorem glue_filter (p0 : Str) (ps : List Str) (hhead : p0 ≠ [])
    (hlast : (p0 :: ps).getLast? ≠ some ([] : Str)) :
    glue (p0 :: ps) = joinSep 32 ((p0 :: ps).filter (· ≠ [])) := by
  cases ps with
  | nil =>
    rw [List.filter_cons, if_pos (by simpa using hhead)]
    rfl
  | cons q qs =>
    have hlast2 : (q :: qs).getLast? ≠ some ([] : Str) := by
      rw [List.getLast?_cons_cons] at hlast
      exact hlast
    obtain ⟨ih1, ih2⟩ := glueSkip_filter (q :: qs) (by simp) hlast2
    rw [glue_cons2, if_neg hhead, List.filter_cons, if_pos (by simpa using hhead)]
    obtain ⟨f, fs, hf⟩ : ∃ f fs, (q :: qs).filter (· ≠ []) = f :: fs := by
      cases hc : (q :: qs).filter (· ≠ []) with
      | nil => exact absurd hc ih2
      | cons f fs => exact ⟨f, fs, rfl⟩
    rw [ih1, hf]
    rfl

theorem strip_last_not_wsp (s : Str) :
    ∀ x, (strip s).getLast? = some x → isWsp x = false := by
  intro x hx
  unfold strip at hx
  rw [List.getLast?_reverse] at hx
  exact dropWhile_head_not isWsp _ x hx

theorem splitWsp_getLast : ∀ s : Str, s ≠ [] →
    (∀ x, s.getLast? = some x → isWsp x = false) →
    (splitWsp s).getLast? ≠ some ([] : Str) := by
  intro s
  induction s with
  | nil => intro h _; exact absurd rfl h
  | cons c cs ih =>
    intro _ hl
    cases cs with
    | nil =>
      have hc : isWsp c = false := hl c rfl
      rw [splitWsp_cons c [] [] [] rfl, if_neg (by simp [hc])]
      simp
    | cons c2 cs2 =>
      have hl2 : ∀ x, (c2 :: cs2).getLast? = some x → isWsp x = false := by
        intro x hx
        exact hl x (by rw [List.getLast?_cons_cons]; exact hx)
      have ihr := ih (by simp) hl2
      obtain ⟨p, ps, hsp⟩ : ∃ p ps, splitWsp (c2 :: cs2) = p :: ps := by
        cases h : splitWsp (c2 :: cs2) with
        | nil => exact absurd h (splitWsp_ne_nil (c2 :: cs2))
        | cons p ps => exact ⟨p, ps, rfl⟩
      rw [hsp] at ihr
      by_cases hw : isWsp c = true
      · rw [splitWsp_cons c (c2 :: cs2) p ps hsp, if_pos hw, List.getLast?_cons_cons]
        exact ihr
      · rw [splitWsp_cons c (c2 :: cs2) p ps hsp, if_neg hw]
        cases ps with
        | nil => simp
        | cons q qs =>
          rw [List.getLast?_cons_cons]
          rw [List.getLast?_cons_cons] at ihr
          exact ihr

theorem collapse_strip_words (s : Str) :
    collapse (strip s) = joinSep 32 (pyWords (strip s)) := by
  cases hs : strip s with
  | nil => rfl
  | cons c cs =>
    have hh : isWsp c = false := strip_head_not_wsp s c (by rw [hs]; rfl)
    obtain ⟨p, ps, hsp⟩ : ∃ p ps, splitWsp cs = p :: ps := by
      cases h : splitWsp cs with
      | nil => exact absurd h (splitWsp_ne_nil cs)
      | cons p ps => exact ⟨p, ps, rfl⟩
    have hsw : splitWsp (c :: cs) = (c :: p) :: ps := by
      rw [splitWsp_cons c cs p ps hsp, if_neg (by simp [hh])]
    have hlast : (splitWsp (c :: cs)).getLast? ≠ some ([] : Str) :=
      splitWsp_getLast (c :: cs) (by simp)
        (fun x hx => strip_last_not_wsp s x (by rw [hs]; exact hx))
    show collapseAux false (c :: cs) = joinSep 32 (pyWords (c :: cs))
    rw [(collapse_glue (c :: cs)).1]
    unfold pyWords
    rw [hsw] at hlast ⊢
    exact glue_filter (c :: p) ps (by simp) hlast

theorem head?_mem : ∀ (l : Str) (x : Nat), l.head? = some x → x ∈ l := by
  intro l x h
  cases l with
  | nil => cases h
  | cons c cs =>
    obtain rfl : c = x := Option.some.inj h
    exact List.mem_cons_self _ _

theorem strip_joinSep (ws : List Str) (hne : ws ≠ [])
    (h : ∀ w ∈ ws, w ≠ [] ∧ ∀ c ∈ w, isWsp c = false) :
    strip (joinSep 32 ws) = joinSep 32 ws := by
  obtain ⟨w, rest, rfl⟩ : ∃ w rest, ws = w :: rest := by
    cases ws with
    | nil => exact absurd rfl hne
    | cons w rest => exact ⟨w, rest, rfl⟩
  have hh : ∀ x, (joinSep 32 (w :: rest)).head? = some x → isWsp x = false := by
    intro x hx
    rw [joinSep_head 32 w rest (h w (List.mem_cons_self _ _)).1] at hx
    exact (h w (List.mem_cons_self _ _)).2 x (head?_mem w x hx)
  have hlr : ∀ x, (joinSep 32 (w :: rest)).reverse.head? = some x → isWsp x = false := by
    intro x hx
    rw [reverse_joinSep 32 (w :: rest)] at hx
    obtain ⟨w0, rest0, hM⟩ : ∃ w0 rest0,
        ((w :: rest).map List.reverse).reverse = w0 :: rest0 := by
      cases hM : ((w :: rest).map List.reverse).reverse with
      | nil =>
        exfalso
        have h3 := congrArg List.reverse hM
        simp at h3
      | cons w0 rest0 => exact ⟨w0, rest0, rfl⟩
    rw [hM] at hx
    have hw0 : w0 ∈ (w :: rest).map List.reverse := by
      rw [← List.mem_reverse, hM]
      exact List.mem_cons_self _ _
    obtain ⟨v, hv, rfl⟩ := List.mem_map.mp hw0
    rw [joinSep_head 32 _ rest0 (by simp [(h v hv).1])] at hx
    exact (h v hv).2 x (List.mem_reverse.mp (head?_mem _ x hx))
  unfold strip
  rw [dropWhile_eq_self_of_head _ _ hh, dropWhile_eq_self_of_head _ _ hlr,
    List.reverse_reverse]

theorem collapseAux_map (f : Nat → Nat) (hf : ∀ c, isWsp c = true → f c = c) :
    ∀ s : Str,
      collapseAux false ((collapseAux false s).map f) = collapseAux false (s.map f) ∧
      collapseAux true ((collapseAux false s).map f) = collapseAux true (s.map f) ∧
      collapseAux true ((collapseAux true s).map f) = collapseAux true (s.map f) := by
  intro s
  induction s with
  | nil => exact ⟨rfl, rfl, rfl⟩
  | cons c cs ih =>
    obtain ⟨ih1, ih2, ih3⟩ := ih
    have hf32 : f 32 = 32 := hf 32 rfl
    by_cases hw : isWsp c = true
    · have hfc : f c = c := hf c hw
      have e1 : collapseAux false (c :: cs) = 32 :: collapseAux true cs := by
        rw [collapseAux_false_cons, if_pos hw]
      have e1t : collapseAux true (c :: cs) = collapseAux true cs := by
        rw [collapseAux_true_cons, if_pos hw]
      have er : (c :: cs).map f = c :: cs.map f := by rw [List.map_cons, hfc]
      have hw32 : isWsp 32 = true := rfl
      refine ⟨?_, ?_, ?_⟩
      · rw [e1, List.map_cons, hf32, collapseAux_false_cons, if_pos hw32, ih3, er,
          collapseAux_false_cons, if_pos hw]
      · rw [e1, List.map_cons, hf32, collapseAux_true_cons, if_pos hw32, ih3, er,
          collapseAux_true_cons, if_pos hw]
      · rw [e1t, ih3, er, collapseAux_true_cons, if_pos hw]
    · have e1 : collapseAux false (c :: cs) = c :: collapseAux false cs := by
        rw [collapseAux_false_cons, if_neg hw]
      have e1t : collapseAux true (c :: cs) = c :: collapseAux false cs := by
        rw [collapseAux_true_cons, if_neg hw]
      by_cases hwf : isWsp (f c) = true
      · refine ⟨?_, ?_, ?_⟩
        · rw [e1, List.map_cons, collapseAux_false_cons, if_pos hwf, ih2,
            List.map_cons, collapseAux_false_cons, if_pos hwf]
        · rw [e1, List.map_cons, collapseAux_true_cons, if_pos hwf, ih2,
            List.map_cons, collapseAux_true_cons, if_pos hwf]
        · rw [e1t, List.map_cons, collapseAux_true_cons, if_pos hwf, ih2,
            List.map_cons, collapseAux_true_cons, if_pos hwf]
      · refine ⟨?_, ?_, ?_⟩
        · rw [e1, List.map_cons, collapseAux_false_cons, if_neg hwf, ih1,
            List.map_cons, collapseAux_false_cons, if_neg hwf]
        · rw [e1, List.map_cons, collapseAux_true_cons, if_neg hwf, ih1,
            List.map_cons, collapseAux_true_cons, if_neg hwf]
        · rw [e1t, List.map_cons, collapseAux_true_cons, if_neg hwf, ih1,
            List.map_cons, collapseAux_true_cons, if_neg hwf]

theorem collapse_map_collapse (f : Nat → Nat) (hf : ∀ c, isWsp c = true → f c = c)
    (s : Str) : collapse ((collapse s).map f) = collapse (s.map f) :=
  (collapseAux_map f hf s).1

theorem collapse_ne_nil (c : Nat) (cs : Str) : collapse (c :: cs) ≠ [] := by
  show collapseAux false (c :: cs) ≠ []
  rw [collapseAux_false_cons]
  by_cases hw : isWsp c = true
  · rw [if_pos hw]
    simp
  · rw [if_neg hw]
    simp

theorem lowerS_lowerS (s : Str) : lowerS (lowerS s) = lowerS s := by
  show (s.map lowerC).map lowerC = s.map lowerC
  rw [List.map_map]
  exact List.map_congr_left fun c _ => lowerC_lowerC c

theorem capitalizeS_idem (s : Str) : capitalizeS (capitalizeS s) = capitalizeS s := by
  cases s with
  | nil => rfl
  | cons c cs =>
    show upperC (upperC c) :: lowerS (lowerS cs) = upperC c :: lowerS cs
    rw [upperC_upperC, lowerS_lowerS]

theorem lowerS_capitalizeS (s : Str) : lowerS (capitalizeS s) = lowerS s := by
  cases s with
  | nil => rfl
  | cons c cs =>
    show lowerC (upperC c) :: lowerS (lowerS cs) = lowerC c :: lowerS cs
    rw [lowerC_upperC, lowerS_lowerS]

theorem lowerS_titleCore (p : Str) : lowerS (titleCore p) = lowerS p := by
  unfold titleCore
  by_cases h : (isUpperWord p && decide (2 ≤ p.length) && decide (p.length ≤ 4)) = true
  · rw [if_pos h]
  · rw [if_neg h]
    exact lowerS_capitalizeS p

theorem titleCore_length (p : Str) : (titleCore p).length = p.length := by
  unfold titleCore
  by_cases h : (isUpperWord p && decide (2 ≤ p.length) && decide (p.length ≤ 4)) = true
  · rw [if_pos h]
  · rw [if_neg h]
    cases p with
    | nil => rfl
    | cons c cs =>
      show (upperC c :: lowerS cs).length = (c :: cs).length
      simp [lowerS]

theorem titleCore_no45 (p : Str) (h : ∀ c ∈ p, c ≠ 45) : ∀ c ∈ titleCore p, c ≠ 45 := by
  unfold titleCore
  by_cases hb : (isUpperWord p && decide (2 ≤ p.length) && decide (p.length ≤ 4)) = true
  · rw [if_pos hb]
    exact h
  · rw [if_neg hb]
    cases p with
    | nil => intro c hc; cases hc
    | cons a cs =>
      intro c hc
      rcases List.mem_cons.mp hc with rfl | hc2
      · exact upperC_ne45 a (h a (List.mem_cons_self _ _))
      · obtain ⟨b, hb2, rfl⟩ := List.mem_map.mp hc2
        exact lowerC_ne45 b (h b (List.mem_cons.mpr (Or.inr hb2)))

theorem titleCore_wspfree (p : Str) (h : ∀ c ∈ p, isWsp c = false) :
    ∀ c ∈ titleCore p, isWsp c = false := by
  unfold titleCore
  by_cases hb : (isUpperWord p && decide (2 ≤ p.length) && decide (p.length ≤ 4)) = true
  · rw [if_pos hb]
    exact h
  · rw [if_neg hb]
    cases p with
    | nil => intro c hc; cases hc
    | cons a cs =>
      intro c hc
      rcases List.mem_cons.mp hc with rfl | hc2
      · exact isWsp_upperC a (h a (List.mem_cons_self _ _))
      · obtain ⟨b, hb2, rfl⟩ := List.mem_map.mp hc2
        exact isWsp_lowerC b (h b (List.mem_cons.mpr (Or.inr hb2)))

theorem titleCore_idem (p : Str) : titleCore (titleCore p) = titleCore p := by
  by_cases h : (isUpperWord p && decide (2 ≤ p.length) && decide (p.length ≤ 4)) = true
  · have e : titleCore p = p := by
      unfold titleCore
      rw [if_pos h]
    rw [e]
    exact e
  · have e : titleCore p = capitalizeS p := by
      unfold titleCore
      rw [if_neg h]
    rw [e]
    by_cases h2 : (isUpperWord (capitalizeS p) && decide (2 ≤ (capitalizeS p).length) &&
        decide ((capitalizeS p).length ≤ 4)) = true
    · unfold titleCore
      rw [if_pos h2]
    · unfold titleCore
      rw [if_neg h2]
      exact capitalizeS_idem p

theorem lowerS_titleWord (w : Str) : lowerS (titleWord w) = lowerS w := by
  show (titleWord w).map lowerC = w.map lowerC
  unfold titleWord
  rw [map_joinSep lowerC 45 rfl, List.map_map]
  have h1 : (splitOnC 45 w).map ((·.map lowerC) ∘ titleCore) =
      (splitOnC 45 w).map (·.map lowerC) := by
    exact List.map_congr_left fun p _ => lowerS_titleCore p
  rw [h1, ← map_joinSep lowerC 45 rfl, joinSep_splitOnC]

theorem titleWord_length (w : Str) : (titleWord w).length = w.length := by
  have h := congrArg List.length (lowerS_titleWord w)
  simpa [lowerS] using h

theorem titleWord_ne_nil (w : Str) (h : w ≠ []) : titleWord w ≠ [] := by
  intro he
  apply h
  have h2 := titleWord_length w
  rw [he] at h2
  exact List.length_eq_zero.mp h2.symm

theorem titleWord_wspfree (w : Str) (h : ∀ c ∈ w, isWsp c = false) :
    ∀ c ∈ titleWord w, isWsp c = false := by
  unfold titleWord
  intro c hc
  rcases mem_joinSep 45 _ c hc with rfl | ⟨p, hp, hcp⟩
  · rfl
  · obtain ⟨q, hq, rfl⟩ := List.mem_map.mp hp
    exact titleCore_wspfree q (fun x hx => h x (splitOnC_chars 45 w q hq x hx).1) c hcp

theorem titleWord_idem (w : Str) : titleWord (titleWord w) = titleWord w := by
  unfold titleWord
  have hfree : ∀ q ∈ (splitOnC 45 w).map titleCore, ∀ c ∈ q, c ≠ 45 := by
    intro q hq c hc
    obtain ⟨r, hr, rfl⟩ := List.mem_map.mp hq
    exact titleCore_no45 r (fun x hx => (splitOnC_chars 45 w r hr x hx).2) c hc
  have hne : (splitOnC 45 w).map titleCore ≠ [] := by
    simp [splitOnC_ne_nil 45 w]
  rw [splitOnC_joinSep 45 _ hne hfree, List.map_map]
  exact congrArg (joinSep 45) (List.map_congr_left fun p _ => titleCore_idem p)

theorem titleGym_eq_nil (s : Str) (h : pyWords (strip s) = []) : titleGym s = [] := by
  have hn : collapse (strip s) = [] := by
    rw [collapse_strip_words s, h]
    rfl
  show (if collapse (strip s) = [] then collapse (strip s)
    else joinSep 32 ((splitOnC 32 (collapse (strip s))).map titleWord)) = []
  rw [if_pos hn, hn]

theorem titleGym_words (s : Str) (h : pyWords (strip s) ≠ []) :
    titleGym s = joinSep 32 ((pyWords (strip s)).map titleWord) := by
  obtain ⟨w, ws, hw⟩ : ∃ w ws, pyWords (strip s) = w :: ws := by
    cases hc : pyWords (strip s) with
    | nil => exact absurd hc h
    | cons w ws => exact ⟨w, ws, rfl⟩
  have hspec := pyWords_spec (strip s)
  have hCW := collapse_strip_words s
  have hne : collapse (strip s) ≠ [] := by
    rw [hCW, hw]
    exact joinSep_ne_nil 32 w ws (hspec w (by rw [hw]; exact List.mem_cons_self _ _)).1
  show (if collapse (strip s) = [] then collapse (strip s)
    else joinSep 32 ((splitOnC 32 (collapse (strip s))).map titleWord)) = _
  rw [if_neg hne, hCW, splitOnC_joinSep 32 (pyWords (strip s)) h
    (fun p hp c hc he => absurd (he ▸ (hspec p hp).2 c hc) (by decide))]

theorem strip_titleGym (s : Str) : strip (titleGym s) = titleGym s := by
  by_cases h : pyWords (strip s) = []
  · rw [titleGym_eq_nil s h]
    rfl
  · rw [titleGym_words s h]
    apply strip_joinSep
    · simp [h]
    · intro w' hw'
      obtain ⟨w, hw, rfl⟩ := List.mem_map.mp hw'
      have hs2 := pyWords_spec (strip s) w hw
      exact ⟨titleWord_ne_nil w hs2.1, titleWord_wspfree w hs2.2⟩

theorem titleGym_idem (s : Str) : titleGym (titleGym s) = titleGym s := by
  by_cases h : pyWords (strip s) = []
  · rw [titleGym_eq_nil s h]
    rfl
  · have hspec := pyWords_spec (strip s)
    have ht : titleGym s = joinSep 32 ((pyWords (strip s)).map titleWord) :=
      titleGym_words s h
    have hW2 : ∀ w' ∈ (pyWords (strip s)).map titleWord,
        w' ≠ [] ∧ ∀ c ∈ w', isWsp c = false := by
      intro w' hw'
      obtain ⟨w, hw, rfl⟩ := List.mem_map.mp hw'
      exact ⟨titleWord_ne_nil w (hspec w hw).1, titleWord_wspfree w (hspec w hw).2⟩
    have hne2 : (pyWords (strip s)).map titleWord ≠ [] := by simp [h]
    have hpw : pyWords (strip (titleGym s)) = (pyWords (strip s)).map titleWord := by
      rw [strip_titleGym s, ht]
      exact pyWords_joinSep _ hne2 hW2
    have h2 : pyWords (strip (titleGym s)) ≠ [] := by
      rw [hpw]
      exact hne2
    rw [titleGym_words (titleGym s) h2, hpw, List.map_map, ht]
    exact congrArg (joinSep 32) (List.map_congr_left fun w _ => titleWord_idem w)

theorem keyOf_map (t : Str) :
    keyOf t = collapse ((strip t).map ((fun c => if c = 45 then 32 else c) ∘ lowerC)) := by
  unfold keyOf replaceHyph lowerS
  rw [List.map_map]

theorem keyMap_wsp_fix (c : Nat) (h : isWsp c = true) :
    ((fun c => if c = 45 then 32 else c) ∘ lowerC) c = c := by
  rw [isWsp_iff] at h
  rcases h with rfl | rfl | rfl | rfl | rfl | rfl <;> rfl

theorem keyMap_titleWord (w : Str) :
    (titleWord w).map ((fun c => if c = 45 then 32 else c) ∘ lowerC) =
      w.map ((fun c => if c = 45 then 32 else c) ∘ lowerC) := by
  rw [← List.map_map, ← List.map_map]
  rw [show (titleWord w).map lowerC = w.map lowerC from lowerS_titleWord w]

theorem keyOf_titleGym (s : Str) : keyOf (titleGym s) = keyOf s := by
  rw [keyOf_map (titleGym s), keyOf_map s, strip_titleGym s]
  by_cases h : pyWords (strip s) = []
  · rw [titleGym_eq_nil s h]
    have hn : collapse (strip s) = [] := by
      rw [collapse_strip_words s, h]
      rfl
    have hs0 : strip s = [] := by
      cases hc : strip s with
      | nil => rfl
      | cons c cs => exact absurd (hc ▸ hn) (collapse_ne_nil c cs)
    rw [hs0]
  · rw [titleGym_words s h,
      map_joinSep ((fun c => if c = 45 then 32 else c) ∘ lowerC) 32 rfl, List.map_map]
    have hcg : (pyWords (strip s)).map
          ((fun p => p.map ((fun c => if c = 45 then 32 else c) ∘ lowerC)) ∘ titleWord) =
        (pyWords (strip s)).map
          (fun p => p.map ((fun c => if c = 45 then 32 else c) ∘ lowerC)) :=
      List.map_congr_left fun w _ => keyMap_titleWord w
    rw [hcg, ← map_joinSep ((fun c => if c = 45 then 32 else c) ∘ lowerC) 32 rfl,
      ← collapse_strip_words s]
    exact collapse_map_collapse _ keyMap_wsp_fix (strip s)

theorem gymCounts_some (b : List Str) (k : Str) (vs : List (Str × Nat))
    (hl : alookup k (gymCounts b) = some vs) :
    k ≠ [] ∧ vs = groupFold [] b k ∧ vs ≠ [] := by
  have hk : k ≠ [] := by
    intro he
    rw [he, gymCounts_lookup_nil] at hl
    cases hl
  rw [gymCounts_lookup b k hk] at hl
  by_cases hgf : groupFold [] b k = []
  · rw [if_pos hgf] at hl
    cases hl
  · rw [if_neg hgf] at hl
    have he := Option.some.inj hl
    exact ⟨hk, he.symm, fun hnil => hgf (he.trans hnil)⟩

theorem gymCounts_self_some (b : List Str) (g : Str) (hg : g ∈ b) (hk : keyOf g ≠ []) :
    alookup (keyOf g) (gymCounts b) = some (groupFold [] b (keyOf g)) ∧
      (strip g, vcountK b (keyOf g) (strip g)) ∈ groupFold [] b (keyOf g) := by
  have hpos := vcountK_self_pos b g hg
  have hsome : alookup (strip g) (groupFold [] b (keyOf g)) =
      some (vcountK b (keyOf g) (strip g)) := by
    rw [alookup_groupFold]
    cases hc : vcountK b (keyOf g) (strip g) with
    | zero => omega
    | succ m => simp [alookup]
  have hgf : groupFold [] b (keyOf g) ≠ [] := by
    intro he
    rw [he] at hsome
    simp [alookup] at hsome
  refine ⟨?_, mem_of_alookup_eq_some _ _ _ hsome⟩
  rw [gymCounts_lookup b (keyOf g) hk, if_neg hgf]

theorem groupFold_entry (b : List Str) (k : Str) (p : Str × Nat)
    (hp : p ∈ groupFold [] b k) :
    ∃ g0 ∈ b, keyOf g0 = k ∧ strip g0 = p.1 := by
  have hnd := groupFold_keys_nodup k b [] (by simp)
  have hlv := alookup_eq_some_of_mem_nodup _ hnd p.1 p.2 hp
  rw [alookup_groupFold] at hlv
  have hvc : 0 < vcountK b k p.1 := by
    cases hc : vcountK b k p.1 with
    | zero =>
      rw [hc] at hlv
      simp [alookup] at hlv
    | succ m => omega
  exact vcountK_exists_of_pos b k p.1 hvc

theorem phase1_mem (b : List Str) (g' : Str) (h : g' ∈ applyPhase1 b) :
    keyOf g' = [] ∨
      (titleGym g' = g' ∧ keyOf g' ≠ [] ∧
        g' = canonicalOfGroup (groupFold [] b (keyOf g'))) := by
  unfold applyPhase1 at h
  obtain ⟨g, hg, hmap⟩ := List.mem_map.mp h
  cases hcase : alookup (keyOf g) (gymCounts b) with
  | none =>
    simp only [hcase] at hmap
    left
    by_cases hk : keyOf g = []
    · rw [← hmap]
      exact hk
    · exfalso
      have h2 := (gymCounts_self_some b g hg hk).1
      rw [h2] at hcase
      cases hcase
  | some vs =>
    simp only [hcase] at hmap
    right
    have hvs := gymCounts_some b (keyOf g) vs hcase
    obtain ⟨p, hp, hcanon, -⟩ := canonicalOfGroup_spec vs hvs.2.2
    have hpf : p ∈ groupFold [] b (keyOf g) := by
      rw [← hvs.2.1]
      exact hp
    obtain ⟨g0, hg0, hg0k, hg0s⟩ := groupFold_entry b (keyOf g) p hpf
    have hkey : keyOf p.1 = keyOf g := by
      rw [← hg0s, keyOf_strip, hg0k]
    have hkg : keyOf g' = keyOf g := by
      rw [← hmap, hcanon, keyOf_titleGym, hkey]
    refine ⟨?_, ?_, ?_⟩
    · rw [← hmap, hcanon, titleGym_idem]
    · rw [hkg]
      exact hvs.1
    · rw [hkg, ← hvs.2.1, ← hmap]

theorem list_map_id_of {α : Type} (l : List α) (f : α → α) (h : ∀ a ∈ l, f a = a) :
    l.map f = l := by
  induction l with
  | nil => rfl
  | cons a t ih =>
    rw [List.map_cons, h a (List.mem_cons_self _ _),
      ih (fun x hx => h x (List.mem_cons.mpr (Or.inr hx)))]

theorem gymCounts_singleton (c : List Str)
    (hfix : ∀ g ∈ c, titleGym g = g ∨ keyOf g = [])
    (huniq : ∀ g1 ∈ c, ∀ g2 ∈ c, keyOf g1 = keyOf g2 → keyOf g1 ≠ [] → g1 = g2) :
    ∀ k vs, alookup k (gymCounts c) = some vs →
      ∀ p ∈ vs, p.1 ∈ c ∧ canonicalOfGroup vs = p.1 := by
  intro k vs hl
  obtain ⟨hk, hvsf, hvsne⟩ := gymCounts_some c k vs hl
  have hentry : ∀ p ∈ vs, p.1 ∈ c ∧ keyOf p.1 = k := by
    intro p hp
    have hpf : p ∈ groupFold [] c k := by
      rw [← hvsf]
      exact hp
    obtain ⟨g0, hg0, hg0k, hg0s⟩ := groupFold_entry c k p hpf
    have hsg : strip g0 = g0 := by
      rcases hfix g0 hg0 with hf | hf
      · rw [← hf]
        exact strip_titleGym g0
      · exact absurd (hg0k.symm.trans hf) hk
    rw [← hg0s, hsg]
    exact ⟨hg0, hg0k⟩
  intro p hp
  refine ⟨(hentry p hp).1, ?_⟩
  obtain ⟨q, hq, hcanon, -⟩ := canonicalOfGroup_spec vs hvsne
  have h1 := hentry q hq
  have h2 := hentry p hp
  have heq : q.1 = p.1 :=
    huniq q.1 h1.1 p.1 h2.1 (by rw [h1.2, h2.2]) (by rw [h1.2]; exact hk)
  rw [hcanon, heq]
  rcases hfix p.1 h2.1 with hf | hf
  · exact hf
  · exact absurd (h2.2.symm.trans hf) hk

theorem applyPhase1_fixed (c : List Str)
    (hfix : ∀ g ∈ c, titleGym g = g ∨ keyOf g = [])
    (huniq : ∀ g1 ∈ c, ∀ g2 ∈ c, keyOf g1 = keyOf g2 → keyOf g1 ≠ [] → g1 = g2) :
    applyPhase1 c = c := by
  unfold applyPhase1
  apply list_map_id_of
  intro g hg
  cases hcase : alookup (keyOf g) (gymCounts c) with
  | none => simp only [hcase]
  | some vs =>
    simp only [hcase]
    have hk : keyOf g ≠ [] := (gymCounts_some c (keyOf g) vs hcase).1
    have hsg : strip g = g := by
      rcases hfix g hg with hf | hf
      · rw [← hf]
        exact strip_titleGym g
      · exact absurd hf hk
    obtain ⟨hlook, hmem⟩ := gymCounts_self_some c g hg hk
    have hvs : vs = groupFold [] c (keyOf g) := Option.some.inj (hcase.symm.trans hlook)
    have hmem2 : (strip g, vcountK c (keyOf g) (strip g)) ∈ vs := by
      rw [hvs]
      exact hmem
    have hcan := (gymCounts_singleton c hfix huniq (keyOf g) vs hcase
      (strip g, vcountK c (keyOf g) (strip g)) hmem2).2
    rw [hcan]
    exact hsg

theorem autoMergedOf_nil (c : List Str)
    (hfix : ∀ g ∈ c, titleGym g = g ∨ keyOf g = [])
    (huniq : ∀ g1 ∈ c, ∀ g2 ∈ c, keyOf g1 = keyOf g2 → keyOf g1 ≠ [] → g1 = g2) :
    autoMergedOf c = [] := by
  unfold autoMergedOf
  rw [List.eq_nil_iff_forall_not_mem]
  intro pr hpr
  rw [List.mem_filter] at hpr
  obtain ⟨hprm, hprne⟩ := hpr
  rw [List.mem_flatMap] at hprm
  obtain ⟨kv, hkv, hpr2⟩ := hprm
  obtain ⟨p, hp, rfl⟩ := List.mem_map.mp hpr2
  have hl := alookup_eq_some_of_mem_nodup _ (gymCounts_keys_nodup c) kv.1 kv.2 hkv
  have hcan := (gymCounts_singleton c hfix huniq kv.1 kv.2 hl p hp).2
  simp [hcan] at hprne

theorem applyPhase2_mem (m : List (Str × Str)) (c : List Str) (g' : Str)
    (h : g' ∈ applyPhase2 m c) : g' ∈ c ∨ ∃ p ∈ m, p.2 = g' := by
  unfold applyPhase2 at h
  obtain ⟨g, hg, hmap⟩ := List.mem_map.mp h
  unfold phase2Rewrite at hmap
  cases hc : alookup g m with
  | none =>
    simp only [hc] at hmap
    exact Or.inl (hmap ▸ hg)
  | some t =>
    simp only [hc] at hmap
    exact Or.inr ⟨(g, t), mem_of_alookup_eq_some _ _ _ hc, hmap⟩

theorem applyPhase2_nil (c : List Str) : applyPhase2 [] c = c := by
  unfold applyPhase2
  exact list_map_id_of c _ (fun g _ => rfl)

theorem mem_aset_snd {β : Type} (l : List (Str × β)) (k : Str) (v : β) :
    ∀ p ∈ aset l k v, p ∈ l ∨ p.2 = v := by
  induction l with
  | nil =>
    intro p hp
    obtain rfl := List.mem_singleton.mp hp
    exact Or.inr rfl
  | cons q rest ih =>
    obtain ⟨k2, w⟩ := q
    intro p hp
    unfold aset at hp
    by_cases hk : k2 = k
    · rw [if_pos hk] at hp
      rcases List.mem_cons.mp hp with rfl | hp2
      · exact Or.inr rfl
      · exact Or.inl (List.mem_cons.mpr (Or.inr hp2))
    · rw [if_neg hk] at hp
      rcases List.mem_cons.mp hp with rfl | hp2
      · exact Or.inl (List.mem_cons_self _ _)
      · rcases ih p hp2 with h | h
        · exact Or.inl (List.mem_cons.mpr (Or.inr h))
        · exact Or.inr h

theorem loserFold_snd (best : Str) : ∀ (forms : List Str) (m : List (Str × Str)),
    ∀ p ∈ forms.foldl (fun m2 sf => if sf ≠ best then aset m2 sf best else m2) m,
      p ∈ m ∨ p.2 = best := by
  intro forms
  induction forms with
  | nil => intro m p hp; exact Or.inl hp
  | cons sf fs ih =>
    intro m p hp
    rcases ih _ p hp with h | h
    · change p ∈ (if sf ≠ best then aset m sf best else m) at h
      by_cases hsb : sf ≠ best
      · rw [if_pos hsb] at h
        exact mem_aset_snd m sf best p h
      · rw [if_neg hsb] at h
        exact Or.inl h
    · exact Or.inr h

theorem smStep_snd (b1 u : List Str) (m : List (Str × Str)) (kv : Str × List Str) :
    ∀ p ∈ smStep b1 u m kv, p ∈ m ∨ p.2 ∈ kv.2 := by
  obtain ⟨base, forms⟩ := kv
  intro p hp
  unfold smStep at hp
  by_cases hb : base ∈ u
  · rw [if_pos hb] at hp
    cases forms with
    | nil =>
      cases hc : gymAthleteCounts b1 ([] : List Str) with
      | nil =>
        simp only [hc] at hp
        exact Or.inl hp
      | cons p0 rest =>
        simp only [hc] at hp
        rcases mem_aset_snd m base (pickMaxA p0 rest).1 p hp with h | h
        · exact Or.inl h
        · right
          rw [h]
          have hm := pickMaxA_mem rest p0
          rw [← hc] at hm
          exact (mem_gymAthleteCounts b1 _ _ _ hm).1
    | cons f fs =>
      cases fs with
      | nil =>
        rcases mem_aset_snd m base f p hp with h | h
        · exact Or.inl h
        · right
          rw [h]
          exact List.mem_cons_self _ _
      | cons f2 fs2 =>
        cases hc : gymAthleteCounts b1 (f :: f2 :: fs2) with
        | nil =>
          simp only [hc] at hp
          exact Or.inl hp
        | cons p0 rest =>
          simp only [hc] at hp
          rcases loserFold_snd (pickMaxA p0 rest).1 (f :: f2 :: fs2) _ p hp with h | h
          · rcases mem_aset_snd m base (pickMaxA p0 rest).1 p h with h2 | h2
            · exact Or.inl h2
            · right
              rw [h2]
              have hm := pickMaxA_mem rest p0
              rw [← hc] at hm
              exact (mem_gymAthleteCounts b1 _ _ _ hm).1
          · right
            rw [h]
            have hm := pickMaxA_mem rest p0
            rw [← hc] at hm
            exact (mem_gymAthleteCounts b1 _ _ _ hm).1
  · rw [if_neg hb] at hp
    exact Or.inl hp

theorem suffixMergeMap_snd (b1 : List Str) :
    ∀ p ∈ suffixMergeMap b1, p.2 ∈ uniqueNE b1 := by
  have aux : ∀ (L : List (Str × List Str)) (m : List (Str × Str)),
      (∀ kv ∈ L, ∀ f ∈ kv.2, f ∈ uniqueNE b1) →
      (∀ p ∈ m, p.2 ∈ uniqueNE b1) →
      ∀ p ∈ L.foldl (smStep b1 (uniqueNE b1)) m, p.2 ∈ uniqueNE b1 := by
    intro L
    induction L with
    | nil => intro m _ hm p hp; exact hm p hp
    | cons kv L2 ih =>
      intro m hL hm p hp
      refine ih _ (fun kv2 h2 => hL kv2 (List.mem_cons.mpr (Or.inr h2))) ?_ p hp
      intro q hq
      rcases smStep_snd b1 (uniqueNE b1) m kv q hq with h | h
      · exact hm q h
      · exact hL kv (List.mem_cons_self _ _) q.2 h
  intro p hp
  refine aux (baseToSuffixed (uniqueNE b1)) [] ?_ (fun q hq => absurd hq (by simp)) p hp
  intro kv hkv f hf
  have h2 := mem_baseToSuffixed (uniqueNE b1) kv hkv
  rw [h2.1] at hf
  exact ((mem_suffixFormsOf _ _ _).mp hf).1

theorem suffixMergeMap_nil (c : List Str)
    (hchain : ∀ x ∈ uniqueNE c, ¬(isSuffixed x = true ∧ bareOf x ∈ uniqueNE c)) :
    suffixMergeMap c = [] := by
  have aux : ∀ L : List (Str × List Str),
      (∀ kv ∈ L, kv.1 ∉ uniqueNE c) → L.foldl (smStep c (uniqueNE c)) [] = [] := by
    intro L
    induction L with
    | nil => intro _; rfl
    | cons kv L2 ih =>
      intro h
      show L2.foldl _ (smStep c (uniqueNE c) [] kv) = []
      have hstep : smStep c (uniqueNE c) [] kv = [] := by
        unfold smStep
        rw [if_neg (h kv (List.mem_cons_self _ _))]
      rw [hstep]
      exact ih (fun kv2 h2 => h kv2 (List.mem_cons.mpr (Or.inr h2)))
  unfold suffixMergeMap
  apply aux
  intro kv hkv hk1
  obtain ⟨hkv2, hkvne⟩ := mem_baseToSuffixed _ kv hkv
  obtain ⟨x, hx⟩ := List.exists_mem_of_ne_nil _ hkvne
  obtain ⟨hxu, hxs, hxb⟩ := (mem_suffixFormsOf _ _ _).mp hx
  exact hchain x hxu ⟨hxs, by rw [hxb]; exact hk1⟩

/-- C3 (amended): without an alias map, a second run of the normalizer on
its own output yields zero new merges and an unchanged batch, provided the
first run's output contains no chained suffix family — no gym name that
still ends in a recognized suffix word while its bare prefix also remains a
distinct name of the output. -/
theorem c3_idempotence_amended (batch : List Str)
    (hchain : ∀ x ∈ uniqueNE (normalize batch none).batch,
      ¬(isSuffixed x = true ∧ bareOf x ∈ uniqueNE (normalize batch none).batch)) :
    normalize (normalize batch none).batch none =
      ⟨(normalize batch none).batch, [], []⟩ := by
  have hn : (normalize batch none).batch =
      applyPhase2 (suffixMergeMap (applyPhase1 batch)) (applyPhase1 batch) := rfl
  have hb1mem : ∀ g ∈ (normalize batch none).batch, g ∈ applyPhase1 batch := by
    intro g hg
    rw [hn] at hg
    rcases applyPhase2_mem _ _ g hg with h | ⟨p, hp, hpe⟩
    · exact h
    · have h2 := suffixMergeMap_snd (applyPhase1 batch) p hp
      rw [hpe] at h2
      exact ((mem_uniqueNE _ _).mp h2).1
  have hfix : ∀ g ∈ (normalize batch none).batch, titleGym g = g ∨ keyOf g = [] := by
    intro g hg
    rcases phase1_mem batch g (hb1mem g hg) with h | h
    · exact Or.inr h
    · exact Or.inl h.1
  have huniq : ∀ g1 ∈ (normalize batch none).batch, ∀ g2 ∈ (normalize batch none).batch,
      keyOf g1 = keyOf g2 → keyOf g1 ≠ [] → g1 = g2 := by
    intro g1 h1 g2 h2 hk hk1
    rcases phase1_mem batch g1 (hb1mem g1 h1) with ha | ha
    · exact absurd ha hk1
    · rcases phase1_mem batch g2 (hb1mem g2 h2) with hb | hb
      · exact absurd (hk ▸ hb) hk1
      · rw [ha.2.2, hb.2.2, hk]
  have h1 : applyPhase1 (normalize batch none).batch = (normalize batch none).batch :=
    applyPhase1_fixed _ hfix huniq
  have h2 : autoMergedOf (normalize batch none).batch = [] :=
    autoMergedOf_nil _ hfix huniq
  have h3 : suffixMergeMap (applyPhase1 (normalize batch none).batch) = [] := by
    rw [h1]
    exact suffixMergeMap_nil _ hchain
  show (⟨applyPhase2 (suffixMergeMap (applyPhase1 (normalize batch none).batch))
      (applyPhase1 (normalize batch none).batch),
    autoMergedOf (normalize batch none).batch,
    suffixMergeMap (applyPhase1 (normalize batch none).batch)⟩ : NormResult) = _
  rw [h3, h1, h2, applyPhase2_nil]

/-- C3 witness for the amended theorem: on the spec's own suffix-merge
example batch the second run is a strict no-op. -/
theorem c3_idempotence_amended_witness :
    normalize (normalize wBatchC8 none).batch none =
      ⟨(normalize wBatchC8 none).batch, [], []⟩ :=
  c3_idempotence_amended wBatchC8 (by decide)

end MeetScores
